import Mathlib

/-!
# The dusk consensus node: a shallow embedding

The definitions below follow `pkg/core/consensus/blockreduction.go`,
`pkg/core/consensus/reduction/committee.go`, `pkg/core/consensus/generation/proof.go`,
`pkg/core/consensus/collector.go`, `pkg/core/chain/mock.go`,
`pkg/util/nativeutils/eventbus/listenermap.go`, `wire/message.go`,
`pkg/core/data/transactions/phoenix.go`, `pkg/core/consensus/setreduction.go`,
`pkg/p2p/peer/responding/databroker.go` and `pkg/p2p/peer/peerhandshake.go`; the duplicate
filter of `pkg/p2p/peer/dupemap` and the codec of `crypto/base58`, of which the sources hold
the tests only, are modelled from the specification.

Conventions of the embedding.

* A Go byte slice is `Bytes = Option (List Nat)`: `none` is the nil slice, `some l` a
  non-nil slice with contents `l` (bytes are naturals below 256; nothing depends on the bound).
  Where nil and empty slices are not told apart by the code, a slice is the list of its bytes.
* `uint8`, `uint32` and `uint64` values are naturals reduced `% 2^w` wherever the source
  computes with them.
* Functions of other packages that the source calls (`ProcessMsg`, `sortition.Deterministic`,
  `ctx.BLSSign`, the codecs of the wire, ...) are fields of an environment; they read their
  arguments and return a value.
* The `select` of `countVotesReduction` is driven by a list of `Event`s: what the loop
  receives, in the order it receives it. The message that `committeeVoteReduction` puts on
  `ctx.ReductionChan` is recorded as an effect and reaches the loop through that list like
  the messages of the other nodes.
* A run-time panic is a result of its own (`none`, or a constructor `panicked`).
-/

namespace Dusk

/-- A Go byte slice; `none` is the nil slice. -/
abbrev Bytes := Option (List Nat)

/-- The contents of a byte slice (a nil slice has no contents). -/
def bytesData : Bytes → List Nat
  | none => []
  | some l => l

/-- Go's `bytes.Equal`: equal length and contents; a nil slice equals an empty one. -/
def bytesEqual (a b : Bytes) : Bool :=
  bytesData a == bytesData b

/-- Go's `hex.EncodeToString`: two hexadecimal digits per byte, high digit first
(the digits are kept as numbers). -/
def hexEncodeToString (b : Bytes) : List Nat :=
  (bytesData b).flatMap fun x => [x / 16, x % 16]

/-- Go errors are identified by a code. -/
abbrev GoError := Nat

/-- The priorities of `prerror`; the source only tests for `High`. -/
inductive Priority where
  | High
  | Medium
  | Low
  deriving DecidableEq, Repr

/-- The `prerror.PrError` returned by `ProcessMsg`: a priority and the wrapped error. -/
structure PrError where
  Priority : Priority
  Err : GoError
  deriving DecidableEq, Repr

/-- The `consensusmsg.Vote` of the data model: block hash, BLS key, BLS signature, step. -/
structure Vote where
  Hash : Bytes
  PubKey : Bytes
  Sig : Bytes
  Step : Nat
  deriving DecidableEq, Repr

/-- The `consensusmsg.Reduction` payload: block hash, BLS signature, BLS public key. -/
structure Reduction where
  BlockHash : Bytes
  SigBLS : Bytes
  PubKeyBLS : Bytes
  deriving DecidableEq, Repr

/-- The fields of `payload.MsgConsensus` that the reduction phase reads. -/
structure MsgConsensus where
  PubKey : Bytes
  Payload : Reduction
  deriving DecidableEq, Repr

/-- The fields of the consensus `Context` that the reduction phase reads or writes.
`Step` is a `uint8`. -/
structure Context where
  Round : Nat
  Step : Nat
  BlockHash : Bytes
  BlockVotes : List Vote
  CurrentCommittee : List Bytes
  EdPubKey : Bytes
  deriving DecidableEq, Repr

/-- The functions of other packages called by the reduction phase. -/
structure Env where
  /-- The call `ProcessMsg(ctx, m)`: the vote weight of the sender (a `uint8`), or a prioritised error. -/
  ProcessMsg : Context → MsgConsensus → Except PrError Nat
  /-- The validation done by `consensusmsg.NewVote(hash, pubKey, sig, step)`. -/
  NewVoteCheck : Bytes → Bytes → Bytes → Nat → Option GoError
  /-- The call `sortition.Deterministic(ctx.Round, ctx.W, ctx.Step, CommitteeSize, ...)`. -/
  Deterministic : Context → Except GoError (List Bytes)
  /-- The call `sortition.Verify(committee, pubKey)`: the number of votes of a key. -/
  Verify : List Bytes → Bytes → Nat
  /-- The call `ctx.BLSSign(sk, pk, hash)` with the keys of the context. -/
  BLSSign : Context → Bytes → Except GoError Bytes
  /-- The call `consensusmsg.NewReduction(hash, sigBLS, pubKeyBLS)`. -/
  NewReduction : Context → Bytes → Bytes → Except GoError Reduction
  /-- The call `CreateSignature(ctx, pl)`. -/
  CreateSignature : Context → Reduction → Except GoError Bytes
  /-- The call `payload.NewMsgConsensus(version, round, lastHash, step, sigEd, pubKey, pl)`. -/
  NewMsgConsensus : Context → Bytes → Reduction → Except GoError MsgConsensus
  /-- The call `ctx.SendMessage(ctx.Magic, msg)`. -/
  SendMessage : Context → MsgConsensus → Option GoError
  /-- The call `SendSetAgreement(ctx, ctx.BlockVotes)`. -/
  SendSetAgreement : Context → List Vote → Option GoError

/-- Modelled from the spec: `consensusmsg.NewVote` is not among the sources. It builds the
`Vote` of the data model (block hash, BLS key, BLS signature, step) from its four
arguments, or returns the error of its validation. -/
def NewVote (env : Env) (hash pubKey sig : Bytes) (step : Nat) : Except GoError Vote :=
  match env.NewVoteCheck hash pubKey sig step with
  | some e => .error e
  | none => .ok { Hash := hash, PubKey := pubKey, Sig := sig, Step := step }

/-! ## The in-place pruning loop (blockreduction.go, lines 190-194) -/

/-- One iteration `i` of `for i, vote := range ctx.BlockVotes`. The state is the backing
array `A` shared by the ranged slice and `ctx.BlockVotes`, and the current length `L` of
`ctx.BlockVotes`. `vote` is read from `A[i]`. When its hash differs from the winner,
`append(ctx.BlockVotes[:i], ctx.BlockVotes[i+1:]...)` moves `A[i+1..L)` one place down
inside the same array and the length drops by one; `ctx.BlockVotes[i+1:]` panics
(`none`) when `i+1` exceeds the current length. -/
def pruneIter (win : Bytes) (st : List Vote × Nat) (i : Nat) : Option (List Vote × Nat) :=
  match st.1.get? i with
  | none => none
  | some vote =>
    if bytesEqual vote.Hash win then some st
    else if i + 1 ≤ st.2 then
      some (st.1.take i ++ (st.1.drop (i + 1)).take (st.2 - (i + 1)) ++ st.1.drop (st.2 - 1),
            st.2 - 1)
    else none

/-- The whole pruning loop: the range is over the slice as it was on entry, so the index
runs over `0 .. len-1` of the original slice. The result is `ctx.BlockVotes` after the
loop, `none` if an iteration panicked. -/
def pruneVotes (win : Bytes) (votes : List Vote) : Option (List Vote) :=
  ((List.range votes.length).foldlM (pruneIter win) (votes, votes.length)).map
    fun st => st.1.take st.2

/-! ## countVotesReduction (blockreduction.go, lines 126-199) -/

/-- The map `counts` of type `map[string]uint8`, as an association list. -/
abbrev Counts := List (List Nat × Nat)

/-- Reading `counts[k]`: a missing key reads as 0. -/
def countsGet (c : Counts) (k : List Nat) : Nat :=
  (c.lookup k).getD 0

/-- Writing `counts[k] = v`. -/
def countsSet (c : Counts) (k : List Nat) (v : Nat) : Counts :=
  (k, v) :: c.filter fun p => !(p.1 == k)

/-- The local variables of `countVotesReduction` together with the context. -/
structure LoopState where
  ctx : Context
  voteLimit : Nat
  counts : Counts
  voters : List (List Nat)
  deriving DecidableEq, Repr

/-- What the `select` receives: the timer firing, or a message on `ctx.ReductionChan`. -/
inductive Event where
  | timer
  | msg (m : MsgConsensus)
  deriving DecidableEq, Repr

/-- The effect of one pass through the `for`/`select`. -/
inductive Flow where
  /-- The `break` of the select: the loop goes on. -/
  | next (s : LoopState)
  /-- The function returns (with `nil` or an error). -/
  | ret (ctx : Context) (err : Option GoError)
  /-- A run-time panic. -/
  | panicked
  deriving DecidableEq, Repr

/-- One pass through the body of the loop of `countVotesReduction`. -/
def loopBody (env : Env) (s : LoopState) : Event → Flow
  | .timer => .ret { s.ctx with BlockHash := none } none
  | .msg m =>
    let pl := m.Payload
    let pkEd := hexEncodeToString m.PubKey
    if s.voters.contains pkEd then .next s
    else
      match env.ProcessMsg s.ctx m with
      | .error err =>
        if err.Priority = Priority.High then .ret s.ctx (some err.Err) else .next s
      | .ok v =>
        let votes := v % 256
        if votes = 0 then .next s
        else
          let voters := pkEd :: s.voters
          let hashStr := hexEncodeToString pl.BlockHash
          let counts := countsSet s.counts hashStr ((countsGet s.counts hashStr + votes) % 256)
          match NewVote env pl.BlockHash pl.PubKeyBLS pl.SigBLS s.ctx.Step with
          | .error err2 => .ret s.ctx (some err2)
          | .ok blockVote =>
            let ctx1 := { s.ctx with BlockVotes := s.ctx.BlockVotes ++ [blockVote] }
            if countsGet counts hashStr < s.voteLimit then
              .next { s with ctx := ctx1, counts := counts, voters := voters }
            else
              match pruneVotes pl.BlockHash ctx1.BlockVotes with
              | none => .panicked
              | some vs => .ret { ctx1 with BlockHash := pl.BlockHash, BlockVotes := vs } none

/-- How a call ends on a finite list of events. -/
inductive Outcome where
  /-- The events ran out while the loop was still waiting in `select`. -/
  | blocked (s : LoopState)
  /-- The function returned; `rest` are the events it did not consume. -/
  | returned (ctx : Context) (err : Option GoError) (rest : List Event)
  /-- A run-time panic. -/
  | panicked
  deriving DecidableEq, Repr

/-- The loop of `countVotesReduction` run on a list of events. -/
def runLoop (env : Env) : LoopState → List Event → Outcome
  | s, [] => .blocked s
  | s, e :: es =>
    match loopBody env s e with
    | .next s1 => runLoop env s1 es
    | .ret ctx err => .returned ctx err es
    | .panicked => .panicked

/-- The state of the locals before the loop: `voteLimit := uint8(len(ctx.CurrentCommittee))`,
empty `counts` and `voters`. -/
def initLoop (ctx : Context) : LoopState :=
  { ctx := ctx, voteLimit := ctx.CurrentCommittee.length % 256, counts := [], voters := [] }

/-- The function `countVotesReduction`. -/
def countVotesReduction (env : Env) (ctx : Context) (events : List Event) : Outcome :=
  runLoop env (initLoop ctx) events

/-! ## BlockReduction (blockreduction.go, lines 16-124) -/

/-- What the reduction phase does to the outside world, in the order it does it. -/
inductive Effect where
  /-- The call `ctx.BLSSign(sk, pk, hash)`: a reduction vote is signed over `hash`. -/
  | sign (hash : Bytes)
  /-- The call `ctx.SendMessage(ctx.Magic, msg)`, where `msg` carries the payload built by
  `NewReduction(hash, ...)`: the vote over `hash` is gossiped. -/
  | gossip (hash : Bytes) (msg : MsgConsensus)
  /-- The send `ctx.ReductionChan <- msg`. -/
  | enqueue (msg : MsgConsensus)
  /-- The call `SendSetAgreement(ctx, ctx.BlockVotes)`, with `ctx.BlockHash` at the call. -/
  | setAgreement (hash : Bytes) (votes : List Vote)
  deriving DecidableEq, Repr

/-- The fallback value `make([]byte, 32)`: 32 zero bytes. -/
def fallback : Bytes := some (List.replicate 32 0)

/-- The function `committeeVoteReduction`: the context after the call, the effects of the
call, and the error returned (`none` for `nil`). -/
def committeeVoteReduction (env : Env) (ctx : Context) :
    Context × List Effect × Option GoError :=
  match env.Deterministic ctx with
  | .error err => (ctx, [], some err)
  | .ok currentCommittee =>
    let ctx1 := { ctx with CurrentCommittee := currentCommittee }
    if env.Verify ctx1.CurrentCommittee ctx1.EdPubKey = 0 then (ctx1, [], none)
    else
      match env.BLSSign ctx1 ctx1.BlockHash with
      | .error err => (ctx1, [.sign ctx1.BlockHash], some err)
      | .ok sigBLS =>
        match env.NewReduction ctx1 ctx1.BlockHash sigBLS with
        | .error err => (ctx1, [.sign ctx1.BlockHash], some err)
        | .ok pl =>
          match env.CreateSignature ctx1 pl with
          | .error err => (ctx1, [.sign ctx1.BlockHash], some err)
          | .ok sigEd =>
            match env.NewMsgConsensus ctx1 sigEd pl with
            | .error err => (ctx1, [.sign ctx1.BlockHash], some err)
            | .ok msg =>
              match env.SendMessage ctx1 msg with
              | some err =>
                (ctx1, [.sign ctx1.BlockHash, .gossip ctx1.BlockHash msg], some err)
              | none =>
                (ctx1, [.sign ctx1.BlockHash, .gossip ctx1.BlockHash msg, .enqueue msg], none)

/-- How a part of `BlockReduction` ends. -/
inductive Phase where
  /-- Still waiting in the `select` of `countVotesReduction` when the events ran out. -/
  | blocked (log : List Effect)
  /-- A run-time panic. -/
  | panicked (log : List Effect)
  /-- An error was returned: `BlockReduction` returns it. -/
  | failed (ctx : Context) (err : GoError) (log : List Effect) (rest : List Event)
  /-- The part ran to its end; `BlockReduction` goes on with `ctx` and the events left. -/
  | done (ctx : Context) (log : List Effect) (rest : List Event)
  deriving DecidableEq, Repr

/-- Vote, count and `ctx.Step++` (lines 29-38, and again lines 46-54). -/
def voteAndCount (env : Env) (ctx : Context) (events : List Event) : Phase :=
  match committeeVoteReduction env ctx with
  | (ctx1, log, some err) => .failed ctx1 err log events
  | (ctx1, log, none) =>
    match countVotesReduction env ctx1 events with
    | .blocked _ => .blocked log
    | .panicked => .panicked log
    | .returned ctx2 (some err) rest => .failed ctx2 err log rest
    | .returned ctx2 none rest => .done { ctx2 with Step := (ctx2.Step + 1) % 256 } log rest

/-- The first reduction step (lines 17-38): the fallback replaces a nil block hash, the
votes are cleared, then vote, count and `ctx.Step++`. -/
def firstStep (env : Env) (ctx : Context) (events : List Event) : Phase :=
  let ctx1 := if ctx.BlockHash = none then { ctx with BlockHash := fallback } else ctx
  let ctx2 := { ctx1 with BlockVotes := [] }
  voteAndCount env ctx2 events

/-- The second reduction step (lines 40-54): the fallback replaces a nil block hash, then
vote, count and `ctx.Step++`. -/
def secondStep (env : Env) (ctx : Context) (events : List Event) : Phase :=
  let ctx1 := if ctx.BlockHash = none then { ctx with BlockHash := fallback } else ctx
  voteAndCount env ctx1 events

/-- How `BlockReduction` ends on a finite list of events. -/
inductive Result where
  /-- Still waiting for votes when the events ran out. -/
  | blocked (log : List Effect)
  /-- A run-time panic. -/
  | panicked (log : List Effect)
  /-- The function returned `err` (`none` for `nil`). -/
  | returned (ctx : Context) (err : Option GoError) (log : List Effect) (rest : List Event)
  deriving DecidableEq, Repr

/-- The end of `BlockReduction` (lines 56-74), after the two steps. -/
def finish (env : Env) (ctx : Context) (log : List Effect) (rest : List Event) : Result :=
  if ctx.BlockHash = none then .returned ctx none log rest
  else if bytesEqual ctx.BlockHash fallback then
    .returned { ctx with BlockHash := none } none log rest
  else
    .returned ctx (env.SendSetAgreement ctx ctx.BlockVotes)
      (log ++ [.setAgreement ctx.BlockHash ctx.BlockVotes]) rest

/-- The function `BlockReduction`: the two steps, then the end. -/
def BlockReduction (env : Env) (ctx : Context) (events : List Event) : Result :=
  match firstStep env ctx events with
  | .blocked log => .blocked log
  | .panicked log => .panicked log
  | .failed c err log rest => .returned c (some err) log rest
  | .done c1 log1 rest1 =>
    match secondStep env c1 rest1 with
    | .blocked log2 => .blocked (log1 ++ log2)
    | .panicked log2 => .panicked (log1 ++ log2)
    | .failed c err log2 rest => .returned c (some err) (log1 ++ log2) rest
    | .done c2 log2 rest2 => finish env c2 (log1 ++ log2) rest2

/-- The effects of a run of `BlockReduction`. -/
def Result.effects : Result → List Effect
  | .blocked log => log
  | .panicked log => log
  | .returned _ _ log _ => log

/-- The effects of a part of `BlockReduction`. -/
def Phase.effects : Phase → List Effect
  | .blocked log => log
  | .panicked log => log
  | .failed _ _ log _ => log
  | .done _ log _ => log

/-- The empty outcome of a reduction step, read from `ctx.BlockHash` after the step: nil
(the timer fired) or a hash equal to the fallback (quorum on the fallback hash). -/
def emptyOutcome (h : Bytes) : Prop :=
  h = none ∨ bytesEqual h fallback = true

/-- A reduction vote over `hash` is cast in `log`: signed over it, or gossiped with it. -/
def castOver (hash : Bytes) (log : List Effect) : Prop :=
  Effect.sign hash ∈ log ∨ ∃ msg, Effect.gossip hash msg ∈ log

/-- The effects that `committeeVoteReduction` can produce for a given hash. -/
def VoteEffect (hash : Bytes) (e : Effect) : Prop :=
  e = .sign hash ∨ (∃ msg, e = .gossip hash msg) ∨ ∃ msg, e = .enqueue msg

/-! ## The reduction committee (reduction/committee.go) -/

/-- The constant `committeeSize`. -/
def committeeSize : Nat := 50

/-- Modelled from the spec: `user.VotingCommittee` is not among the sources. A voting
committee is the collection of the BLS keys of its members. -/
abbrev VotingCommittee := List Bytes

/-- The embedded `committee.Extractor`, as far as `reductionCommittee` uses it: the
provisioners returned by `Provisioners()` (an ordered collection, `Size()` is their number)
and the committee that `UpsertCommitteeCache(round, step, size)` returns. -/
structure Extractor where
  Provisioners : List Bytes
  UpsertCommitteeCache : Nat → Nat → Nat → VotingCommittee

/-- The method `reductionCommittee.size`. -/
def size (r : Extractor) : Nat :=
  if r.Provisioners.length > committeeSize then committeeSize else r.Provisioners.length

/-- The method `reductionCommittee.Quorum`: `int(float64(r.size()) * 0.75)`. The size is an
integer of at most 50 and 0.75 is a binary fraction, so the product is computed without
rounding and the conversion to `int` drops the fractional part: the result is the integer
quotient of `3 * size` by 4. -/
def Quorum (r : Extractor) : Nat :=
  (3 * size r) / 4

/-- Modelled from the spec: `VotingCommittee.IsMember` is not among the sources; a key is a
member when the committee holds it. -/
def VotingCommittee.IsMember (vc : VotingCommittee) (pubKeyBLS : Bytes) : Bool :=
  vc.any fun k => bytesEqual k pubKeyBLS

/-- The method `reductionCommittee.IsMember`. -/
def IsMember (r : Extractor) (pubKeyBLS : Bytes) (round step : Nat) : Bool :=
  VotingCommittee.IsMember (r.UpsertCommitteeCache round step (size r)) pubKeyBLS

/-- Stands for a `wire.Event`: only its `Sender()` is used. -/
structure WireEvent where
  Sender : Bytes
  deriving DecidableEq, Repr

/-- Modelled from the spec: `VotingCommittee.Remove` is not among the sources; it takes the
key out of the committee. -/
def VotingCommittee.Remove (vc : VotingCommittee) (pubKeyBLS : Bytes) : VotingCommittee :=
  vc.filter fun k => !bytesEqual k pubKeyBLS

/-- The method `reductionCommittee.FilterAbsentees`. -/
def FilterAbsentees (r : Extractor) (evs : List WireEvent) (round step : Nat) :
    VotingCommittee :=
  evs.foldl (fun vc ev => VotingCommittee.Remove vc ev.Sender)
    (r.UpsertCommitteeCache round step (size r))

/-! ## Bookkeeping used to state the properties of countVotesReduction -/

/-- A vote that the loop has counted: the map key of its signer (the hex string of the
Ed25519 key), the map key of the hash voted for, and the weight added to the count. -/
structure Counted where
  signer : List Nat
  hash : List Nat
  weight : Nat
  deriving DecidableEq, Repr

/-- The vote that one pass of the loop counts, if it counts one: the sender is not yet
among the voters and `ProcessMsg` grants it a non-zero weight. -/
def countedBy (env : Env) (s : LoopState) : Event → Option Counted
  | .timer => none
  | .msg m =>
    if s.voters.contains (hexEncodeToString m.PubKey) then none
    else
      match env.ProcessMsg s.ctx m with
      | .error _ => none
      | .ok v =>
        if v % 256 = 0 then none
        else some ⟨hexEncodeToString m.PubKey, hexEncodeToString m.Payload.BlockHash, v % 256⟩

/-- The votes counted along a run, for as long as the loop goes on. -/
def countedVotes (env : Env) : LoopState → List Event → List Counted
  | _, [] => []
  | s, e :: es =>
    match loopBody env s e with
    | .next s1 => (countedBy env s e).toList ++ countedVotes env s1 es
    | _ => []

/-- The sum of the weights of the counted votes that are for the hash with key `h`. -/
def weightFor (l : List Counted) (h : List Nat) : Nat :=
  ((l.filter fun c => c.hash == h).map fun c => c.weight).sum

/-- The relation between the locals of the loop and the votes counted so far: the voters
are the signers of the counted votes, no signer occurs twice, and each count is the sum of
the weights counted for its hash, as the `uint8` that it is. -/
def CountInv (s : LoopState) (l : List Counted) : Prop :=
  (∀ k, k ∈ s.voters ↔ k ∈ l.map Counted.signer) ∧ (l.map Counted.signer).Nodup ∧
  (∀ h, countsGet s.counts h = weightFor l h % 256)

/-! ## Concrete runs -/

/-- The Ed25519 key (32 bytes) of committee member A. -/
def keyA : Bytes := some (List.replicate 32 0xA1)

/-- The Ed25519 key of committee member B. -/
def keyB : Bytes := some (List.replicate 32 0xB2)

/-- The Ed25519 key of committee member C. -/
def keyC : Bytes := some (List.replicate 32 0xC3)

/-- The Ed25519 key of committee member D. -/
def keyD : Bytes := some (List.replicate 32 0xD4)

/-- The Ed25519 key of the local node; it sits in no sample committee. -/
def keyLocal : Bytes := some (List.replicate 32 0x77)

/-- A candidate block hash (32 bytes). -/
def hash1 : Bytes := some (List.replicate 32 0x11)

/-- Another candidate block hash. -/
def hash2 : Bytes := some (List.replicate 32 0x22)

/-- A BLS signature (48 bytes). -/
def sampleSig : Bytes := some (List.replicate 48 0x51)

/-- A BLS public key (96 bytes). -/
def sampleBLSKey : Bytes := some (List.replicate 96 0x99)

/-- A sample environment. The weight that `ProcessMsg` grants a sender is the number of
its slots in the current committee, as `sortition.Verify` counts them; the committee of an
odd step is A, B and that of an even step is C, D; nothing fails. -/
def sampleEnv : Env where
  ProcessMsg := fun c m => .ok (c.CurrentCommittee.count m.PubKey)
  NewVoteCheck := fun _ _ _ _ => none
  Deterministic := fun c => .ok (if c.Step % 2 = 1 then [keyA, keyB] else [keyC, keyD])
  Verify := fun committee k => committee.count k
  BLSSign := fun _ _ => .ok sampleSig
  NewReduction := fun _ h sg => .ok ⟨h, sg, sampleBLSKey⟩
  CreateSignature := fun _ _ => .ok (some (List.replicate 64 0x52))
  NewMsgConsensus := fun c _ pl => .ok ⟨c.EdPubKey, pl⟩
  SendMessage := fun _ _ => none
  SendSetAgreement := fun _ _ => none

/-- A Reduction message of a sender for a hash. -/
def reductionMsg (sender hash : Bytes) : MsgConsensus :=
  ⟨sender, ⟨hash, sampleSig, sampleBLSKey⟩⟩

/-- The arrival of the Reduction message of a sender for a hash. -/
def voteMsg (sender hash : Bytes) : Event :=
  .msg (reductionMsg sender hash)

/-- The vote that `countVotesReduction` records for such a message at a step. -/
def sampleVote (hash : Bytes) (step : Nat) : Vote :=
  { Hash := hash, PubKey := sampleBLSKey, Sig := sampleSig, Step := step }

/-- A context at step 1 of round 1 with a given candidate hash and current committee. -/
def sampleCtx (blockHash : Bytes) (committee : List Bytes) : Context :=
  { Round := 1, Step := 1, BlockHash := blockHash, BlockVotes := [],
    CurrentCommittee := committee, EdPubKey := keyLocal }

/-- An environment as the sample one, except that `ProcessMsg` grants every sender 200
votes. -/
def heavyEnv : Env :=
  { sampleEnv with ProcessMsg := fun _ _ => .ok 200 }

/-- An environment as the sample one, except that `NewVote` returns an error for a BLS
signature that is not 48 bytes long. -/
def strictEnv : Env :=
  { sampleEnv with
    NewVoteCheck := fun _ _ sig _ => if (bytesData sig).length = 48 then none else some 9 }

/-- A Reduction message of a sender for a hash whose BLS signature is one byte short. -/
def shortSigMsg (sender hash : Bytes) : MsgConsensus :=
  ⟨sender, ⟨hash, some (List.replicate 47 0x51), sampleBLSKey⟩⟩

/-- A provisioner set of `n` members with distinct BLS keys (96 bytes each). -/
def sampleProvisioners (n : Nat) : List Bytes :=
  (List.range n).map fun i => some (List.replicate 96 i)

/-- An extractor over `n` provisioners whose committee is made of the first `size` of them. -/
def sampleExtractor (n : Nat) : Extractor :=
  { Provisioners := sampleProvisioners n,
    UpsertCommitteeCache := fun _ _ sz => (sampleProvisioners n).take sz }

/-! ## The bid list subset of a proof (generation/proof.go) -/

/-- A bid of the bid list: a 32-byte commitment. -/
abbrev Bid := List Nat

/-- The field of `generator` that `getNumBids` and `getBidListSubset` read. -/
structure generator where
  bidList : List Bid
  deriving DecidableEq, Repr

/-- The method `generator.getNumBids`. -/
def getNumBids (g : generator) : Nat :=
  let numBids := g.bidList.length
  if numBids > 10 then 10 else numBids

/-- The method `generator.getBidListSubset`; `Subset` stands for `user.BidList.Subset`,
which is not among the sources. -/
def getBidListSubset (Subset : List Bid → Nat → List Bid) (g : generator) : List Bid :=
  let numBids := getNumBids g
  Subset g.bidList numBids

/-! ## Round updates on the bus (consensus/collector.go) -/

/-- The bytes that Go's `binary.LittleEndian.PutUint64` stores for a `uint64`. -/
def putUint64LE (v : Nat) : List Nat :=
  [v % 256, v / 256 % 256, v / 256 ^ 2 % 256, v / 256 ^ 3 % 256, v / 256 ^ 4 % 256,
    v / 256 ^ 5 % 256, v / 256 ^ 6 % 256, v / 256 ^ 7 % 256]

/-- Go's `binary.LittleEndian.Uint64`: the value of the first eight bytes; a shorter slice
makes it panic (`none`). -/
def uint64LE : List Nat → Option Nat
  | b0 :: b1 :: b2 :: b3 :: b4 :: b5 :: b6 :: b7 :: _ =>
    some (b0 + 256 * b1 + 256 ^ 2 * b2 + 256 ^ 3 * b3 + 256 ^ 4 * b4 + 256 ^ 5 * b5
      + 256 ^ 6 * b6 + 256 ^ 7 * b7)
  | _ => none

/-- The topics of the bus named in collector.go. -/
inductive BusTopic where
  | RoundUpdateTopic
  | BlockRegenerationTopic
  | BidListTopic
  deriving DecidableEq, Repr

/-- The function `UpdateRound`: the topic and the buffer handed to `bus.Publish`. -/
def UpdateRound (round : Nat) : BusTopic × List Nat :=
  let b := putUint64LE round
  (BusTopic.RoundUpdateTopic, b)

/-- The method `roundCollector.Collect` on the bytes of `roundBuffer`: the round sent on
`roundChan` and the error returned (`none` for `nil`); the whole is `none` when
`binary.LittleEndian.Uint64` panics. -/
def roundCollectorCollect (roundBuffer : List Nat) : Option (Nat × Option GoError) :=
  match uint64LE roundBuffer with
  | none => none
  | some round => some (round, none)

/-! ## The mock of the chain loader (chain/mock.go) -/

/-- Stands for a `block.Block`, which is not among the sources: a block is told from
another by its height and hash. -/
structure Block where
  Height : Nat
  Hash : List Nat
  deriving DecidableEq, Repr

/-- The struct `MockLoader`. -/
structure MockLoader where
  blockchain : List Block
  deriving DecidableEq, Repr

/-- The function `NewMockLoader`. -/
def NewMockLoader : MockLoader :=
  { blockchain := [] }

/-- The method `MockLoader.Height`. -/
def MockLoader.Height (m : MockLoader) : Nat × Option GoError :=
  (m.blockchain.length % 2 ^ 64, none)

/-- The method `MockLoader.Append`: the loader after the call and the error returned. -/
def MockLoader.Append (m : MockLoader) (blk : Block) : MockLoader × Option GoError :=
  ({ blockchain := m.blockchain ++ [blk] }, none)

/-- The method `MockLoader.LoadTip`: the block pointed to and the error returned; `none`
when the index expression `m.blockchain[len(m.blockchain)]` panics (index out of range). -/
def MockLoader.LoadTip (m : MockLoader) : Option (Block × Option GoError) :=
  match m.blockchain.get? m.blockchain.length with
  | none => none
  | some blk => some (blk, none)

/-- The method `MockLoader.BlockAt`; `none` when the index is out of range (panic). -/
def MockLoader.BlockAt (m : MockLoader) (index : Nat) : Option (Block × Option GoError) :=
  match m.blockchain.get? index with
  | none => none
  | some blk => some (blk, none)

/-! ## The listener map of the event bus (eventbus/listenermap.go)

Slices are modelled with their backing arrays: `heap` holds the arrays allocated so far,
each as long as its capacity, and a slice is the address of its array with a length and a
capacity. The lock of the map is left out. -/

/-- Stands for a `topics.Topic`. -/
abbrev Topic := Nat

/-- The struct `idListener`: the id and the embedded `Listener`, which is identified by a
handle (0 stands for the nil interface). -/
structure idListener where
  id : Nat
  Listener : Nat
  deriving DecidableEq, Repr

/-- A non-nil slice of `idListener`: the address of its backing array (slices of the map
always start at the first slot), its length and its capacity. -/
structure Slice where
  arr : Nat
  len : Nat
  cap : Nat
  deriving DecidableEq, Repr

/-- The struct `listenerMap` together with the memory that its slices point into. A key
that is missing from the map reads as the nil slice (`none`). -/
structure listenerMap where
  heap : List (List idListener)
  listeners : Topic → Option Slice

/-- The function `newListenerMap`. -/
def newListenerMap : listenerMap :=
  { heap := [], listeners := fun _ => none }

/-- The elements that a slice shows in a given memory. -/
def sliceView (heap : List (List idListener)) : Option Slice → List idListener
  | none => []
  | some s => ((heap.get? s.arr).getD []).take s.len

/-- Go's `append(s, x)` for one element. With room left in the backing array the element is
written in place; otherwise a new array is allocated, of the capacity `grow` that the
runtime chooses and at least of the length needed, and the elements are copied. -/
def goAppend (grow : Nat → Nat) (heap : List (List idListener)) (s : Option Slice)
    (x : idListener) : List (List idListener) × Slice :=
  match s with
  | some sl =>
    if sl.len < sl.cap then
      (heap.set sl.arr (((heap.get? sl.arr).getD []).set sl.len x),
        { arr := sl.arr, len := sl.len + 1, cap := sl.cap })
    else
      let cap := max (grow sl.cap) (sl.len + 1)
      (heap ++ [sliceView heap s ++ [x] ++ List.replicate (cap - (sl.len + 1)) ⟨0, 0⟩],
        { arr := heap.length, len := sl.len + 1, cap := cap })
  | none =>
    let cap := max (grow 0) 1
    (heap ++ [[x] ++ List.replicate (cap - 1) ⟨0, 0⟩],
      { arr := heap.length, len := 1, cap := cap })

/-- The method `listenerMap.Store`; `id` is the number drawn by `rand.Uint32()`. The result
is the map after the call and the id returned. -/
def listenerMap.Store (grow : Nat → Nat) (h : listenerMap) (key : Topic) (value : Nat)
    (id : Nat) : listenerMap × Nat :=
  let r := goAppend grow h.heap (h.listeners key) ⟨id, value⟩
  ({ heap := r.1, listeners := Function.update h.listeners key (some r.2) }, id)

/-- The method `listenerMap.Load`: the slice stored under the key, as it is (the header
is copied, the backing array is shared). -/
def listenerMap.Load (h : listenerMap) (key : Topic) : Option Slice :=
  h.listeners key

/-- The search of `Delete`: the index and the value of the first listener with the id,
counting from `i`. No element is written before the loop breaks, so the elements read are
those of the slice on entry. -/
def deleteScan (id : Nat) : List idListener → Nat → Option (Nat × idListener)
  | [], _ => none
  | listener :: rest, i =>
    if listener.id = id then some (i, listener) else deleteScan id rest (i + 1)

/-- The method `listenerMap.Delete`: whether the id was found, the map after the call, and
the handles of the listeners on which `Close()` was called; `none` is a run-time panic. On
a match at index `i` the embedded `Listener` is closed first: when it is the nil interface
(handle 0, which `Store` accepts) the call `listener.Close()` panics, before the map is
changed and before `h.lock.Unlock()`. Otherwise
`append(h.listeners[key][:i], h.listeners[key][i+1:]...)` moves the elements after `i` one
slot down inside the backing array and the slice stored under the key gets one shorter. -/
def listenerMap.Delete (h : listenerMap) (key : Topic) (id : Nat) :
    Option (Bool × listenerMap × List Nat) :=
  let listeners := h.listeners key
  match deleteScan id (sliceView h.heap listeners) 0 with
  | none => some (false, h, [])
  | some (i, listener) =>
    if listener.Listener = 0 then none
    else
      match listeners with
      | none => some (false, h, [])
      | some sl =>
        let a := (h.heap.get? sl.arr).getD []
        let a1 := a.take i ++ (a.drop (i + 1)).take (sl.len - (i + 1)) ++ a.drop (sl.len - 1)
        some (true,
          { heap := h.heap.set sl.arr a1,
            listeners := Function.update h.listeners key
              (some { arr := sl.arr, len := sl.len - 1, cap := sl.cap }) },
          [listener.Listener])

/-- The listeners that `Load` shows for a key. -/
def listenerMap.view (h : listenerMap) (key : Topic) : List idListener :=
  sliceView h.heap (h.Load key)

/-- The shape that the maps built by `newListenerMap`, `Store` and `Delete` have: every
stored slice lies within its own backing array, and two keys never share an array. -/
def listenerMap.WF (h : listenerMap) : Prop :=
  (∀ k s, h.listeners k = some s →
    s.arr < h.heap.length ∧ ((h.heap.get? s.arr).getD []).length = s.cap ∧ s.len ≤ s.cap) ∧
  (∀ k1 k2 s1 s2, h.listeners k1 = some s1 → h.listeners k2 = some s2 →
    s1.arr = s2.arr → k1 = k2)

/-- The growth of capacities used in the sample runs: doubling, from 1. -/
def sampleGrow (cap : Nat) : Nat :=
  if cap = 0 then 1 else 2 * cap

/-! ## Wire messages (wire/message.go)

The writer and the reader are byte lists: `WriteMessage` yields the bytes it wrote to `w`,
`ReadMessage` takes the bytes that `r` delivers until its end. The payload types, the
header decoder, the command table and the checksum belong to packages that are not among
the sources; they are the fields of `WireEnv`. -/

/-- The `commands.Cmd` values named in `ReadMessage`, and any other value. -/
inductive Cmd where
  | Version
  | VerAck
  | Ping
  | Pong
  | Addr
  | GetAddr
  | GetData
  | GetBlocks
  | Tx
  | Block
  | Inv
  | NotFound
  | Reject
  | Other (n : Nat)
  deriving DecidableEq, Repr

/-- The struct `Header` that `ReadMessage` decodes: magic, command, payload length and
checksum. -/
structure Header where
  Magic : Nat
  Command : Cmd
  Length : Nat
  Checksum : Nat
  deriving DecidableEq, Repr

/-- The parts of other packages that `WriteMessage` and `ReadMessage` use, for a type `P`
of payloads (the interface `Payload`). -/
structure WireEnv (P : Type) where
  /-- The function `commands.CmdToByteArray`. -/
  CmdToByteArray : Cmd → List Nat
  /-- The constant `HeaderSize`. -/
  HeaderSize : Nat
  /-- The method `Header.Decode` on the `HeaderSize` bytes read. -/
  HeaderDecode : List Nat → Except GoError Header
  /-- The function `crypto.Checksum`. -/
  Checksum : List Nat → Except GoError Nat
  /-- The function `crypto.CompareChecksum`. -/
  CompareChecksum : List Nat → Nat → Bool
  /-- The method `Command` of a payload. -/
  Command : P → Cmd
  /-- The method `Encode` of a payload, on an empty buffer: the bytes written. -/
  Encode : P → Except GoError (List Nat)
  /-- The message that the case of `ReadMessage` for a command creates and then fills with
  `Decode(payloadBuf)`, and the error of that call. -/
  Decode : Cmd → List Nat → P × Option GoError
  /-- The message that the case for a command without payload creates (`NewMsgVerAck()`,
  `NewMsgPing()`, `NewMsgPong()`, `NewMsgGetAddr()`). -/
  New : Cmd → P

/-- Modelled from the spec: `encoding.PutUint32` with `binary.LittleEndian` writes the four
bytes of a `uint32`, lowest first (the spec lists the magic as uint32 LE). -/
def putUint32LE (v : Nat) : List Nat :=
  [v % 256, v / 256 % 256, v / 256 ^ 2 % 256, v / 256 ^ 3 % 256]

/-- The error of `io.ReadFull` on a reader that ends before `HeaderSize` bytes. -/
def errShortRead : GoError := 1

/-- The error "magic mismatch". -/
def errMagicMismatch : GoError := 2

/-- The error "checksum mismatch". -/
def errChecksumMismatch : GoError := 3

/-- The error "unknown command". -/
def errUnknownCommand : GoError := 4

/-- The function `WriteMessage`: the bytes written to `w` and the error returned. -/
def WriteMessage {P : Type} (env : WireEnv P) (magic : Nat) (p : P) :
    List Nat × Option GoError :=
  let w1 := putUint32LE magic
  let byteCmd := env.CmdToByteArray (env.Command p)
  let w2 := w1 ++ byteCmd
  match env.Encode p with
  | .error err => (w2, some err)
  | .ok buf =>
    let payloadLength := buf.length % 2 ^ 32
    match env.Checksum buf with
    | .error err => (w2, some err)
    | .ok checksum =>
      (w2 ++ putUint32LE payloadLength ++ putUint32LE checksum ++ buf, none)

/-- The function `ReadMessage` on the bytes `r`: the payload and the error returned. -/
def ReadMessage {P : Type} (env : WireEnv P) (r : List Nat) (magic : Nat) :
    Option P × Option GoError :=
  if r.length < env.HeaderSize then (none, some errShortRead)
  else
    let buf := r.take env.HeaderSize
    match env.HeaderDecode buf with
    | .error err => (none, some err)
    | .ok hdr =>
      if magic ≠ hdr.Magic then (none, some errMagicMismatch)
      else
        let payloadBuf := r.drop env.HeaderSize
        if !env.CompareChecksum payloadBuf hdr.Checksum then (none, some errChecksumMismatch)
        else
          match hdr.Command with
          | .Version => (some (env.Decode .Version payloadBuf).1, (env.Decode .Version payloadBuf).2)
          | .VerAck => (some (env.New .VerAck), none)
          | .Ping => (some (env.New .Ping), none)
          | .Pong => (some (env.New .Pong), none)
          | .Addr => (some (env.Decode .Addr payloadBuf).1, (env.Decode .Addr payloadBuf).2)
          | .GetAddr => (some (env.New .GetAddr), none)
          | .GetData => (some (env.Decode .GetData payloadBuf).1, (env.Decode .GetData payloadBuf).2)
          | .Tx => (some (env.Decode .Tx payloadBuf).1, (env.Decode .Tx payloadBuf).2)
          | .Inv => (some (env.Decode .Inv payloadBuf).1, (env.Decode .Inv payloadBuf).2)
          | .NotFound =>
            (some (env.Decode .NotFound payloadBuf).1, (env.Decode .NotFound payloadBuf).2)
          | .Reject => (some (env.Decode .Reject payloadBuf).1, (env.Decode .Reject payloadBuf).2)
          | _ => (none, some errUnknownCommand)

/-- The commands for which `ReadMessage` decodes a payload. -/
def Cmd.hasPayload : Cmd → Bool
  | .Version | .Addr | .GetData | .Tx | .Inv | .NotFound | .Reject => true
  | _ => false

/-- The commands for which `ReadMessage` returns a new message without reading the
payload. -/
def Cmd.payloadless : Cmd → Bool
  | .VerAck | .Ping | .Pong | .GetAddr => true
  | _ => false

/-- The commands that `ReadMessage` names, in a case or in a comment: every `Cmd` but the
other values. -/
def Cmd.known : Cmd → Bool
  | .Other _ => false
  | _ => true

/-- What is assumed of the parts outside the sources: the command bytes are bytes, and a
header is the magic, the command bytes, the length and the checksum, `HeaderSize` bytes in
all, which `Header.Decode` reads back when the command is one of the known ones; and the
checksum that `Checksum` computes fits a `uint32` and passes `CompareChecksum`. -/
structure WireEnv.Lawful {P : Type} (env : WireEnv P) : Prop where
  size : ∀ c, (env.CmdToByteArray c).length + 12 = env.HeaderSize
  bytes : ∀ c, ∀ b ∈ env.CmdToByteArray c, b < 256
  decode : ∀ m c l s, Cmd.known c = true → m < 2 ^ 32 → l < 2 ^ 32 → s < 2 ^ 32 →
    env.HeaderDecode (putUint32LE m ++ env.CmdToByteArray c ++ putUint32LE l ++ putUint32LE s)
      = .ok ⟨m, c, l, s⟩
  checksum : ∀ b s, env.Checksum b = .ok s → s < 2 ^ 32 ∧ env.CompareChecksum b s = true

/-- A payload that its codec carries over the wire: when its command has a payload, the
decoder of that command reads back, from what `Encode` wrote, the payload itself without
error; when its command has none, the payload is the message that `ReadMessage` creates
for the command. Payloads of other commands are not supported by `ReadMessage`. -/
def WireEnv.RoundTrips {P : Type} (env : WireEnv P) (p : P) : Prop :=
  (Cmd.hasPayload (env.Command p) = true ∧
    ∀ b, env.Encode p = .ok b → env.Decode (env.Command p) b = (p, none)) ∨
  (Cmd.payloadless (env.Command p) = true ∧ env.New (env.Command p) = p)

/-- What is assumed of the parts outside the sources for the converse direction: the
header bytes are determined by the decoded header, a checksum that passes
`CompareChecksum` is the one that `Checksum` computes, and a message without payload has
the command of its case and encodes to nothing. -/
structure WireEnv.LawfulBack {P : Type} (env : WireEnv P) : Prop where
  header : ∀ h hdr, h.length = env.HeaderSize → (∀ b ∈ h, b < 256) →
    env.HeaderDecode h = .ok hdr →
    h = putUint32LE hdr.Magic ++ env.CmdToByteArray hdr.Command ++ putUint32LE hdr.Length
          ++ putUint32LE hdr.Checksum
  checksum : ∀ b s, env.CompareChecksum b s = true → env.Checksum b = .ok s
  empty : ∀ c, Cmd.payloadless c = true →
    env.Command (env.New c) = c ∧ env.Encode (env.New c) = .ok []

/-! ## Phoenix transactions (data/transactions/phoenix.go)

A `bytes.Buffer` is the list of the bytes it holds: a marshaller yields the bytes it
appends, an unmarshaller takes the bytes of the buffer and yields what it read together
with the bytes left. Pointers are the values they point to (a nil pointer makes the
marshallers panic), and a byte slice is the list of its bytes. The codecs of the nested
types and of the `encoding` package are not among the sources; they are the fields of
`TxEnv`. -/

/-- A writer and the reader that belongs to it. -/
structure Codec (α : Type) where
  write : α → Except GoError (List Nat)
  read : List Nat → Except GoError (α × List Nat)

/-- The reader reads back what the writer wrote and leaves the bytes after it. -/
def Codec.Lawful {α : Type} (c : Codec α) : Prop :=
  ∀ x bs rest, c.write x = .ok bs → c.read (bs ++ rest) = .ok (x, rest)

/-- Stands for the struct `Note`, which is not among the sources. -/
abbrev Note := List Nat

/-- Stands for the struct `PublicKey`. -/
abbrev PublicKey := List Nat

/-- Stands for the struct `SecretKey`. -/
abbrev SecretKey := List Nat

/-- Stands for the struct `Nullifier`. -/
abbrev Nullifier := List Nat

/-- Stands for the struct `Scalar`. -/
abbrev Scalar := List Nat

/-- The codecs used by the transaction marshallers. -/
structure TxEnv where
  /-- The functions `encoding.WriteVarInt` and `encoding.ReadVarInt`. -/
  VarInt : Codec Nat
  /-- The functions `encoding.WriteVarBytes` and `encoding.ReadVarBytes`. -/
  VarBytes : Codec (List Nat)
  /-- The functions `encoding.WriteUint64LE` and `encoding.ReadUint64LE`. -/
  Uint64LE : Codec Nat
  /-- The functions `MarshalNote` and `UnmarshalNote`. -/
  Note : Codec Note
  /-- The functions `MarshalPublicKey` and `UnmarshalPublicKey`. -/
  PublicKey : Codec PublicKey
  /-- The functions `MarshalSecretKey` and `UnmarshalSecretKey`. -/
  SecretKey : Codec SecretKey
  /-- The functions `MarshalNullifier` and `UnmarshalNullifier`. -/
  Nullifier : Codec Nullifier
  /-- The functions `MarshalScalar` and `UnmarshalScalar`. -/
  Scalar : Codec Scalar

/-- Every codec of the environment is lawful. -/
structure TxEnv.Lawful (env : TxEnv) : Prop where
  varInt : env.VarInt.Lawful
  varBytes : env.VarBytes.Lawful
  uint64 : env.Uint64LE.Lawful
  note : env.Note.Lawful
  publicKey : env.PublicKey.Lawful
  secretKey : env.SecretKey.Lawful
  nullifier : env.Nullifier.Lawful
  scalar : env.Scalar.Lawful

/-- The struct `TransactionInput`. -/
structure TransactionInput where
  Note : Note
  Pos : Nat
  Sk : SecretKey
  Nullifier : Nullifier
  MerkleRoot : Scalar
  deriving DecidableEq, Repr

/-- The struct `TransactionOutput`. -/
structure TransactionOutput where
  Note : Note
  Pk : PublicKey
  Value : Nat
  BlindingFactor : Scalar
  deriving DecidableEq, Repr

/-- The struct `Transaction`. -/
structure Transaction where
  Inputs : List TransactionInput
  Outputs : List TransactionOutput
  Fee : TransactionOutput
  Proof : List Nat
  hash : List Nat
  deriving DecidableEq, Repr

/-- The method `Transaction.CalculateHash`. -/
def Transaction.CalculateHash (t : Transaction) : List Nat × Option GoError :=
  (t.hash, none)

/-- The function `MarshalTransactionInput`. -/
def MarshalTransactionInput (env : TxEnv) (t : TransactionInput) :
    Except GoError (List Nat) := do
  let b1 ← env.Note.write t.Note
  let b2 ← env.Uint64LE.write t.Pos
  let b3 ← env.SecretKey.write t.Sk
  let b4 ← env.Nullifier.write t.Nullifier
  let b5 ← env.Scalar.write t.MerkleRoot
  return b1 ++ b2 ++ b3 ++ b4 ++ b5

/-- The function `UnmarshalTransactionInput`. -/
def UnmarshalTransactionInput (env : TxEnv) (r : List Nat) :
    Except GoError (TransactionInput × List Nat) := do
  let (note, r1) ← env.Note.read r
  let (pos, r2) ← env.Uint64LE.read r1
  let (sk, r3) ← env.SecretKey.read r2
  let (nullifier, r4) ← env.Nullifier.read r3
  let (merkleRoot, r5) ← env.Scalar.read r4
  return ({ Note := note, Pos := pos, Sk := sk, Nullifier := nullifier,
            MerkleRoot := merkleRoot }, r5)

/-- The function `MarshalTransactionOutput`. -/
def MarshalTransactionOutput (env : TxEnv) (t : TransactionOutput) :
    Except GoError (List Nat) := do
  let b1 ← env.Note.write t.Note
  let b2 ← env.PublicKey.write t.Pk
  let b3 ← env.Uint64LE.write t.Value
  let b4 ← env.Scalar.write t.BlindingFactor
  return b1 ++ b2 ++ b3 ++ b4

/-- The function `UnmarshalTransactionOutput`. -/
def UnmarshalTransactionOutput (env : TxEnv) (r : List Nat) :
    Except GoError (TransactionOutput × List Nat) := do
  let (note, r1) ← env.Note.read r
  let (pk, r2) ← env.PublicKey.read r1
  let (value, r3) ← env.Uint64LE.read r2
  let (blindingFactor, r4) ← env.Scalar.read r3
  return ({ Note := note, Pk := pk, Value := value, BlindingFactor := blindingFactor }, r4)

/-- The loops `for _, input := range t.Inputs` and `for _, output := range t.Outputs` of
`MarshalTransaction`: every element is marshalled in turn. -/
def marshalEach {α : Type} (w : α → Except GoError (List Nat)) :
    List α → Except GoError (List Nat)
  | [] => return []
  | x :: xs => do
    let b ← w x
    let bs ← marshalEach w xs
    return b ++ bs

/-- The loops `for i := range t.Inputs` and `for i := range t.Outputs` of
`UnmarshalTransaction` over a slice made with `n` slots: `n` elements are read in turn. -/
def unmarshalEach {α : Type} (rd : List Nat → Except GoError (α × List Nat)) :
    Nat → List Nat → Except GoError (List α × List Nat)
  | 0, r => return ([], r)
  | n + 1, r => do
    let (x, r1) ← rd r
    let (xs, r2) ← unmarshalEach rd n r1
    return (x :: xs, r2)

/-- The function `MarshalTransaction`: the bytes appended to the buffer. -/
def MarshalTransaction (env : TxEnv) (t : Transaction) : Except GoError (List Nat) := do
  let b1 ← env.VarInt.write (t.Inputs.length % 2 ^ 64)
  let b2 ← marshalEach (MarshalTransactionInput env) t.Inputs
  let b3 ← env.VarInt.write (t.Outputs.length % 2 ^ 64)
  let b4 ← marshalEach (MarshalTransactionOutput env) t.Outputs
  let b5 ← MarshalTransactionOutput env t.Fee
  let b6 ← env.VarBytes.write t.Proof
  let b7 ← env.VarBytes.write t.hash
  return b1 ++ b2 ++ b3 ++ b4 ++ b5 ++ b6 ++ b7

/-- The function `UnmarshalTransaction`: the transaction read and the bytes left in the
buffer. The allocations `make([]*TransactionInput, nIn)` and
`make([]*TransactionOutput, nOut)` are not modelled: for an announced count beyond what the
runtime can allocate they panic, where the model reads on until a codec fails. -/
def UnmarshalTransaction (env : TxEnv) (r : List Nat) :
    Except GoError (Transaction × List Nat) := do
  let (nIn, r1) ← env.VarInt.read r
  let (inputs, r2) ← unmarshalEach (UnmarshalTransactionInput env) nIn r1
  let (nOut, r3) ← env.VarInt.read r2
  let (outputs, r4) ← unmarshalEach (UnmarshalTransactionOutput env) nOut r3
  let (fee, r5) ← UnmarshalTransactionOutput env r4
  let (proof, r6) ← env.VarBytes.read r5
  let (hash, r7) ← env.VarBytes.read r6
  return ({ Inputs := inputs, Outputs := outputs, Fee := fee, Proof := proof, hash := hash },
    r7)

/-! ## The mempool inventory of the data broker (p2p/peer/responding/databroker.go) -/

/-- The item types of `peermsg` named in databroker.go. -/
inductive InvType where
  | InvTypeBlock
  | InvTypeMempoolTx
  deriving DecidableEq, Repr

/-- An item of an `Inv` message, with the fields `Type` and `Hash` that `SendItems` reads. -/
structure InvVect where
  Typ : InvType
  Hash : List Nat
  deriving DecidableEq, Repr

/-- The message `peermsg.Inv`, with the field `InvList` that `SendItems` reads. -/
structure Inv where
  InvList : List InvVect
  deriving DecidableEq, Repr

/-- Modelled from the spec: `peermsg.Inv.AddItem` is not among the sources; it puts the item
made of the type and the hash at the end of `InvList`. -/
def Inv.AddItem (msg : Inv) (t : InvType) (hash : List Nat) : Inv :=
  { InvList := msg.InvList ++ [{ Typ := t, Hash := hash }] }

/-- What `SendTxsItems` takes from outside, for a type `Tx` of transactions: the configured
`Mempool.MaxInvItems` (a count, never negative), the result of `GetMempoolTxs(d.rpcBus, nil)`,
the method `CalculateHash` of a transaction and the function `marshalInv`. -/
structure BrokerEnv (Tx : Type) where
  MaxInvItems : Nat
  GetMempoolTxs : Except GoError (List Tx)
  CalculateHash : Tx → Except GoError (List Nat)
  marshalInv : Inv → Except GoError (List Nat)

/-- The loop `for _, tx := range txs` of `SendTxsItems`, entered with the message built so
far and the items still allowed: the message after the loop, or the error returned. -/
def addTxItems {Tx : Type} (env : BrokerEnv Tx) : List Tx → Inv → Nat → Except GoError Inv
  | [], msg, _ => .ok msg
  | tx :: rest, msg, maxItemsSent =>
    match env.CalculateHash tx with
    | .error err => .error err
    | .ok txID =>
      let msg1 := msg.AddItem InvType.InvTypeMempoolTx txID
      let left := maxItemsSent - 1
      if left = 0 then .ok msg1 else addTxItems env rest msg1 left

/-- The method `DataBroker.SendTxsItems`: the buffers sent on `responseChan` and the error
returned. -/
def SendTxsItems {Tx : Type} (env : BrokerEnv Tx) : List (List Nat) × Option GoError :=
  let maxItemsSent := env.MaxInvItems
  if maxItemsSent = 0 then ([], none)
  else
    match env.GetMempoolTxs with
    | .error err => ([], some err)
    | .ok txs =>
      if txs.length ≠ 0 then
        match addTxItems env txs { InvList := [] } maxItemsSent with
        | .error err => ([], some err)
        | .ok msg =>
          match env.marshalInv msg with
          | .error err => ([], some err)
          | .ok buf => ([buf], none)
      else ([], none)

/-! ## The signature set phase (consensus/setreduction.go) -/

/-- The keys of the node that the signature set phase uses. -/
structure Keys where
  EdPubKey : Bytes
  EdSecretKey : Bytes
  BLSPubKey : Bytes
  deriving DecidableEq, Repr

/-- The fields of the consensus `Context` that the signature set phase reads or writes. -/
structure SigSetContext where
  Round : Nat
  Step : Nat
  BlockHash : Bytes
  SignatureSet : Bytes
  weight : Nat
  Keys : Keys
  deriving DecidableEq, Repr

/-- The payloads of the signature set phase: a `SigSetCandidate` with its signature set, or
a `SigSetVote` with the hash of the signature set voted for. -/
inductive SigSetPayload where
  | SigSetCandidate (SignatureSet : Bytes)
  | SigSetVote (SigSetHash : Bytes)
  deriving DecidableEq, Repr

/-- The fields of a consensus message that the signature set phase reads: the sender key,
the Ed25519 signature and the payload. -/
structure SigSetMsg where
  PubKey : Bytes
  Signature : Bytes
  Payload : SigSetPayload
  deriving DecidableEq, Repr

/-- The functions of other packages and files called by the signature set phase. -/
structure SigSetEnv where
  /-- The call `processMsg(ctx, m)`: validity, stake and error. -/
  processMsg : SigSetContext → SigSetMsg → Bool × Nat × Option GoError
  /-- The call `crypto.RandEntropy(200)`. -/
  RandEntropy : Bytes
  /-- The call `ctx.BLSSign(sk, pk, ctx.SignatureSet)`. -/
  BLSSign : SigSetContext → Bytes → Except GoError Bytes
  /-- The call `hash.Sha3256(ctx.SignatureSet)`. -/
  Sha3256 : Bytes → Except GoError Bytes
  /-- The validation done by `consensusmsg.NewSigSetCandidate`. -/
  NewSigSetCandidateCheck : SigSetContext → Option GoError
  /-- The validation done by `consensusmsg.NewSigSetVote`. -/
  NewSigSetVoteCheck : SigSetContext → Bytes → Bytes → Option GoError
  /-- The call `createSignature(ctx, pl)`: the signature and the error, both as returned. -/
  createSignature : SigSetContext → SigSetPayload → Bytes × Option GoError
  /-- The validation done by `payload.NewMsgConsensus`. -/
  NewMsgConsensusCheck : SigSetContext → Bytes → Bytes → SigSetPayload → Option GoError
  /-- The call `ctx.SendMessage(ctx.Magic, msg)`. -/
  SendMessage : SigSetContext → SigSetMsg → Option GoError

/-- Modelled from the spec: `payload.NewMsgConsensus` is not among the sources. It builds
the message whose header carries the signature and the key handed to it (the fields
signature_ed and signer_ed of the common header) around the payload, or returns the error of
its validation. -/
def NewMsgConsensus (env : SigSetEnv) (ctx : SigSetContext) (sigEd pubKey : Bytes)
    (pl : SigSetPayload) : Except GoError SigSetMsg :=
  match env.NewMsgConsensusCheck ctx sigEd pubKey pl with
  | some err => .error err
  | none => .ok { PubKey := pubKey, Signature := sigEd, Payload := pl }

/-- The locals of `signatureSetCollection` together with the context, and the messages
handed to `processMsg` so far. -/
structure CollectState where
  ctx : SigSetContext
  voters : List Bytes
  highest : Nat
  processed : List SigSetMsg
  deriving DecidableEq, Repr

/-- What the `select` of `signatureSetCollection` receives: the timer firing, or a message
on `ctx.SigSetCandidateChan`. -/
inductive SigSetEvent where
  | timer
  | msg (m : SigSetMsg)
  deriving DecidableEq, Repr

/-- The effect of one pass through the `for`/`select` of `signatureSetCollection`. -/
inductive CollectFlow where
  /-- The loop goes on. -/
  | next (s : CollectState)
  /-- The function returns (with `nil` or an error). -/
  | ret (s : CollectState) (err : Option GoError)
  /-- The type assertion `m.Payload.(*consensusmsg.SigSetCandidate)` panics. -/
  | panicked
  deriving DecidableEq, Repr

/-- One pass through the body of the loop of `signatureSetCollection`. -/
def collectBody (env : SigSetEnv) (s : CollectState) : SigSetEvent → CollectFlow
  | .timer => .ret s none
  | .msg m =>
    match m.Payload with
    | .SigSetVote _ => .panicked
    | .SigSetCandidate signatureSet =>
      if s.voters.any (fun voter => bytesEqual voter m.PubKey) then .next s
      else
        let r := env.processMsg s.ctx m
        let s1 := { s with processed := s.processed ++ [m] }
        match r.2.2 with
        | some err => .ret s1 (some err)
        | none =>
          if !r.1 then .next s1
          else if r.2.1 > s.highest then
            .next { s1 with highest := r.2.1,
                            ctx := { s.ctx with SignatureSet := signatureSet } }
          else .next s1

/-- How `signatureSetCollection` ends on a finite list of events. -/
inductive CollectOutcome where
  /-- The events ran out while the loop was still waiting in `select`. -/
  | blocked (s : CollectState)
  /-- The function returned. -/
  | returned (s : CollectState) (err : Option GoError)
  /-- A run-time panic. -/
  | panicked
  deriving DecidableEq, Repr

/-- The loop of `signatureSetCollection` run on a list of events. -/
def collectLoop (env : SigSetEnv) : CollectState → List SigSetEvent → CollectOutcome
  | s, [] => .blocked s
  | s, e :: es =>
    match collectBody env s e with
    | .next s1 => collectLoop env s1 es
    | .ret s1 err => .returned s1 err
    | .panicked => .panicked

/-- The function `signatureSetCollection`: the voters start as the key of the node alone,
`highest` as `ctx.weight`. -/
def signatureSetCollection (env : SigSetEnv) (ctx : SigSetContext)
    (events : List SigSetEvent) : CollectOutcome :=
  collectLoop env
    { ctx := ctx, voters := [ctx.Keys.EdPubKey], highest := ctx.weight, processed := [] }
    events

/-- The function `signatureSetGeneration`: the context after the call, the messages handed
to `ctx.SendMessage`, and the error returned. -/
def signatureSetGeneration (env : SigSetEnv) (ctx : SigSetContext) :
    SigSetContext × List SigSetMsg × Option GoError :=
  let ctx1 := { ctx with SignatureSet := env.RandEntropy }
  match env.NewSigSetCandidateCheck ctx1 with
  | some err => (ctx1, [], some err)
  | none =>
    let pl := SigSetPayload.SigSetCandidate ctx1.SignatureSet
    match env.createSignature ctx1 pl with
    | (_, some err) => (ctx1, [], some err)
    | (sigEd, none) =>
      match NewMsgConsensus env ctx1 sigEd ctx1.Keys.EdPubKey pl with
      | .error err => (ctx1, [], some err)
      | .ok msg => (ctx1, [msg], env.SendMessage ctx1 msg)

/-- The function `committeeVoteSigSet`: the messages handed to `ctx.SendMessage` and the
error returned. The error of `createSignature` is overwritten unchecked by the next
assignment. -/
def committeeVoteSigSet (env : SigSetEnv) (ctx : SigSetContext) :
    List SigSetMsg × Option GoError :=
  match env.BLSSign ctx ctx.SignatureSet with
  | .error err => ([], some err)
  | .ok sigBLS =>
    match env.Sha3256 ctx.SignatureSet with
    | .error err => ([], some err)
    | .ok sigSetHash =>
      match env.NewSigSetVoteCheck ctx sigSetHash sigBLS with
      | some err => ([], some err)
      | none =>
        let pl := SigSetPayload.SigSetVote sigSetHash
        let sigEd := (env.createSignature ctx pl).1
        match NewMsgConsensus env ctx sigEd ctx.Keys.EdSecretKey pl with
        | .error err => ([], some err)
        | .ok msg => ([msg], env.SendMessage ctx msg)

/-- A sample payload: its command and the bytes of its body. -/
structure SamplePayload where
  cmd : Cmd
  body : List Nat
  deriving DecidableEq, Repr

/-- The byte that stands for a command in the sample header; the other values share the
bytes from 13 on. -/
def cmdCode : Cmd → Nat
  | .Version => 0
  | .VerAck => 1
  | .Ping => 2
  | .Pong => 3
  | .Addr => 4
  | .GetAddr => 5
  | .GetData => 6
  | .GetBlocks => 7
  | .Tx => 8
  | .Block => 9
  | .Inv => 10
  | .NotFound => 11
  | .Reject => 12
  | .Other n => n % 243 + 13

/-- The command that a byte of the sample header stands for. -/
def codeCmd : Nat → Cmd
  | 0 => .Version
  | 1 => .VerAck
  | 2 => .Ping
  | 3 => .Pong
  | 4 => .Addr
  | 5 => .GetAddr
  | 6 => .GetData
  | 7 => .GetBlocks
  | 8 => .Tx
  | 9 => .Block
  | 10 => .Inv
  | 11 => .NotFound
  | 12 => .Reject
  | n + 13 => .Other n

/-- The sample header decoder: four bytes of magic, twelve bytes of command (one byte and
eleven zeros), four bytes of length, four bytes of checksum, all little-endian. -/
def sampleHeaderDecode : List Nat → Except GoError Header
  | [m0, m1, m2, m3, c, p1, p2, p3, p4, p5, p6, p7, p8, p9, p10, p11, l0, l1, l2, l3,
      s0, s1, s2, s3] =>
    if [p1, p2, p3, p4, p5, p6, p7, p8, p9, p10, p11] = [0, 0, 0, 0, 0, 0, 0, 0, 0, 0, 0] then
      .ok { Magic := m0 + 256 * m1 + 256 ^ 2 * m2 + 256 ^ 3 * m3,
            Command := codeCmd c,
            Length := l0 + 256 * l1 + 256 ^ 2 * l2 + 256 ^ 3 * l3,
            Checksum := s0 + 256 * s1 + 256 ^ 2 * s2 + 256 ^ 3 * s3 }
    else .error 5
  | _ => .error 5

/-- A sample environment for the wire: the header layout above, the sum of the bytes as
a stand-in for the checksum, and payloads that encode to their body. -/
def sampleWireEnv : WireEnv SamplePayload where
  CmdToByteArray := fun c => [cmdCode c, 0, 0, 0, 0, 0, 0, 0, 0, 0, 0, 0]
  HeaderSize := 24
  HeaderDecode := sampleHeaderDecode
  Checksum := fun b => .ok (b.sum % 2 ^ 32)
  CompareChecksum := fun b s => decide (b.sum % 2 ^ 32 = s)
  Command := fun p => p.cmd
  Encode := fun p => .ok p.body
  Decode := fun c b => (⟨c, b⟩, none)
  New := fun c => ⟨c, []⟩

/-- The magic of the sample messages. -/
def sampleMagic : Nat := 0x0A0B0C0D

/-- A sample codec of integers: one byte, for values below 253. -/
def sampleVarInt : Codec Nat where
  write := fun n => if n < 253 then .ok [n] else .error 6
  read := fun r =>
    match r with
    | b :: rest => .ok (b, rest)
    | [] => .error 7

/-- A sample codec of byte strings: the length in one byte, then the bytes. -/
def sampleVarBytes : Codec (List Nat) where
  write := fun bs => if bs.length < 253 then .ok (bs.length :: bs) else .error 6
  read := fun r =>
    match r with
    | n :: rest => if n ≤ rest.length then .ok (rest.take n, rest.drop n) else .error 7
    | [] => .error 7

/-- The codec of a `uint64` in eight little-endian bytes. -/
def sampleUint64LE : Codec Nat where
  write := fun v => if v < 2 ^ 64 then .ok (putUint64LE v) else .error 6
  read := fun r =>
    match uint64LE r with
    | some v => .ok (v, r.drop 8)
    | none => .error 7

/-- A sample codec of a value of `n` bytes, written as it is. -/
def sampleBlob (n : Nat) : Codec (List Nat) where
  write := fun x => if x.length = n then .ok x else .error 6
  read := fun r => if n ≤ r.length then .ok (r.take n, r.drop n) else .error 7

/-- A sample environment for the transactions. -/
def sampleTxEnv : TxEnv where
  VarInt := sampleVarInt
  VarBytes := sampleVarBytes
  Uint64LE := sampleUint64LE
  Note := sampleBlob 4
  PublicKey := sampleBlob 2
  SecretKey := sampleBlob 2
  Nullifier := sampleBlob 2
  Scalar := sampleBlob 2

/-- A sample transaction with one input and one output. -/
def sampleTx : Transaction :=
  { Inputs := [{ Note := [1, 2, 3, 4], Pos := 258, Sk := [5, 6], Nullifier := [7, 8],
                 MerkleRoot := [9, 10] }],
    Outputs := [{ Note := [11, 12, 13, 14], Pk := [15, 16], Value := 200,
                  BlindingFactor := [17, 18] }],
    Fee := { Note := [21, 22, 23, 24], Pk := [25, 26], Value := 3, BlindingFactor := [27, 28] },
    Proof := [31, 32, 33],
    hash := [41, 42] }

/-- A map in which three listeners were stored under topic 7, with ids 11, 22 and 33. -/
def sampleListeners : listenerMap :=
  (((newListenerMap.Store sampleGrow 7 101 11).1.Store sampleGrow 7 102 22).1.Store
    sampleGrow 7 103 33).1

/-- A sample mempool of three transactions, with a limit of two items: the hash of a
transaction is 32 times its number, and an Inv message is marshalled as the number of its
items, then for each item a byte for its type and its hash. -/
def sampleBroker : BrokerEnv Nat where
  MaxInvItems := 2
  GetMempoolTxs := .ok [5, 6, 7]
  CalculateHash := fun tx => .ok (List.replicate 32 tx)
  marshalInv := fun msg =>
    .ok (msg.InvList.length :: msg.InvList.flatMap
      (fun v => (if v.Typ = InvType.InvTypeMempoolTx then 1 else 0) :: v.Hash))

/-- The Ed25519 secret key of the node (64 bytes). -/
def secretLocal : Bytes := some (List.replicate 32 0x55 ++ List.replicate 32 0x77)

/-- An Ed25519 signature (64 bytes). -/
def sampleSigEd : Bytes := some (List.replicate 64 0xED)

/-- The context of the node in the signature set phase, with a weight of 10. -/
def sampleSigSetCtx : SigSetContext :=
  { Round := 1, Step := 1, BlockHash := hash1, SignatureSet := some (List.replicate 200 1),
    weight := 10,
    Keys := { EdPubKey := keyLocal, EdSecretKey := secretLocal, BLSPubKey := sampleBLSKey } }

/-- A sample environment of the signature set phase: every message is valid, the stake of
A is 20 and that of any other sender 5, and nothing fails. -/
def sampleSigSetEnv : SigSetEnv where
  processMsg := fun _ m => (true, if bytesEqual m.PubKey keyA then 20 else 5, none)
  RandEntropy := some (List.replicate 200 3)
  BLSSign := fun _ _ => .ok sampleSig
  Sha3256 := fun b => .ok (some (List.replicate 32 ((bytesData b).sum % 256)))
  NewSigSetCandidateCheck := fun _ => none
  NewSigSetVoteCheck := fun _ _ _ => none
  createSignature := fun _ _ => (sampleSigEd, none)
  NewMsgConsensusCheck := fun _ _ _ _ => none
  SendMessage := fun _ _ => none

/-- A candidate message of A with a signature set of 200 bytes equal to `b`. -/
def candidateMsg (b : Nat) : SigSetMsg :=
  { PubKey := keyA, Signature := sampleSigEd,
    Payload := .SigSetCandidate (some (List.replicate 200 b)) }

/-! ## The handshake of a peer (p2p/peer/peerhandshake.go) -/

/-- The payloads that the handshake tells apart by a type assertion: a `MsgVersion` (with
its protocol version), a `MsgVerAck`, and the payload of any other command. -/
inductive PeerMsg where
  | MsgVersion (version : Nat)
  | MsgVerAck
  | Other (command : Nat)
  deriving DecidableEq, Repr

/-- What the handshake takes from outside the file: the configured protocol version, the
error of `util.GetOutboundIP()`, the error of `p.Write` for a message, and the error of
`p.OnVersion` for the version received. -/
structure PeerEnv where
  ProtocolVer : Nat
  GetOutboundIP : Option GoError
  Write : PeerMsg → Option GoError
  OnVersion : PeerMsg → Option GoError

/-- The state of a `Peer` during the handshake: what the successive calls
`wire.ReadMessage(p.conn, p.config.Net)` will return, the field `verackReceived`, the
messages handed to `p.Write` and the messages handed to `p.OnVersion`, in order. -/
structure Peer where
  conn : List (Option PeerMsg × Option GoError)
  verackReceived : Bool
  written : List PeerMsg
  versions : List PeerMsg
  deriving DecidableEq, Repr

/-- The call `wire.ReadMessage(p.conn, p.config.Net)`: the next result of the connection;
on a connection with nothing left the read fails. -/
def Peer.ReadMessage (p : Peer) : (Option PeerMsg × Option GoError) × Peer :=
  match p.conn with
  | [] => ((none, some errShortRead), p)
  | r :: rest => (r, { p with conn := rest })

/-- The call `p.Write(msg)`. -/
def Peer.Write (env : PeerEnv) (p : Peer) (msg : PeerMsg) : Option GoError × Peer :=
  (env.Write msg, { p with written := p.written ++ [msg] })

/-- The method `writeLocalMsgVersion`. -/
def writeLocalMsgVersion (env : PeerEnv) (p : Peer) : Option GoError × Peer :=
  match env.GetOutboundIP with
  | some err => (some err, p)
  | none => p.Write env (.MsgVersion env.ProtocolVer)

/-- The method `readRemoteMsgVersion`. When the type assertion fails it returns `err`,
which is nil at that point. -/
def readRemoteMsgVersion (env : PeerEnv) (p : Peer) : Option GoError × Peer :=
  let r := p.ReadMessage
  match r.1.2 with
  | some err => (some err, r.2)
  | none =>
    match r.1.1 with
    | some (.MsgVersion v) =>
      (env.OnVersion (.MsgVersion v), { r.2 with versions := r.2.versions ++ [.MsgVersion v] })
    | _ => (none, r.2)

/-- The method `readVerack`. When the type assertion fails it returns `err`, which is nil
at that point. -/
def readVerack (p : Peer) : Option GoError × Peer :=
  let r := p.ReadMessage
  match r.1.2 with
  | some err => (some err, r.2)
  | none =>
    match r.1.1 with
    | some .MsgVerAck => (none, { r.2 with verackReceived := true })
    | _ => (none, r.2)

/-- The method `inboundHandShake`. The error of `p.Write(verack)` is assigned and never
read. -/
def inboundHandShake (env : PeerEnv) (p : Peer) : Option GoError × Peer :=
  match writeLocalMsgVersion env p with
  | (some err, p1) => (some err, p1)
  | (none, p1) =>
    match readRemoteMsgVersion env p1 with
    | (some err, p2) => (some err, p2)
    | (none, p2) => readVerack (p2.Write env .MsgVerAck).2

/-- The method `outboundHandShake`. -/
def outboundHandShake (env : PeerEnv) (p : Peer) : Option GoError × Peer :=
  match readRemoteMsgVersion env p with
  | (some err, p1) => (some err, p1)
  | (none, p1) =>
    match writeLocalMsgVersion env p1 with
    | (some err, p2) => (some err, p2)
    | (none, p2) =>
      match readVerack p2 with
      | (some err, p3) => (some err, p3)
      | (none, p3) => p3.Write env .MsgVerAck

/-! ## The duplicate filter of a peer (p2p/peer/dupemap) -/

/-- Modelled from the spec: dupemap.go is not among the sources. The filter keeps the keys
`hash(payload)` of the payloads it has let through, each with the round in which it was
added, and the current round. -/
structure DupeMap where
  round : Nat
  seen : List (Nat × Nat)
  deriving DecidableEq, Repr

/-- Modelled from the spec: a fresh filter has seen nothing. -/
def NewDupeMap : DupeMap := { round := 0, seen := [] }

/-- Modelled from the spec: `CanForward(payload) = first-time?`. The call returns false for
a payload whose key is in the filter, and otherwise adds the key and returns true. -/
def DupeMap.CanFwd (hash : List Nat → Nat) (d : DupeMap) (payload : List Nat) :
    Bool × DupeMap :=
  if d.seen.any (fun e => e.2 == hash payload) then (false, d)
  else (true, { d with seen := (d.round, hash payload) :: d.seen })

/-- Modelled from the spec: on a round update the filter is cleaned. Which entries a round
update removes is a parameter, `expired round added`: the spec clears the filter on every
round update, the tests keep an entry over the update to round 2 and drop it at round 4. -/
def DupeMap.CleanOnRound (expired : Nat → Nat → Bool) (d : DupeMap) (round : Nat) :
    DupeMap :=
  { round := round, seen := d.seen.filter (fun e => !expired round e.1) }

/-- What happens to a filter: a call of `CanFwd` or a round update. -/
inductive DupeOp where
  | canFwd (payload : List Nat)
  | roundUpdate (round : Nat)
  deriving DecidableEq, Repr

/-- A filter after a list of operations, with the results of the calls of `CanFwd`. -/
def DupeMap.run (hash : List Nat → Nat) (expired : Nat → Nat → Bool) :
    DupeMap → List DupeOp → DupeMap × List Bool
  | d, [] => (d, [])
  | d, .canFwd payload :: ops =>
    let r := d.CanFwd hash payload
    let rest := DupeMap.run hash expired r.2 ops
    (rest.1, r.1 :: rest.2)
  | d, .roundUpdate round :: ops => DupeMap.run hash expired (d.CleanOnRound expired round) ops

/-- Whether an operation is a round update that removes the entries added in the round
`added`. -/
def DupeOp.cleans (expired : Nat → Nat → Bool) (added : Nat) : DupeOp → Bool
  | .canFwd _ => false
  | .roundUpdate round => expired round added

/-- A sample key of a payload: the sum of its bytes. -/
def samplePayloadKey (payload : List Nat) : Nat := payload.sum

/-- A sample cleaning rule, which fits the tests: a round update removes the entries added
three or more rounds before. -/
def sampleExpired (round added : Nat) : Bool := decide (added + 3 ≤ round)

/-- The payload of the tests, "This is a test". -/
def samplePayloadBytes : List Nat := "This is a test".toList.map Char.toNat

/-! ## Base58 (crypto/base58) -/

/-- Modelled from the spec: the number that a list of digits stands for, highest digit
first. -/
def fromDigitsBE (base : Nat) (l : List Nat) : Nat :=
  l.foldl (fun acc d => acc * base + d) 0

/-- Modelled from the spec: the digits of a number, lowest first, by repeated division;
`fuel` bounds the number of divisions. -/
def toDigitsLE (base : Nat) : Nat → Nat → List Nat
  | 0, _ => []
  | fuel + 1, n => if n = 0 then [] else n % base :: toDigitsLE base fuel (n / base)

/-- Modelled from the spec: the digits of a number, highest first; zero has no digits. -/
def toDigitsBE (base : Nat) (n : Nat) : List Nat :=
  (toDigitsLE base n n).reverse

/-- Modelled from the spec: the number of zeros at the head of a list. -/
def leadingZeros (l : List Nat) : Nat :=
  (l.takeWhile (fun x => x == 0)).length

/-- Modelled from the spec: base58.go is not among the sources. Base58 keeps each leading
zero as one zero digit and writes the number that the rest stands for in the other base. -/
def baseConvert (src dst : Nat) (l : List Nat) : List Nat :=
  List.replicate (leadingZeros l) 0 ++ toDigitsBE dst (fromDigitsBE src l)

/-- Modelled from the spec: an `Alphabet` is its characters (as bytes), in the order of the
digits they stand for. -/
structure Alphabet where
  encode : List Nat
  deriving DecidableEq, Repr

/-- Modelled from the spec: the error of decoding a string with a character outside the
alphabet. -/
def errInvalidBase58 : GoError := 8

/-- Modelled from the spec: `Base58EncodingAlphabet(bin, alph)` writes each digit of the
converted bytes as the character of the alphabet at that position. -/
def Base58EncodingAlphabet (bin : List Nat) (alph : Alphabet) : List Nat :=
  (baseConvert 256 58 bin).map (fun d => alph.encode.getD d 0)

/-- Modelled from the spec: `Base58DecodingAlphabet(str, alph)` reads each character as its
position in the alphabet and converts the digits back; a character outside the alphabet is
an error. -/
def Base58DecodingAlphabet (str : List Nat) (alph : Alphabet) : Except GoError (List Nat) :=
  if str.all (fun c => alph.encode.contains c) then
    .ok (baseConvert 58 256 (str.map (fun c => alph.encode.indexOf c)))
  else .error errInvalidBase58

/-- Modelled from the spec: the alphabet `BTCAlphabet` is that of Bitcoin addresses. -/
def BTCAlphabet : Alphabet :=
  { encode := "123456789ABCDEFGHJKLMNPQRSTUVWXYZabcdefghijkmnopqrstuvwxyz".toList.map Char.toNat }

/-- Modelled from the spec: `Base58Encoding` is the encoding with `BTCAlphabet`. -/
def Base58Encoding (bin : List Nat) : List Nat :=
  Base58EncodingAlphabet bin BTCAlphabet

/-- Modelled from the spec: `Base58Decoding` is the decoding with `BTCAlphabet`. -/
def Base58Decoding (str : List Nat) : Except GoError (List Nat) :=
  Base58DecodingAlphabet str BTCAlphabet

/-! ## Properties -/

/-! ### Auxiliary facts -/

/-- Reading a map after a write. -/
theorem countsGet_countsSet (c : Counts) (k k2 : List Nat) (v : Nat) :
    countsGet (countsSet c k v) k2 = if k2 = k then v else countsGet c k2 := by
  unfold countsGet countsSet
  by_cases h : k2 = k
  · subst h; simp [List.lookup]
  · have hb : (k2 == k) = false := by simpa using h
    simp only [List.lookup, hb, if_neg h]
    congr 1
    induction c with
    | nil => rfl
    | cons p c ih =>
      obtain ⟨a, b⟩ := p
      by_cases ha : a = k
      · subst ha
        have : (k2 == a) = false := hb
        simp [List.filter, List.lookup, this, ih]
      · have hne : (a == k) = false := by simpa using ha
        simp only [List.filter, hne, Bool.not_false, List.lookup]
        cases (k2 == a) <;> simp [ih]

/-- The weight counted for a hash is additive over the counted votes. -/
theorem weightFor_append (l1 l2 : List Counted) (h : List Nat) :
    weightFor (l1 ++ l2) h = weightFor l1 h + weightFor l2 h := by
  simp [weightFor, List.filter_append, List.map_append, List.sum_append]

/-- The weight that one counted vote brings to a hash. -/
theorem weightFor_single (c : Counted) (h : List Nat) :
    weightFor [c] h = if c.hash = h then c.weight else 0 := by
  by_cases hc : c.hash = h
  · simp [weightFor, List.filter, hc]
  · have hb : (c.hash == h) = false := by simpa using hc
    simp [weightFor, List.filter, hc, hb]

/-- The weight counted for one hash is at most the weight of all counted votes. -/
theorem weightFor_le_sum (l : List Counted) (h : List Nat) :
    weightFor l h ≤ (l.map fun c => c.weight).sum := by
  induction l with
  | nil => simp [weightFor]
  | cons c l ih =>
    have hc : weightFor (c :: l) h = weightFor [c] h + weightFor l h :=
      weightFor_append [c] l h
    rw [hc, weightFor_single]
    simp only [List.map_cons, List.sum_cons]
    split <;> omega

/-- A pass of the loop that goes on keeps the relation between the locals and the counted
votes, keeps the vote limit, and appends one vote to `ctx.BlockVotes` per counted vote. -/
theorem loopBody_next_inv (env : Env) (s s1 : LoopState) (e : Event) (l : List Counted)
    (hstep : loopBody env s e = .next s1) (hinv : CountInv s l) :
    CountInv s1 (l ++ (countedBy env s e).toList) ∧ s1.voteLimit = s.voteLimit ∧
      s1.ctx.BlockVotes.length = s.ctx.BlockVotes.length + (countedBy env s e).toList.length := by
  obtain ⟨hv, hnd, hc⟩ := hinv
  cases e with
  | timer => simp [loopBody] at hstep
  | msg m =>
    simp only [loopBody, countedBy] at hstep ⊢
    cases hmem : s.voters.contains (hexEncodeToString m.PubKey) with
    | true =>
      simp only [hmem, if_true] at hstep ⊢
      injection hstep with hs; subst hs
      simp [CountInv, hv, hnd, hc]
    | false =>
      simp only [hmem, Bool.false_eq_true, if_false] at hstep ⊢
      cases hpm : env.ProcessMsg s.ctx m with
      | error err =>
        simp only [hpm] at hstep ⊢
        split at hstep
        · simp at hstep
        · injection hstep with hs; subst hs
          simp [CountInv, hv, hnd, hc]
      | ok v =>
        simp only [hpm] at hstep ⊢
        by_cases hz : v % 256 = 0
        · simp only [hz, if_true] at hstep ⊢
          injection hstep with hs; subst hs
          simp [CountInv, hv, hnd, hc]
        · simp only [hz, if_false] at hstep ⊢
          cases hnv : NewVote env m.Payload.BlockHash m.Payload.PubKeyBLS m.Payload.SigBLS s.ctx.Step with
          | error e2 => simp [hnv] at hstep
          | ok bv =>
            simp only [hnv] at hstep
            split at hstep
            · injection hstep with hs; subst hs
              refine ⟨⟨?_, ?_, ?_⟩, rfl, by simp⟩
              · intro k
                simp only [List.mem_cons, Option.toList, List.map_append, List.map_cons,
                  List.map_nil, List.mem_append, List.mem_singleton, hv k]
                tauto
              · simp only [Option.toList, List.map_append, List.map_cons, List.map_nil]
                rw [List.nodup_append]
                refine ⟨hnd, by simp, ?_⟩
                intro a ha hb
                simp only [List.mem_singleton] at hb
                subst hb
                have hin := (hv _).2 ha
                have : s.voters.contains (hexEncodeToString m.PubKey) = true := by
                  simpa using hin
                rw [hmem] at this
                exact Bool.noConfusion this
              · intro h
                simp only [Option.toList]
                rw [countsGet_countsSet, weightFor_append, weightFor_single]
                simp only [hc]
                by_cases hh : h = hexEncodeToString m.Payload.BlockHash
                · subst hh; simp [Nat.add_mod]
                · have : ¬ hexEncodeToString m.Payload.BlockHash = h := fun x => hh x.symm
                  simp [hh, this]
            · split at hstep <;> simp at hstep

/-- The relation between the locals and the counted votes holds for as long as the loop
is collecting. -/
theorem runLoop_inv (env : Env) (events : List Event) :
    ∀ (s0 s : LoopState) (l0 : List Counted), CountInv s0 l0 →
      runLoop env s0 events = .blocked s →
      CountInv s (l0 ++ countedVotes env s0 events) ∧ s.voteLimit = s0.voteLimit ∧
        s.ctx.BlockVotes.length = s0.ctx.BlockVotes.length + (countedVotes env s0 events).length := by
  induction events with
  | nil =>
    intro s0 s l0 hinv hrun
    simp only [runLoop] at hrun
    injection hrun with hs; subst hs
    simpa [countedVotes] using hinv
  | cons e es ih =>
    intro s0 s l0 hinv hrun
    simp only [runLoop, countedVotes] at hrun ⊢
    cases hb : loopBody env s0 e with
    | next s1 =>
      simp only [hb] at hrun ⊢
      obtain ⟨h1, h2, h3⟩ := loopBody_next_inv env s0 s1 e l0 hb hinv
      obtain ⟨g1, g2, g3⟩ := ih s1 s _ h1 hrun
      refine ⟨by simpa [List.append_assoc] using g1, by rw [g2, h2], ?_⟩
      rw [g3, h3, List.length_append]; omega
    | ret c err => simp [hb] at hrun
    | panicked => simp [hb] at hrun

/-- A message of a recorded voter breaks out of the select at once. -/
theorem loopBody_seen (env : Env) (s : LoopState) (m : MsgConsensus)
    (h : hexEncodeToString m.PubKey ∈ s.voters) : loopBody env s (.msg m) = .next s := by
  have : s.voters.contains (hexEncodeToString m.PubKey) = true := by simpa using h
  simp only [loopBody, this, if_true]

/-- Running the loop on two lists of events, one after the other. -/
theorem runLoop_append (env : Env) (a b : List Event) :
    ∀ s0 : LoopState, runLoop env s0 (a ++ b) =
      match runLoop env s0 a with
      | .blocked s => runLoop env s b
      | .returned c e rest => .returned c e (rest ++ b)
      | .panicked => .panicked := by
  induction a with
  | nil => intro s0; simp [runLoop]
  | cons e es ih =>
    intro s0
    simp only [List.cons_append, runLoop]
    cases loopBody env s0 e with
    | next s1 => simpa using ih s1
    | ret c err => simp
    | panicked => simp

/-- One iteration of the pruning loop on an array that ends in copies of a winning vote:
nothing panics and the array still ends in copies of that vote. -/
theorem pruneIter_keeps_tail (win : Bytes) (v : Vote) (hv : bytesEqual v.Hash win = true)
    (B : List Vote) (m i : Nat) (hi : i < B.length + (m + 1)) :
    ∃ B2 m2, pruneIter win (B ++ List.replicate (m + 1) v, B.length + 1) i
        = some (B2 ++ List.replicate (m2 + 1) v, B2.length + 1) ∧
      B2.length + m2 = B.length + m ∧ B2.Sublist B := by
  unfold pruneIter
  by_cases hlt : i < B.length
  · have hget : (B ++ List.replicate (m + 1) v).get? i = some (B.get ⟨i, hlt⟩) := by
      rw [List.get?_eq_getElem?, List.getElem?_append_left hlt, List.getElem?_eq_getElem hlt]
      rfl
    simp only [hget]
    by_cases hw : bytesEqual (B.get ⟨i, hlt⟩).Hash win = true
    · simp only [hw, if_true]
      exact ⟨B, m, rfl, rfl, List.Sublist.refl _⟩
    · simp only [hw, if_false]
      have h1 : i + 1 ≤ B.length + 1 := by omega
      simp only [h1, if_true]
      refine ⟨B.take i ++ B.drop (i + 1), m + 1, ?_, ?_, ?_⟩
      · have e1 : (B ++ List.replicate (m + 1) v).take i = B.take i := by
          rw [List.take_append_of_le_length (by omega)]
        have e2 : (B ++ List.replicate (m + 1) v).drop (i + 1)
            = B.drop (i + 1) ++ List.replicate (m + 1) v := by
          rw [List.drop_append_of_le_length (by omega)]
        have e3 : (B.drop (i + 1) ++ List.replicate (m + 1) v).take (B.length + 1 - (i + 1))
            = B.drop (i + 1) ++ [v] := by
          have hl : (B.drop (i + 1)).length = B.length - (i + 1) := by simp
          rw [List.take_append_eq_append_take, hl]
          have : B.length + 1 - (i + 1) - (B.length - (i + 1)) = 1 := by omega
          rw [this, List.take_of_length_le (by rw [hl]; omega)]
          simp [List.replicate_succ]
        have e4 : (B ++ List.replicate (m + 1) v).drop (B.length + 1 - 1)
            = List.replicate (m + 1) v := by
          simp
        rw [e1, e2, e3, e4]
        have hlen : (B.take i ++ B.drop (i + 1)).length + 1 = B.length := by
          simp [List.length_append, List.length_take, List.length_drop]; omega
        rw [hlen]
        simp [List.replicate_succ, List.append_assoc]
      · simp [List.length_append, List.length_take, List.length_drop]; omega
      · have := List.eraseIdx_sublist B i
        rwa [List.eraseIdx_eq_take_drop_succ] at this
  · have hge : B.length ≤ i := by omega
    have hget : (B ++ List.replicate (m + 1) v).get? i = some v := by
      rw [List.get?_eq_getElem?, List.getElem?_append_right hge]
      rw [List.getElem?_replicate]
      have : i - B.length < m + 1 := by omega
      simp [this]
    simp only [hget, hv, if_true]
    exact ⟨B, m, rfl, rfl, List.Sublist.refl _⟩

/-- The first `k` iterations of the pruning loop when the last vote is a winning one. -/
theorem pruneFold_keeps_tail (win : Bytes) (v : Vote) (hv : bytesEqual v.Hash win = true)
    (B : List Vote) (k : Nat) (hk : k ≤ B.length + 1) :
    ∃ B2 m2, (List.range k).foldlM (pruneIter win) (B ++ [v], B.length + 1)
        = some (B2 ++ List.replicate (m2 + 1) v, B2.length + 1) ∧
      B2.length + m2 = B.length ∧ B2.Sublist B := by
  induction k with
  | zero => exact ⟨B, 0, by simp, rfl, List.Sublist.refl _⟩
  | succ k ih =>
    obtain ⟨B1, m1, h1, hl1, hs1⟩ := ih (by omega)
    obtain ⟨B2, m2, h2, hl2, hs2⟩ :=
      pruneIter_keeps_tail win v hv B1 m1 k (by omega)
    refine ⟨B2, m2, ?_, by omega, hs2.trans hs1⟩
    rw [List.range_succ, List.foldlM_append, h1]
    simpa using h2

/-- When the last vote is for the winner the pruning loop does not panic, keeps that vote
last and keeps a sublist of the votes before it. -/
theorem pruneVotes_last_winner (win : Bytes) (v : Vote) (hv : bytesEqual v.Hash win = true)
    (B : List Vote) :
    ∃ B2, pruneVotes win (B ++ [v]) = some (B2 ++ [v]) ∧ B2.Sublist B := by
  obtain ⟨B2, m2, h, _, hs⟩ := pruneFold_keeps_tail win v hv B (B.length + 1) (le_refl _)
  refine ⟨B2, ?_, hs⟩
  unfold pruneVotes
  have hlen : (B ++ [v]).length = B.length + 1 := by simp
  rw [hlen, h]
  simp [List.take_append_eq_append_take, List.replicate_succ]

/-- What a pass of the loop does with a vote that is counted and that `NewVote` accepts:
below the vote limit the loop goes on, otherwise the function returns `nil` with the hash
of the vote in `ctx.BlockHash`. -/
theorem loopBody_counted (env : Env) (s : LoopState) (m : MsgConsensus) (c : Counted)
    (hc : countedBy env s (.msg m) = some c)
    (hv : env.NewVoteCheck m.Payload.BlockHash m.Payload.PubKeyBLS m.Payload.SigBLS s.ctx.Step
      = none) :
    c.signer = hexEncodeToString m.PubKey ∧ c.hash = hexEncodeToString m.Payload.BlockHash ∧
    ((countsGet s.counts c.hash + c.weight) % 256 < s.voteLimit →
      ∃ s1, loopBody env s (.msg m) = .next s1 ∧ s1.ctx.BlockHash = s.ctx.BlockHash) ∧
    (s.voteLimit ≤ (countsGet s.counts c.hash + c.weight) % 256 →
      ∃ vs, vs.Sublist s.ctx.BlockVotes ∧ loopBody env s (.msg m) =
        .ret { s.ctx with
               BlockHash := m.Payload.BlockHash,
               BlockVotes := vs ++ [⟨m.Payload.BlockHash, m.Payload.PubKeyBLS, m.Payload.SigBLS,
                 s.ctx.Step⟩] } none) := by
  simp only [countedBy] at hc
  cases hmem : s.voters.contains (hexEncodeToString m.PubKey) with
  | true =>
    simp only [hmem, if_true] at hc
    cases hc
  | false =>
    simp only [hmem, Bool.false_eq_true, if_false] at hc
    cases hpm : env.ProcessMsg s.ctx m with
    | error err => simp [hpm] at hc
    | ok v =>
      simp only [hpm] at hc
      by_cases hz : v % 256 = 0
      · simp [hz] at hc
      · simp only [hz, if_false, Option.some.injEq] at hc
        subst hc
        have hget : countsGet (countsSet s.counts (hexEncodeToString m.Payload.BlockHash)
            ((countsGet s.counts (hexEncodeToString m.Payload.BlockHash) + v % 256) % 256))
            (hexEncodeToString m.Payload.BlockHash)
            = (countsGet s.counts (hexEncodeToString m.Payload.BlockHash) + v % 256) % 256 := by
          rw [countsGet_countsSet]; simp
        refine ⟨rfl, rfl, ?_, ?_⟩
        · intro hlt
          dsimp only at hlt
          simp only [loopBody, hmem, Bool.false_eq_true, if_false, hpm, hz, NewVote, hv, hget,
            hlt, if_true]
          exact ⟨_, rfl, rfl⟩
        · intro hge
          dsimp only at hge
          have hnlt : ¬ (countsGet s.counts (hexEncodeToString m.Payload.BlockHash) + v % 256)
              % 256 < s.voteLimit := by omega
          obtain ⟨vs, hp, hsub⟩ := pruneVotes_last_winner m.Payload.BlockHash
            ⟨m.Payload.BlockHash, m.Payload.PubKeyBLS, m.Payload.SigBLS, s.ctx.Step⟩
            (by simp [bytesEqual]) s.ctx.BlockVotes
          refine ⟨vs, hsub, ?_⟩
          simp only [loopBody, hmem, Bool.false_eq_true, if_false, hpm, hz, NewVote, hv, hget,
            hnlt, hp]

/-- The function `committeeVoteReduction` changes the current committee only, and what
it signs and gossips is over `ctx.BlockHash`. -/
theorem committeeVoteReduction_spec (env : Env) (ctx : Context) :
    (committeeVoteReduction env ctx).1.BlockHash = ctx.BlockHash ∧
    (committeeVoteReduction env ctx).1.Step = ctx.Step ∧
    (committeeVoteReduction env ctx).1.BlockVotes = ctx.BlockVotes ∧
    ∀ e ∈ (committeeVoteReduction env ctx).2.1, VoteEffect ctx.BlockHash e := by
  unfold committeeVoteReduction VoteEffect
  cases env.Deterministic ctx with
  | error err => simp
  | ok cc =>
    dsimp only
    split
    · simp
    · cases env.BLSSign _ _ with
      | error err => simp
      | ok sg =>
        dsimp only
        cases env.NewReduction _ _ sg with
        | error err => simp
        | ok pl =>
          dsimp only
          cases env.CreateSignature _ pl with
          | error err => simp
          | ok sigEd =>
            dsimp only
            cases env.NewMsgConsensus _ sigEd pl with
            | error err => simp
            | ok msg =>
              dsimp only
              cases env.SendMessage _ msg with
              | some err => simp
              | none => simp

/-- A pass of the loop does not touch `ctx.Step`. -/
theorem loopBody_step (env : Env) (s : LoopState) (e : Event) :
    (∀ s1, loopBody env s e = .next s1 → s1.ctx.Step = s.ctx.Step) ∧
    (∀ c err, loopBody env s e = .ret c err → c.Step = s.ctx.Step) := by
  cases e with
  | timer =>
    refine ⟨fun s1 h => by simp [loopBody] at h, fun c err h => ?_⟩
    simp only [loopBody, Flow.ret.injEq] at h
    rw [← h.1]
  | msg m =>
    simp only [loopBody]
    split
    · refine ⟨fun s1 h => ?_, fun c err h => by simp at h⟩
      injection h with h; rw [← h]
    · cases env.ProcessMsg s.ctx m with
      | error err =>
        dsimp only
        split
        · refine ⟨fun s1 h => by simp at h, fun c err h => ?_⟩
          simp only [Flow.ret.injEq] at h
          rw [← h.1]
        · refine ⟨fun s1 h => ?_, fun c err h => by simp at h⟩
          injection h with h; rw [← h]
      | ok v =>
        dsimp only
        split
        · refine ⟨fun s1 h => ?_, fun c err h => by simp at h⟩
          injection h with h; rw [← h]
        · cases NewVote env m.Payload.BlockHash m.Payload.PubKeyBLS m.Payload.SigBLS s.ctx.Step with
          | error e2 =>
            refine ⟨fun s1 h => by simp at h, fun c err h => ?_⟩
            simp only [Flow.ret.injEq] at h
            rw [← h.1]
          | ok bv =>
            dsimp only
            split
            · refine ⟨fun s1 h => ?_, fun c err h => by simp at h⟩
              injection h with h; rw [← h]
            · split
              · exact ⟨fun s1 h => by simp at h, fun c err h => by simp at h⟩
              · refine ⟨fun s1 h => by simp at h, fun c err h => ?_⟩
                simp only [Flow.ret.injEq] at h
                rw [← h.1]

/-- The function `countVotesReduction` returns with `ctx.Step` as it found it. -/
theorem runLoop_step (env : Env) (events : List Event) :
    ∀ (s0 : LoopState) c err rest, runLoop env s0 events = .returned c err rest →
      c.Step = s0.ctx.Step := by
  induction events with
  | nil => intro s0 c err rest h; simp [runLoop] at h
  | cons e es ih =>
    intro s0 c err rest h
    simp only [runLoop] at h
    cases hb : loopBody env s0 e with
    | next s1 =>
      simp only [hb] at h
      rw [ih s1 c err rest h, (loopBody_step env s0 e).1 s1 hb]
    | ret c1 e1 =>
      simp only [hb, Outcome.returned.injEq] at h
      rw [← h.1]
      exact (loopBody_step env s0 e).2 c1 e1 hb
    | panicked => simp [hb] at h

/-- A reduction step votes over the `ctx.BlockHash` it starts with and, when it runs to
its end, has advanced `ctx.Step` by one. -/
theorem voteAndCount_spec (env : Env) (ctx : Context) (events : List Event) :
    (∀ e ∈ (voteAndCount env ctx events).effects, VoteEffect ctx.BlockHash e) ∧
    (∀ c log rest, voteAndCount env ctx events = .done c log rest →
      c.Step = (ctx.Step + 1) % 256) := by
  obtain ⟨_, hs, _, hlog⟩ := committeeVoteReduction_spec env ctx
  unfold voteAndCount
  rcases hcv : committeeVoteReduction env ctx with ⟨c1, log, err⟩
  rw [hcv] at hs hlog
  dsimp only at hs hlog
  cases err with
  | some e => exact ⟨by simpa [Phase.effects] using hlog, by simp⟩
  | none =>
    dsimp only
    cases hcnt : countVotesReduction env c1 events with
    | blocked s => exact ⟨by simpa [Phase.effects] using hlog, by simp⟩
    | panicked => exact ⟨by simpa [Phase.effects] using hlog, by simp⟩
    | returned c2 err2 rest =>
      cases err2 with
      | some e => exact ⟨by simpa [Phase.effects] using hlog, by simp⟩
      | none =>
        refine ⟨by simpa [Phase.effects] using hlog, ?_⟩
        intro c log2 rest2 h
        simp only [Phase.done.injEq] at h
        rw [← h.1]
        have := runLoop_step env events (initLoop c1) c2 none rest hcnt
        simp only [initLoop] at this
        simp [this, hs]

/-- Casting a vote is not a call of `SendSetAgreement`. -/
theorem VoteEffect_ne_setAgreement (hash h : Bytes) (vs : List Vote)
    (hv : VoteEffect hash (.setAgreement h vs)) : False := by
  rcases hv with h1 | ⟨msg, h1⟩ | ⟨msg, h1⟩ <;> cases h1

/-- In a log made of vote effects for one hash, every vote cast is over that hash. -/
theorem castOver_of_voteEffects (hash h : Bytes) (log : List Effect)
    (hlog : ∀ e ∈ log, VoteEffect hash e) (hc : castOver h log) : h = hash := by
  rcases hc with hs | ⟨msg, hg⟩
  · rcases hlog _ hs with h1 | ⟨m2, h1⟩ | ⟨m2, h1⟩
    · injection h1
    · cases h1
    · cases h1
  · rcases hlog _ hg with h1 | ⟨m2, h1⟩ | ⟨m2, h1⟩
    · cases h1
    · injection h1
    · cases h1

/-- The hash that the first step votes on: the fallback when `ctx.BlockHash` is nil. -/
theorem firstStep_spec (env : Env) (ctx : Context) (events : List Event) :
    (∀ e ∈ (firstStep env ctx events).effects,
      VoteEffect (if ctx.BlockHash = none then fallback else ctx.BlockHash) e) ∧
    (∀ c log rest, firstStep env ctx events = .done c log rest →
      c.Step = (ctx.Step + 1) % 256) := by
  unfold firstStep
  by_cases hn : ctx.BlockHash = none
  · simp only [hn, if_true]
    have := voteAndCount_spec env { ctx with BlockHash := fallback, BlockVotes := [] } events
    exact this
  · simp only [hn, if_false]
    have := voteAndCount_spec env { ctx with BlockVotes := [] } events
    exact this

/-- The hash that the second step votes on: the fallback when `ctx.BlockHash` is nil. -/
theorem secondStep_spec (env : Env) (ctx : Context) (events : List Event) :
    (∀ e ∈ (secondStep env ctx events).effects,
      VoteEffect (if ctx.BlockHash = none then fallback else ctx.BlockHash) e) ∧
    (∀ c log rest, secondStep env ctx events = .done c log rest →
      c.Step = (ctx.Step + 1) % 256) := by
  unfold secondStep
  by_cases hn : ctx.BlockHash = none
  · simp only [hn, if_true]
    have := voteAndCount_spec env { ctx with BlockHash := fallback } events
    exact this
  · simp only [hn, if_false]
    exact voteAndCount_spec env ctx events

/-- After the fallback replaced a nil hash, the hash is not nil. -/
theorem fallback_or_self_ne_none (h : Bytes) :
    (if h = none then fallback else h) ≠ none := by
  by_cases hn : h = none
  · simp [hn, fallback]
  · simp [hn]

/-- Every effect of `BlockReduction` comes from the first step, from the second step, or
is the single call of `SendSetAgreement` after a second step that left a hash that is
neither nil nor the fallback. -/
theorem BlockReduction_effects (env : Env) (ctx : Context) (events : List Event)
    (e : Effect) (he : e ∈ (BlockReduction env ctx events).effects) :
    e ∈ (firstStep env ctx events).effects ∨
    (∃ c1 l1 r1, firstStep env ctx events = .done c1 l1 r1 ∧
      e ∈ (secondStep env c1 r1).effects) ∨
    (∃ c1 l1 r1 c2 l2 r2, firstStep env ctx events = .done c1 l1 r1 ∧
      secondStep env c1 r1 = .done c2 l2 r2 ∧ c2.BlockHash ≠ none ∧
      bytesEqual c2.BlockHash fallback = false ∧
      e = .setAgreement c2.BlockHash c2.BlockVotes) := by
  unfold BlockReduction at he
  cases h1 : firstStep env ctx events with
  | blocked l => left; simpa [h1, Result.effects, Phase.effects] using he
  | panicked l => left; simpa [h1, Result.effects, Phase.effects] using he
  | failed c0 err l r => left; simpa [h1, Result.effects, Phase.effects] using he
  | done c1 l1 r1 =>
    simp only [h1] at he
    cases h2 : secondStep env c1 r1 with
    | blocked l =>
      simp only [h2, Result.effects, List.mem_append] at he
      rcases he with he | he
      · left; simpa [Phase.effects] using he
      · right; left; exact ⟨c1, l1, r1, rfl, by simpa [h2, Phase.effects] using he⟩
    | panicked l =>
      simp only [h2, Result.effects, List.mem_append] at he
      rcases he with he | he
      · left; simpa [Phase.effects] using he
      · right; left; exact ⟨c1, l1, r1, rfl, by simpa [h2, Phase.effects] using he⟩
    | failed c0 err l r =>
      simp only [h2, Result.effects, List.mem_append] at he
      rcases he with he | he
      · left; simpa [Phase.effects] using he
      · right; left; exact ⟨c1, l1, r1, rfl, by simpa [h2, Phase.effects] using he⟩
    | done c2 l2 r2 =>
      simp only [h2] at he
      unfold finish at he
      by_cases hn : c2.BlockHash = none
      · simp only [hn, if_true, Result.effects, List.mem_append] at he
        rcases he with he | he
        · left; simpa [Phase.effects] using he
        · right; left; exact ⟨c1, l1, r1, rfl, by simpa [h2, Phase.effects] using he⟩
      · simp only [hn, if_false] at he
        cases hf : bytesEqual c2.BlockHash fallback with
        | true =>
          simp only [hf, if_true, Result.effects, List.mem_append] at he
          rcases he with he | he
          · left; simpa [Phase.effects] using he
          · right; left; exact ⟨c1, l1, r1, rfl, by simpa [h2, Phase.effects] using he⟩
        | false =>
          simp only [hf, Bool.false_eq_true, if_false, Result.effects, List.mem_append,
            List.mem_singleton] at he
          rcases he with (he | he) | he
          · left; simpa [Phase.effects] using he
          · right; left; exact ⟨c1, l1, r1, rfl, by simpa [h2, Phase.effects] using he⟩
          · right; right; exact ⟨c1, l1, r1, c2, l2, r2, rfl, h2, hn, hf, he⟩

/-! ### The claims -/

set_option maxRecDepth 8000 in
/-- C1, refuted as stated: with a vote limit of 250 and two signers of 200 votes each for
hash2, the loop is still collecting, the sum of the weights counted for hash2 is 400 and its
count is 144: the uint8 counter has wrapped. -/
theorem countVotesReduction_count_wraps :
    ∃ s, countVotesReduction heavyEnv (sampleCtx hash1 (List.replicate 250 keyC))
        [voteMsg keyA hash2, voteMsg keyB hash2] = .blocked s ∧
      s.voteLimit = 250 ∧
      s.voters = [hexEncodeToString keyB, hexEncodeToString keyA] ∧
      countsGet s.counts (hexEncodeToString hash2) = 144 ∧
      weightFor (countedVotes heavyEnv (initLoop (sampleCtx hash1 (List.replicate 250 keyC)))
        [voteMsg keyA hash2, voteMsg keyB hash2]) (hexEncodeToString hash2) = 400 :=
  ⟨_, rfl, by decide, by decide, by decide, by decide⟩

/-- C1, amended: while countVotesReduction is collecting, a message whose signer key is
already among the voters leaves the whole loop state (counts, voters, ctx.BlockVotes)
unchanged; the voters are exactly the signers of the votes counted so far, no signer is
among them twice, ctx.BlockVotes has grown by one vote per counted signer, and the count of
every hash is the sum of the weights of the signers counted for it modulo 256, the counter
being a uint8, hence the sum itself whenever the sum is below 256. -/
theorem countVotesReduction_counts_each_signer_once (env : Env) (ctx : Context)
    (events : List Event) (s : LoopState)
    (hrun : countVotesReduction env ctx events = .blocked s) :
    (∀ m, hexEncodeToString m.PubKey ∈ s.voters →
      loopBody env s (.msg m) = .next s ∧
      countVotesReduction env ctx (events ++ [.msg m]) = .blocked s) ∧
    (∀ k, k ∈ s.voters ↔ k ∈ (countedVotes env (initLoop ctx) events).map Counted.signer) ∧
    ((countedVotes env (initLoop ctx) events).map Counted.signer).Nodup ∧
    (∀ h, countsGet s.counts h
      = weightFor (countedVotes env (initLoop ctx) events) h % 256) ∧
    (∀ h, weightFor (countedVotes env (initLoop ctx) events) h < 256 →
      countsGet s.counts h = weightFor (countedVotes env (initLoop ctx) events) h) ∧
    s.ctx.BlockVotes.length
      = ctx.BlockVotes.length + (countedVotes env (initLoop ctx) events).length := by
  have hinit : CountInv (initLoop ctx) [] := by
    refine ⟨by simp [initLoop], by simp, ?_⟩
    intro h
    simp [initLoop, countsGet, weightFor]
  obtain ⟨⟨hv, hnd, hc⟩, _, hlen⟩ := runLoop_inv env events (initLoop ctx) s [] hinit hrun
  simp only [List.nil_append] at hv hnd hc
  refine ⟨fun m hm => ⟨loopBody_seen env s m hm, ?_⟩, hv, hnd, hc, ?_, hlen⟩
  · unfold countVotesReduction at hrun ⊢
    rw [runLoop_append, hrun]
    simp only [runLoop, loopBody_seen env s m hm]
  · intro h hfit
    rw [hc h, Nat.mod_eq_of_lt hfit]

/-- C1 amended, on a run: A votes for hash1, votes again for hash2, then B votes for hash1; the
second message of A is not counted and the count of hash1 is 2. -/
theorem countVotesReduction_counts_each_signer_once_witness :
    countsGet
      (match countVotesReduction sampleEnv (sampleCtx hash1 [keyA, keyB, keyC])
          [voteMsg keyA hash1, voteMsg keyA hash2, voteMsg keyB hash1] with
        | .blocked s => s.counts
        | _ => [])
      (hexEncodeToString hash1) = 2 ∧
    weightFor (countedVotes sampleEnv (initLoop (sampleCtx hash1 [keyA, keyB, keyC]))
      [voteMsg keyA hash1, voteMsg keyA hash2, voteMsg keyB hash1]) (hexEncodeToString hash1)
      = 2 :=
  ⟨by decide,
   ((countVotesReduction_counts_each_signer_once sampleEnv (sampleCtx hash1 [keyA, keyB, keyC])
      [voteMsg keyA hash1, voteMsg keyA hash2, voteMsg keyB hash1] _ rfl).2.2.2.2.1
      (hexEncodeToString hash1) (by decide)).symm.trans (by decide)⟩

/-- C2: at the second step of a run of BlockReduction the step ends on quorum for hash2
while ctx.BlockVotes still holds the two first-step votes for hash1: the pruning loop removes
the first and skips the second, so a vote for hash1 is left next to the votes for hash2. -/
theorem countVotesReduction_prune_skips_vote :
    pruneVotes hash2
        [sampleVote hash1 1, sampleVote hash1 1, sampleVote hash2 2, sampleVote hash2 2]
      = some [sampleVote hash1 1, sampleVote hash2 2, sampleVote hash2 2] ∧
    countVotesReduction sampleEnv
        { Round := 1, Step := 2, BlockHash := hash1,
          BlockVotes := [sampleVote hash1 1, sampleVote hash1 1],
          CurrentCommittee := [keyC, keyD], EdPubKey := keyLocal }
        [voteMsg keyC hash2, voteMsg keyD hash2]
      = .returned
        { Round := 1, Step := 2, BlockHash := hash2,
          BlockVotes := [sampleVote hash1 1, sampleVote hash2 2, sampleVote hash2 2],
          CurrentCommittee := [keyC, keyD], EdPubKey := keyLocal } none [] ∧
    BlockReduction sampleEnv (sampleCtx hash1 [])
        [voteMsg keyA hash1, voteMsg keyB hash1, voteMsg keyC hash2, voteMsg keyD hash2]
      = .returned
        { Round := 1, Step := 3, BlockHash := hash2,
          BlockVotes := [sampleVote hash1 1, sampleVote hash2 2, sampleVote hash2 2],
          CurrentCommittee := [keyC, keyD], EdPubKey := keyLocal } none
        [.setAgreement hash2 [sampleVote hash1 1, sampleVote hash2 2, sampleVote hash2 2]]
        [] := by
  refine ⟨by decide, by decide, by decide⟩

/-- C3, refuted as stated: with a committee of four, three unit votes for hash2 reach
the quorum of ceil(0.75 * 4) = 3, yet countVotesReduction is still collecting and
ctx.BlockHash is not hash2. -/
theorem countVotesReduction_quorum_counterexample :
    (3 * (sampleCtx hash1 [keyA, keyB, keyC, keyD]).CurrentCommittee.length + 3) / 4
      ≤ weightFor (countedVotes sampleEnv (initLoop (sampleCtx hash1 [keyA, keyB, keyC, keyD]))
          [voteMsg keyA hash2, voteMsg keyB hash2, voteMsg keyC hash2])
          (hexEncodeToString hash2) ∧
    ∃ s, countVotesReduction sampleEnv (sampleCtx hash1 [keyA, keyB, keyC, keyD])
        [voteMsg keyA hash2, voteMsg keyB hash2, voteMsg keyC hash2] = .blocked s ∧
      s.ctx.BlockHash ≠ hash2 :=
  ⟨by decide, _, rfl, by decide⟩

/-- C3, amended: while countVotesReduction is collecting, a vote that is counted and
recorded for hash h ends the step with ctx.BlockHash = h and no error exactly when the
weight accumulated for h, as the uint8 counter holds it, reaches
uint8(len(ctx.CurrentCommittee)), the size of the whole committee; below that size the
function keeps collecting. -/
theorem countVotesReduction_stops_at_committee_size (env : Env) (ctx : Context)
    (events more : List Event) (s : LoopState) (m : MsgConsensus) (c : Counted)
    (hrun : countVotesReduction env ctx events = .blocked s)
    (hc : countedBy env s (.msg m) = some c)
    (hv : env.NewVoteCheck m.Payload.BlockHash m.Payload.PubKeyBLS m.Payload.SigBLS s.ctx.Step
      = none) :
    (ctx.CurrentCommittee.length % 256
        ≤ weightFor (countedVotes env (initLoop ctx) events ++ [c]) c.hash % 256 →
      ∃ ctx1, countVotesReduction env ctx (events ++ .msg m :: more) = .returned ctx1 none more ∧
        ctx1.BlockHash = m.Payload.BlockHash) ∧
    (weightFor (countedVotes env (initLoop ctx) events ++ [c]) c.hash % 256
        < ctx.CurrentCommittee.length % 256 →
      ∃ s1, countVotesReduction env ctx (events ++ [.msg m]) = .blocked s1 ∧
        s1.ctx.BlockHash = s.ctx.BlockHash) := by
  have hinit : CountInv (initLoop ctx) [] := by
    refine ⟨by simp [initLoop], by simp, ?_⟩
    intro h
    simp [initLoop, countsGet, weightFor]
  obtain ⟨⟨_, _, hcnt⟩, hlim, _⟩ := runLoop_inv env events (initLoop ctx) s [] hinit hrun
  simp only [List.nil_append] at hcnt
  have hl : s.voteLimit = ctx.CurrentCommittee.length % 256 := by rw [hlim]; rfl
  have hw : weightFor (countedVotes env (initLoop ctx) events ++ [c]) c.hash % 256
      = (countsGet s.counts c.hash + c.weight) % 256 := by
    rw [weightFor_append, weightFor_single, hcnt c.hash]
    simp [Nat.add_mod]
  obtain ⟨_, _, hlow, hhigh⟩ := loopBody_counted env s m c hc hv
  unfold countVotesReduction at hrun ⊢
  constructor
  · intro hge
    obtain ⟨vs, _, hb⟩ := hhigh (by rw [hl, ← hw]; exact hge)
    refine ⟨{ s.ctx with
               BlockHash := m.Payload.BlockHash,
               BlockVotes := vs ++ [⟨m.Payload.BlockHash, m.Payload.PubKeyBLS,
                 m.Payload.SigBLS, s.ctx.Step⟩] }, ?_, rfl⟩
    rw [runLoop_append, hrun]
    simp only [runLoop, hb]
  · intro hlt
    obtain ⟨s1, hb, hbh⟩ := hlow (by rw [hl, ← hw]; exact hlt)
    refine ⟨s1, ?_, hbh⟩
    rw [runLoop_append, hrun]
    simp only [runLoop, hb]

/-- C3 amended, on a run: with the committee A, B the vote of A leaves the function
collecting and the vote of B brings hash2 to the committee size 2 and ends the step on it. -/
theorem countVotesReduction_stops_at_committee_size_witness :
    ∃ ctx1, countVotesReduction sampleEnv (sampleCtx hash1 [keyA, keyB])
        ([voteMsg keyA hash2] ++ .msg (reductionMsg keyB hash2) :: []) = .returned ctx1 none [] ∧
      ctx1.BlockHash = (reductionMsg keyB hash2).Payload.BlockHash :=
  (countVotesReduction_stops_at_committee_size sampleEnv (sampleCtx hash1 [keyA, keyB])
    [voteMsg keyA hash2] [] _ (reductionMsg keyB hash2)
    ⟨hexEncodeToString keyB, hexEncodeToString hash2, 1⟩ rfl (by decide) rfl).1 (by decide)

/-- C4, refuted as stated: with 50 provisioners the committee size is 50, Quorum() is 37
and the ceiling of 0.75 * 50 = 37.5 is 38. -/
theorem Quorum_ceiling_counterexample :
    size (sampleExtractor 50) = 50 ∧
    Quorum (sampleExtractor 50) = 37 ∧
    ⌈(0.75 : ℚ) * ((size (sampleExtractor 50) : ℕ) : ℚ)⌉₊ = 38 := by
  have hs : size (sampleExtractor 50) = 50 := by
    simp [size, sampleExtractor, sampleProvisioners, committeeSize]
  refine ⟨hs, by simp [Quorum, hs], ?_⟩
  rw [hs, Nat.ceil_eq_iff (by norm_num)]
  constructor <;> norm_num

/-- C4, amended: for every provisioner set, Quorum() is the floor of 0.75 times the
committee size returned by size(): the conversion to int drops the fractional part. -/
theorem Quorum_is_floor (r : Extractor) :
    Quorum r = ⌊(0.75 : ℚ) * ((size r : ℕ) : ℚ)⌋₊ := by
  have h : (0.75 : ℚ) * ((size r : ℕ) : ℚ) = ((3 * size r : ℕ) : ℚ) / ((4 : ℕ) : ℚ) := by
    push_cast
    ring
  rw [h, Nat.floor_div_eq_div]
  rfl

/-- C5, refuted as stated: SendSetAgreement is invoked in a run whose first step timed
out (empty outcome) and whose second step reached quorum on hash1, and in a run whose first
step ended on hash1 and whose second step ended on hash2. -/
theorem BlockReduction_agreement_counterexample :
    (∃ c1 l1 r1, firstStep sampleEnv (sampleCtx hash1 [])
        [.timer, voteMsg keyC hash1, voteMsg keyD hash1] = .done c1 l1 r1 ∧
      c1.BlockHash = none ∧
      (BlockReduction sampleEnv (sampleCtx hash1 [])
          [.timer, voteMsg keyC hash1, voteMsg keyD hash1]).effects
        = [.setAgreement hash1 [sampleVote hash1 2, sampleVote hash1 2]]) ∧
    (∃ c1 l1 r1, firstStep sampleEnv (sampleCtx hash1 [])
        [voteMsg keyA hash1, voteMsg keyB hash1, voteMsg keyC hash2, voteMsg keyD hash2]
          = .done c1 l1 r1 ∧
      c1.BlockHash = hash1 ∧
      (BlockReduction sampleEnv (sampleCtx hash1 [])
          [voteMsg keyA hash1, voteMsg keyB hash1, voteMsg keyC hash2, voteMsg keyD hash2]).effects
        = [.setAgreement hash2
            [sampleVote hash1 1, sampleVote hash2 2, sampleVote hash2 2]]) :=
  ⟨⟨_, _, _, rfl, by decide, by decide⟩, ⟨_, _, _, rfl, by decide, by decide⟩⟩

/-- C5, amended: BlockReduction invokes SendSetAgreement exactly when both steps ran to
their end without error and the second step left a hash in ctx.BlockHash (it reached quorum)
that is not nil and not equal to the all-zero fallback; the call is made with that hash and
ctx.BlockVotes. The outcome of the first step is not compared with it. In particular no
agreement message is sent when the second step has the empty outcome. -/
theorem BlockReduction_agreement_iff_second_step (env : Env) (ctx : Context)
    (events : List Event) (h : Bytes) (vs : List Vote) :
    Effect.setAgreement h vs ∈ (BlockReduction env ctx events).effects ↔
      ∃ c1 l1 r1 c2 l2 r2, firstStep env ctx events = .done c1 l1 r1 ∧
        secondStep env c1 r1 = .done c2 l2 r2 ∧ c2.BlockHash = h ∧ c2.BlockVotes = vs ∧
        h ≠ none ∧ bytesEqual h fallback = false := by
  constructor
  · intro he
    rcases BlockReduction_effects env ctx events _ he with h1 | ⟨c1, l1, r1, _, h2⟩ | h3
    · exact (VoteEffect_ne_setAgreement _ h vs ((firstStep_spec env ctx events).1 _ h1)).elim
    · exact (VoteEffect_ne_setAgreement _ h vs ((secondStep_spec env c1 r1).1 _ h2)).elim
    · obtain ⟨c1, l1, r1, c2, l2, r2, e1, e2, hn, hf, heq⟩ := h3
      injection heq with ha hb
      subst ha; subst hb
      exact ⟨c1, l1, r1, c2, l2, r2, e1, e2, rfl, rfl, hn, hf⟩
  · rintro ⟨c1, l1, r1, c2, l2, r2, e1, e2, ha, hb, hn, hf⟩
    subst ha; subst hb
    unfold BlockReduction
    simp only [e1, e2, finish, hn, hf, if_false, Bool.false_eq_true, Result.effects]
    simp

set_option maxRecDepth 8000 in
/-- C6, refuted as stated. First run: with a vote limit of 2, the vote of A and then a vote
of B whose signature NewVote rejects bring the counter of hash2 to the limit, yet the call
returns the error of NewVote and ctx.BlockHash is still hash1. Second run: with a vote limit
of 250 and two signers of 200 votes each, 400 votes were counted for hash2, yet the call is
still collecting, its uint8 counter at 144, and ctx.BlockHash is still hash1. -/
theorem countVotesReduction_limit_reached_counterexample :
    (∃ s, countVotesReduction strictEnv (sampleCtx hash1 [keyA, keyB]) [voteMsg keyA hash2]
        = .blocked s ∧
      countedBy strictEnv s (.msg (shortSigMsg keyB hash2))
        = some ⟨hexEncodeToString keyB, hexEncodeToString hash2, 1⟩ ∧
      s.voteLimit ≤ (countsGet s.counts (hexEncodeToString hash2) + 1) % 256) ∧
    countVotesReduction strictEnv (sampleCtx hash1 [keyA, keyB])
        [voteMsg keyA hash2, .msg (shortSigMsg keyB hash2)]
      = .returned
          { sampleCtx hash1 [keyA, keyB] with BlockVotes := [sampleVote hash2 1] }
          (some 9) [] ∧
    bytesEqual hash1 hash2 = false ∧
    (∃ s, countVotesReduction heavyEnv (sampleCtx hash1 (List.replicate 250 keyC))
        [voteMsg keyA hash2, voteMsg keyB hash2] = .blocked s ∧
      s.voteLimit = 250 ∧ s.ctx.BlockHash = hash1 ∧
      countsGet s.counts (hexEncodeToString hash2) = 144 ∧
      weightFor (countedVotes heavyEnv (initLoop (sampleCtx hash1 (List.replicate 250 keyC)))
        [voteMsg keyA hash2, voteMsg keyB hash2]) (hexEncodeToString hash2) = 400) :=
  ⟨⟨_, rfl, by decide, by decide⟩, by decide, by decide,
   ⟨_, rfl, by decide, by decide, by decide, by decide⟩⟩

/-- C6, amended: when countVotesReduction is collecting and a counted vote, for which
NewVote returns no error, brings the uint8 counter of its hash h (the sum of the votes
counted for h, modulo 256) to the vote limit, the function returns without error with
ctx.BlockHash = h, and the context it returns (ctx.BlockHash and ctx.BlockVotes included) is
the same whatever messages follow: they are left unread. -/
theorem countVotesReduction_quorum_monotone (env : Env) (ctx : Context)
    (events : List Event) (s : LoopState) (m : MsgConsensus) (c : Counted)
    (hrun : countVotesReduction env ctx events = .blocked s)
    (hc : countedBy env s (.msg m) = some c)
    (hv : env.NewVoteCheck m.Payload.BlockHash m.Payload.PubKeyBLS m.Payload.SigBLS s.ctx.Step
      = none)
    (hlimit : s.voteLimit ≤ (countsGet s.counts c.hash + c.weight) % 256) :
    ∃ ctx1, ctx1.BlockHash = m.Payload.BlockHash ∧
      ∀ more, countVotesReduction env ctx (events ++ .msg m :: more)
        = .returned ctx1 none more := by
  obtain ⟨_, _, _, hhigh⟩ := loopBody_counted env s m c hc hv
  obtain ⟨vs, _, hb⟩ := hhigh hlimit
  refine ⟨{ s.ctx with
             BlockHash := m.Payload.BlockHash,
             BlockVotes := vs ++ [⟨m.Payload.BlockHash, m.Payload.PubKeyBLS, m.Payload.SigBLS,
               s.ctx.Step⟩] }, rfl, ?_⟩
  intro more
  unfold countVotesReduction at hrun ⊢
  rw [runLoop_append, hrun]
  simp only [runLoop, hb]

/-- C6 amended, on a run: after the vote of A, the vote of B brings hash2 to the vote limit 2. -/
theorem countVotesReduction_quorum_monotone_witness :
    ∃ ctx1, ctx1.BlockHash = (reductionMsg keyB hash2).Payload.BlockHash ∧
      ∀ more, countVotesReduction sampleEnv (sampleCtx hash1 [keyA, keyB])
        ([voteMsg keyA hash2] ++ .msg (reductionMsg keyB hash2) :: more)
          = .returned ctx1 none more :=
  countVotesReduction_quorum_monotone sampleEnv (sampleCtx hash1 [keyA, keyB])
    [voteMsg keyA hash2] _ (reductionMsg keyB hash2)
    ⟨hexEncodeToString keyB, hexEncodeToString hash2, 1⟩ rfl (by decide) rfl (by decide)

/-- C7: every reduction vote that a run of BlockReduction signs or gossips is over a
non-nil hash; when ctx.BlockHash is nil on entry the vote of the first step is over the
fallback hash of 32 zero bytes, and when the first step left ctx.BlockHash nil (its timer
fired without a quorum) the vote of the second step is over the fallback hash. -/
theorem BlockReduction_votes_over_non_nil_hash (env : Env) (ctx : Context)
    (events : List Event) :
    (∀ h, castOver h (BlockReduction env ctx events).effects → h ≠ none) ∧
    (ctx.BlockHash = none →
      ∀ h, castOver h (firstStep env ctx events).effects → h = some (List.replicate 32 0)) ∧
    (∀ c1 l1 r1, firstStep env ctx events = .done c1 l1 r1 → c1.BlockHash = none →
      ∀ h, castOver h (secondStep env c1 r1).effects → h = some (List.replicate 32 0)) := by
  refine ⟨?_, ?_, ?_⟩
  · intro h hc
    have key : ∀ e ∈ (BlockReduction env ctx events).effects, ∀ g,
        (e = .sign g ∨ ∃ msg, e = .gossip g msg) → g ≠ none := by
      intro e he g hg
      rcases BlockReduction_effects env ctx events e he with h1 | ⟨c1, l1, r1, _, h2⟩ | h3
      · have hv := (firstStep_spec env ctx events).1 e h1
        have : g = (if ctx.BlockHash = none then fallback else ctx.BlockHash) := by
          rcases hg with hg | ⟨msg, hg⟩ <;> subst hg
          · exact castOver_of_voteEffects _ g [.sign g] (by simpa using hv) (Or.inl (by simp))
          · exact castOver_of_voteEffects _ g [.gossip g msg] (by simpa using hv)
              (Or.inr ⟨msg, by simp⟩)
        rw [this]; exact fallback_or_self_ne_none _
      · have hv := (secondStep_spec env c1 r1).1 e h2
        have : g = (if c1.BlockHash = none then fallback else c1.BlockHash) := by
          rcases hg with hg | ⟨msg, hg⟩ <;> subst hg
          · exact castOver_of_voteEffects _ g [.sign g] (by simpa using hv) (Or.inl (by simp))
          · exact castOver_of_voteEffects _ g [.gossip g msg] (by simpa using hv)
              (Or.inr ⟨msg, by simp⟩)
        rw [this]; exact fallback_or_self_ne_none _
      · obtain ⟨c1, l1, r1, c2, l2, r2, _, _, _, _, h3⟩ := h3
        rcases hg with hg | ⟨msg, hg⟩ <;> rw [hg] at h3 <;> cases h3
    rcases hc with hs | ⟨msg, hg⟩
    · exact key _ hs h (Or.inl rfl)
    · exact key _ hg h (Or.inr ⟨msg, rfl⟩)
  · intro hn h hc
    have := castOver_of_voteEffects _ h _ (firstStep_spec env ctx events).1 hc
    simpa [hn, fallback] using this
  · intro c1 l1 r1 _ hn h hc
    have := castOver_of_voteEffects _ h _ (secondStep_spec env c1 r1).1 hc
    simpa [hn, fallback] using this

/-- C8: a Reduction message that ProcessMsg rejects with an error whose priority is not
High, or to which it grants zero votes, leaves the whole loop state (counts, voters and
ctx.BlockVotes with it) as it was and the loop goes on; a call that was collecting is still
collecting, in the same state, after such a message. -/
theorem countVotesReduction_ignores_rejected (env : Env) (s : LoopState) (m : MsgConsensus)
    (hrej : (∃ e, env.ProcessMsg s.ctx m = .error e ∧ e.Priority ≠ Priority.High) ∨
      (∃ v, env.ProcessMsg s.ctx m = .ok v ∧ v % 256 = 0)) :
    loopBody env s (.msg m) = .next s ∧
    ∀ ctx events, countVotesReduction env ctx events = .blocked s →
      countVotesReduction env ctx (events ++ [.msg m]) = .blocked s := by
  have hb : loopBody env s (.msg m) = .next s := by
    simp only [loopBody]
    split
    · rfl
    · rcases hrej with ⟨e, he, hp⟩ | ⟨v, hv, hz⟩
      · simp [he, hp]
      · simp [hv, hz]
  refine ⟨hb, ?_⟩
  intro ctx events hrun
  unfold countVotesReduction at hrun ⊢
  rw [runLoop_append, hrun]
  simp only [runLoop, hb]

/-- C8, on a run: D is not in the committee A, B, so ProcessMsg grants it zero votes and
its message changes nothing. -/
theorem countVotesReduction_ignores_rejected_witness :
    loopBody sampleEnv (initLoop (sampleCtx hash1 [keyA, keyB]))
        (.msg (reductionMsg keyD hash2))
      = .next (initLoop (sampleCtx hash1 [keyA, keyB])) :=
  (countVotesReduction_ignores_rejected sampleEnv (initLoop (sampleCtx hash1 [keyA, keyB]))
    (reductionMsg keyD hash2) (Or.inr ⟨0, rfl, rfl⟩)).1

/-- C9: when BlockReduction returns nil, ctx.Step is its value on entry plus 2 as a uint8,
whatever the two steps produced; and when both steps produced the empty outcome (a nil hash
after the timer fired, or a quorum on the fallback hash) ctx.BlockHash is nil on return. -/
theorem BlockReduction_advances_two_steps (env : Env) (ctx c : Context)
    (events rest : List Event) (log : List Effect)
    (hret : BlockReduction env ctx events = .returned c none log rest) :
    c.Step = (ctx.Step + 2) % 256 ∧
    ∀ c1 l1 r1 c2 l2 r2, firstStep env ctx events = .done c1 l1 r1 →
      secondStep env c1 r1 = .done c2 l2 r2 →
      emptyOutcome c1.BlockHash → emptyOutcome c2.BlockHash → c.BlockHash = none := by
  unfold BlockReduction at hret
  cases h1 : firstStep env ctx events with
  | blocked l => simp [h1] at hret
  | panicked l => simp [h1] at hret
  | failed c0 err l r => simp [h1] at hret
  | done c1 l1 r1 =>
    simp only [h1] at hret
    have hs1 := (firstStep_spec env ctx events).2 c1 l1 r1 h1
    cases h2 : secondStep env c1 r1 with
    | blocked l => simp [h2] at hret
    | panicked l => simp [h2] at hret
    | failed c0 err l r => simp [h2] at hret
    | done c2 l2 r2 =>
      simp only [h2] at hret
      have hs2 := (secondStep_spec env c1 r1).2 c2 l2 r2 h2
      unfold finish at hret
      by_cases hn : c2.BlockHash = none
      · simp only [hn, if_true, Result.returned.injEq] at hret
        obtain ⟨hc, _⟩ := hret
        subst hc
        refine ⟨by rw [hs2, hs1]; omega, ?_⟩
        intro d1 m1 q1 d2 m2 q2 e1 e2 _ _
        exact hn
      · simp only [hn, if_false] at hret
        by_cases hf : bytesEqual c2.BlockHash fallback = true
        · simp only [hf, if_true, Result.returned.injEq] at hret
          obtain ⟨hc, _⟩ := hret
          subst hc
          refine ⟨by dsimp only; rw [hs2, hs1]; omega, ?_⟩
          intro d1 m1 q1 d2 m2 q2 e1 e2 _ _
          rfl
        · simp only [hf, Bool.false_eq_true, if_false, Result.returned.injEq] at hret
          obtain ⟨hc, _⟩ := hret
          subst hc
          refine ⟨by rw [hs2, hs1]; omega, ?_⟩
          intro d1 m1 q1 d2 m2 q2 e1 e2 _ hemp
          injection e1 with e1a e1b e1c
          subst e1a; subst e1c
          rw [h2] at e2
          injection e2 with e2a
          subst e2a
          rcases hemp with hx | hx
          · exact absurd hx hn
          · exact absurd hx hf

/-- C9, on a run: no candidate on entry and both timers fire; BlockReduction returns nil
at step 3 with a nil block hash. -/
theorem BlockReduction_advances_two_steps_witness :
    BlockReduction sampleEnv (sampleCtx none []) [.timer, .timer]
      = .returned { Round := 1, Step := 3, BlockHash := none, BlockVotes := [],
                    CurrentCommittee := [keyC, keyD], EdPubKey := keyLocal } none [] [] ∧
    (3 : Nat) = ((sampleCtx none []).Step + 2) % 256 :=
  ⟨by decide,
   (BlockReduction_advances_two_steps sampleEnv (sampleCtx none [])
      { Round := 1, Step := 3, BlockHash := none, BlockVotes := [],
        CurrentCommittee := [keyC, keyD], EdPubKey := keyLocal }
      [.timer, .timer] [] [] (by decide)).1⟩

/-- C10: the committee size is min(number of provisioners, 50): it never exceeds 50, it is
the provisioner count when that count is at most 50, and it is the size that IsMember and
FilterAbsentees pass to UpsertCommitteeCache and that Quorum takes three quarters of. -/
theorem reductionCommittee_size_is_min (r : Extractor) :
    size r = min r.Provisioners.length 50 ∧ size r ≤ 50 ∧
    (r.Provisioners.length ≤ 50 → size r = r.Provisioners.length) ∧
    (∀ pubKeyBLS round step, IsMember r pubKeyBLS round step =
      VotingCommittee.IsMember
        (r.UpsertCommitteeCache round step (min r.Provisioners.length 50)) pubKeyBLS) ∧
    Quorum r = (3 * min r.Provisioners.length 50) / 4 ∧
    (∀ evs round step, FilterAbsentees r evs round step =
      evs.foldl (fun vc ev => VotingCommittee.Remove vc ev.Sender)
        (r.UpsertCommitteeCache round step (min r.Provisioners.length 50))) := by
  have hs : size r = min r.Provisioners.length 50 := by
    unfold size committeeSize
    split <;> omega
  refine ⟨hs, by omega, fun h => by omega, ?_, ?_, ?_⟩
  · intro pk round step
    unfold IsMember
    rw [hs]
  · unfold Quorum
    rw [hs]
  · intro evs round step
    unfold FilterAbsentees
    rw [hs]

/-! ### Auxiliary facts for the committee filter, the round updates and the listener map -/

/-- Removing the senders one after the other is one filter. -/
theorem foldl_Remove (evs : List WireEvent) :
    ∀ vc : VotingCommittee,
      evs.foldl (fun vc ev => VotingCommittee.Remove vc ev.Sender) vc
        = vc.filter fun k => !(evs.any fun ev => bytesEqual k ev.Sender) := by
  induction evs with
  | nil => intro vc; simp
  | cons ev evs ih =>
    intro vc
    rw [List.foldl_cons, ih]
    simp only [VotingCommittee.Remove, List.filter_filter, List.any_cons]
    congr 1
    funext k
    cases bytesEqual k ev.Sender <;> simp

/-- Reading back the eight little-endian bytes of a `uint64`. -/
theorem uint64LE_putUint64LE (v : Nat) (hv : v < 2 ^ 64) :
    uint64LE (putUint64LE v) = some v := by
  unfold putUint64LE uint64LE
  simp only [Option.some.injEq]
  omega

/-- Reading the array that was just written. -/
theorem heap_set_same (heap : List (List idListener)) (a : Nat) (A : List idListener)
    (ha : a < heap.length) : ((heap.set a A).get? a).getD [] = A := by
  simp [List.get?_eq_getElem?, List.getElem?_set, ha]

/-- Writing an array leaves the other arrays as they were. -/
theorem heap_set_other (heap : List (List idListener)) (a b : Nat) (A : List idListener)
    (hb : b ≠ a) : ((heap.set a A).get? b).getD [] = (heap.get? b).getD [] := by
  simp [List.get?_eq_getElem?, List.getElem?_set, Ne.symm hb]

/-- Allocating an array leaves the arrays allocated before as they were. -/
theorem heap_push_old (heap : List (List idListener)) (b : Nat) (A : List idListener)
    (hb : b < heap.length) : ((heap ++ [A]).get? b).getD [] = (heap.get? b).getD [] := by
  simp [List.get?_eq_getElem?, List.getElem?_append_left hb]

/-- Reading the array that was just allocated. -/
theorem heap_push_new (heap : List (List idListener)) (A : List idListener) :
    ((heap ++ [A]).get? heap.length).getD [] = A := by
  simp [List.get?_eq_getElem?]

/-- The search of `Delete` fails exactly when no listener has the id. -/
theorem deleteScan_none (id : Nat) (l : List idListener) :
    ∀ i, deleteScan id l i = none ↔ ∀ x ∈ l, x.id ≠ id := by
  induction l with
  | nil => intro i; simp [deleteScan]
  | cons x l ih =>
    intro i
    simp only [deleteScan, List.mem_cons, forall_eq_or_imp]
    by_cases hx : x.id = id
    · simp [hx]
    · simp [hx, ih]

/-- The search of `Delete` stops at the first listener with the id. -/
theorem deleteScan_some (id : Nat) (l : List idListener) :
    ∀ i j x, deleteScan id l i = some (j, x) →
      ∃ pre post, l = pre ++ x :: post ∧ (∀ y ∈ pre, y.id ≠ id) ∧ x.id = id ∧
        j = i + pre.length := by
  induction l with
  | nil => intro i j x h; simp [deleteScan] at h
  | cons y l ih =>
    intro i j x h
    simp only [deleteScan] at h
    by_cases hy : y.id = id
    · simp only [hy, if_true, Option.some.injEq, Prod.mk.injEq] at h
      obtain ⟨h1, h2⟩ := h
      subst h1; subst h2
      exact ⟨[], l, rfl, by simp, hy, by simp⟩
    · simp only [hy, if_false] at h
      obtain ⟨pre, post, hl, hpre, hx, hj⟩ := ih (i + 1) j x h
      refine ⟨y :: pre, post, by simp [hl], ?_, hx, by simp [hj]; omega⟩
      intro z hz
      rcases List.mem_cons.1 hz with hz | hz
      · subst hz; exact hy
      · exact hpre z hz

/-- Removing, and finding, the first listener with the id. -/
theorem eraseP_first (id : Nat) (pre post : List idListener) (x : idListener)
    (hpre : ∀ y ∈ pre, y.id ≠ id) (hx : x.id = id) :
    (pre ++ x :: post).eraseP (fun l => l.id == id) = pre ++ post ∧
    (pre ++ x :: post).find? (fun l => l.id == id) = some x := by
  induction pre with
  | nil => simp [hx]
  | cons y pre ih =>
    have hy : y.id ≠ id := hpre y (by simp)
    have := ih (fun z hz => hpre z (by simp [hz]))
    simp [List.eraseP_cons, List.find?_cons, hy, this]

/-- The deletion inside the backing array: the slice, one shorter, shows the elements
before and after the deleted one, and the array keeps its length. -/
theorem inplace_delete (a pre post : List idListener) (x : idListener) (n : Nat)
    (hv : a.take n = pre ++ x :: post) (hn : n ≤ a.length) :
    (a.take pre.length ++ (a.drop (pre.length + 1)).take (n - (pre.length + 1))
        ++ a.drop (n - 1)).take (n - 1) = pre ++ post ∧
    (a.take pre.length ++ (a.drop (pre.length + 1)).take (n - (pre.length + 1))
        ++ a.drop (n - 1)).length = a.length := by
  have hlen : n = pre.length + 1 + post.length := by
    have := congrArg List.length hv
    simp [List.length_take, Nat.min_eq_left hn] at this
    omega
  have h1 : a.take pre.length = pre := by
    have : (a.take n).take pre.length = pre := by rw [hv]; simp
    rwa [List.take_take, Nat.min_eq_left (by omega)] at this
  have h2 : (a.drop (pre.length + 1)).take (n - (pre.length + 1)) = post := by
    have : (a.take n).drop (pre.length + 1) = post := by
      rw [hv]; simp
    rw [← this, List.drop_take]
  rw [h1, h2]
  constructor
  · rw [List.append_assoc, List.take_append_eq_append_take, List.take_append_eq_append_take]
    have e1 : n - 1 - pre.length = post.length := by omega
    have e2 : pre.length ≤ n - 1 := by omega
    rw [List.take_of_length_le e2, e1, List.take_of_length_le (le_refl _)]
    simp
  · simp [List.length_append, List.length_drop]
    omega


/-- Writing the slot after the last element of a slice appends to the slice. -/
theorem take_set_succ (A : List idListener) (n : Nat) (x : idListener)
    (h : n < A.length) : (A.set n x).take (n + 1) = A.take n ++ [x] := by
  rw [List.take_succ, List.set_take, List.set_eq_of_length_le (by simp)]
  simp [List.getElem?_set, h]

/-- The empty map is well formed. -/
theorem newListenerMap_WF : newListenerMap.WF := by
  constructor
  · intro k s h; simp [newListenerMap] at h
  · intro k1 k2 s1 s2 h; simp [newListenerMap] at h

/-- What `Store` does to a well-formed map. -/
theorem listenerMap_Store_aux (grow : Nat → Nat) (h : listenerMap) (key : Topic)
    (value id : Nat) (hwf : h.WF) :
    (h.Store grow key value id).2 = id ∧
    (h.Store grow key value id).1.view key = h.view key ++ [⟨id, value⟩] ∧
    (∀ k, k ≠ key → (h.Store grow key value id).1.view k = h.view k) ∧
    (h.Store grow key value id).1.WF := by
  obtain ⟨hw1, hw2⟩ := hwf
  refine ⟨rfl, ?_⟩
  simp only [listenerMap.Store, listenerMap.view, listenerMap.Load, listenerMap.WF]
  cases hk : h.listeners key with
  | none =>
    simp only [goAppend]
    refine ⟨?_, ?_, ?_, ?_⟩
    · simp [sliceView, Function.update_same, heap_push_new]
    · intro k hne
      rw [Function.update_noteq hne]
      cases hs : h.listeners k with
      | none => rfl
      | some s =>
        simp only [sliceView]
        rw [heap_push_old _ _ _ (hw1 k s hs).1]
    · intro k s hs
      by_cases hkk : k = key
      · subst hkk
        rw [Function.update_same] at hs
        injection hs with hs
        subst hs
        simp [heap_push_new]
      · rw [Function.update_noteq hkk] at hs
        obtain ⟨g1, g2, g3⟩ := hw1 k s hs
        refine ⟨by simp; omega, ?_, g3⟩
        rw [heap_push_old _ _ _ g1]; exact g2
    · intro k1 k2 s1 s2 h1 h2 he
      by_cases c1 : k1 = key <;> by_cases c2 : k2 = key
      · rw [c1, c2]
      · subst c1
        rw [Function.update_same] at h1
        rw [Function.update_noteq c2] at h2
        injection h1 with h1; subst h1
        have := (hw1 k2 s2 h2).1
        dsimp only at he; omega
      · subst c2
        rw [Function.update_same] at h2
        rw [Function.update_noteq c1] at h1
        injection h2 with h2; subst h2
        have := (hw1 k1 s1 h1).1
        dsimp only at he; omega
      · rw [Function.update_noteq c1] at h1
        rw [Function.update_noteq c2] at h2
        exact hw2 k1 k2 s1 s2 h1 h2 he
  | some sl =>
    obtain ⟨b1, b2, b3⟩ := hw1 key sl hk
    simp only [goAppend]
    by_cases hroom : sl.len < sl.cap
    · simp only [hroom, if_true]
      refine ⟨?_, ?_, ?_, ?_⟩
      · simp only [sliceView, Function.update_same]
        rw [heap_set_same _ _ _ b1]
        have hl : sl.len < ((h.heap.get? sl.arr).getD []).length := by rw [b2]; exact hroom
        rw [take_set_succ _ _ _ hl]
      · intro k hne
        rw [Function.update_noteq hne]
        cases hs : h.listeners k with
        | none => rfl
        | some s =>
          simp only [sliceView]
          have hne2 : s.arr ≠ sl.arr := fun he => hne (hw2 k key s sl hs hk he)
          rw [heap_set_other _ _ _ _ hne2]
      · intro k s hs
        by_cases hkk : k = key
        · subst hkk
          rw [Function.update_same] at hs
          injection hs with hs
          subst hs
          refine ⟨by simpa using b1, ?_, by dsimp only; omega⟩
          rw [heap_set_same _ _ _ b1]
          simpa using b2
        · rw [Function.update_noteq hkk] at hs
          obtain ⟨g1, g2, g3⟩ := hw1 k s hs
          have hne2 : s.arr ≠ sl.arr := fun he => hkk (hw2 k key s sl hs hk he)
          refine ⟨by simpa using g1, ?_, g3⟩
          rw [heap_set_other _ _ _ _ hne2]; exact g2
      · intro k1 k2 s1 s2 h1 h2 he
        by_cases c1 : k1 = key <;> by_cases c2 : k2 = key
        · rw [c1, c2]
        · subst c1
          rw [Function.update_same] at h1
          rw [Function.update_noteq c2] at h2
          injection h1 with h1; subst h1
          exact (hw2 _ _ _ _ hk h2 he)
        · subst c2
          rw [Function.update_same] at h2
          rw [Function.update_noteq c1] at h1
          injection h2 with h2; subst h2
          exact (hw2 _ _ _ _ h1 hk he)
        · rw [Function.update_noteq c1] at h1
          rw [Function.update_noteq c2] at h2
          exact hw2 k1 k2 s1 s2 h1 h2 he
    · simp only [hroom, if_false]
      refine ⟨?_, ?_, ?_, ?_⟩
      · simp only [sliceView, Function.update_same]
        rw [heap_push_new]
        rw [List.append_assoc, List.take_append_eq_append_take]
        have hvl : (List.take sl.len ((h.heap.get? sl.arr).getD [])).length = sl.len := by
          rw [List.length_take, b2]; omega
        rw [hvl, List.take_of_length_le (by rw [hvl]; omega)]
        simp
      · intro k hne
        rw [Function.update_noteq hne]
        cases hs : h.listeners k with
        | none => rfl
        | some s =>
          simp only [sliceView]
          rw [heap_push_old _ _ _ (hw1 k s hs).1]
      · intro k s hs
        by_cases hkk : k = key
        · subst hkk
          rw [Function.update_same] at hs
          injection hs with hs
          subst hs
          refine ⟨by simp, ?_, by dsimp only; omega⟩
          rw [heap_push_new]
          have hvl : (List.take sl.len ((h.heap.get? sl.arr).getD [])).length = sl.len := by
            rw [List.length_take, b2]; omega
          simp only [sliceView, List.length_append, hvl, List.length_replicate,
            List.length_singleton]
          omega
        · rw [Function.update_noteq hkk] at hs
          obtain ⟨g1, g2, g3⟩ := hw1 k s hs
          refine ⟨by simp; omega, ?_, g3⟩
          rw [heap_push_old _ _ _ g1]; exact g2
      · intro k1 k2 s1 s2 h1 h2 he
        by_cases c1 : k1 = key <;> by_cases c2 : k2 = key
        · rw [c1, c2]
        · subst c1
          rw [Function.update_same] at h1
          rw [Function.update_noteq c2] at h2
          injection h1 with h1; subst h1
          have := (hw1 k2 s2 h2).1
          dsimp only at he; omega
        · subst c2
          rw [Function.update_same] at h2
          rw [Function.update_noteq c1] at h1
          injection h2 with h2; subst h2
          have := (hw1 k1 s1 h1).1
          dsimp only at he; omega
        · rw [Function.update_noteq c1] at h1
          rw [Function.update_noteq c2] at h2
          exact hw2 k1 k2 s1 s2 h1 h2 he


/-- What `Delete` does to a well-formed map: it panics exactly when the first listener with
the id is the nil interface, and otherwise removes that listener and closes it. -/
theorem listenerMap_Delete_aux (h : listenerMap) (key : Topic) (id : Nat) (hwf : h.WF) :
    (h.Delete key id = none ↔
      ∃ l, (h.view key).find? (fun l => l.id == id) = some l ∧ l.Listener = 0) ∧
    (∀ r, h.Delete key id = some r →
      (r.1 = true ↔ ∃ l ∈ h.view key, l.id = id) ∧
      r.2.1.view key = (h.view key).eraseP (fun l => l.id == id) ∧
      r.2.2 = (((h.view key).find? (fun l => l.id == id)).toList.map idListener.Listener) ∧
      (r.1 = false → r.2.1 = h ∧ r.2.2 = []) ∧
      (∀ k, k ≠ key → r.2.1.view k = h.view k) ∧
      r.2.1.WF) := by
  obtain ⟨hw1, hw2⟩ := hwf
  simp only [listenerMap.Delete, listenerMap.view, listenerMap.Load, listenerMap.WF]
  cases hscan : deleteScan id (sliceView h.heap (h.listeners key)) 0 with
  | none =>
    have hnone := (deleteScan_none id _ 0).1 hscan
    have hfind : (sliceView h.heap (h.listeners key)).find? (fun l => l.id == id) = none := by
      rw [List.find?_eq_none]
      intro a ha
      simpa using hnone a ha
    dsimp only
    refine ⟨?_, ?_⟩
    · rw [hfind]
      constructor
      · intro hf; cases hf
      · rintro ⟨l, hl, _⟩; cases hl
    · intro r hr
      injection hr with hr
      subst hr
      refine ⟨?_, ?_, ?_, ?_, ?_, ⟨hw1, hw2⟩⟩
      · constructor
        · intro hf; cases hf
        · rintro ⟨l, hl, hid⟩; exact absurd hid (hnone l hl)
      · rw [List.eraseP_of_forall_not]
        intro a ha
        simpa using hnone a ha
      · rw [hfind]; rfl
      · intro _; exact ⟨rfl, rfl⟩
      · intro k _; rfl
  | some p =>
    obtain ⟨i, x⟩ := p
    obtain ⟨pre, post, hv, hpre, hx, hi⟩ := deleteScan_some id _ 0 i x hscan
    simp only [Nat.zero_add] at hi
    obtain ⟨e1, e2⟩ := eraseP_first id pre post x hpre hx
    have hfind : (sliceView h.heap (h.listeners key)).find? (fun l => l.id == id) = some x := by
      rw [hv, e2]
    dsimp only
    by_cases hnil : x.Listener = 0
    · rw [if_pos hnil, hfind]
      refine ⟨?_, ?_⟩
      · constructor
        · intro _; exact ⟨x, rfl, hnil⟩
        · intro _; rfl
      · intro r hr; cases hr
    · rw [if_neg hnil, hfind]
      cases hk : h.listeners key with
      | none => rw [hk] at hv; simp [sliceView] at hv
      | some sl =>
        obtain ⟨b1, b2, b3⟩ := hw1 key sl hk
        rw [hk] at hv
        simp only [sliceView] at hv
        obtain ⟨d1, d2⟩ := inplace_delete _ pre post x sl.len hv (by rw [b2]; exact b3)
        have hlen : sl.len = pre.length + 1 + post.length := by
          have := congrArg List.length hv
          rw [List.length_take, b2, Nat.min_eq_left b3] at this
          simp only [List.length_append, List.length_cons] at this
          omega
        dsimp only
        subst hi
        refine ⟨?_, ?_⟩
        · constructor
          · intro hf; cases hf
          · rintro ⟨l, hl, hl0⟩
            injection hl with hl
            subst hl
            exact absurd hl0 hnil
        · intro r hr
          injection hr with hr
          subst hr
          dsimp only
          refine ⟨?_, ?_, ?_, ?_, ?_, ?_, ?_⟩
          · simp only [true_iff]
            refine ⟨x, ?_, hx⟩
            show x ∈ List.take sl.len ((h.heap.get? sl.arr).getD [])
            rw [hv]; simp
          · simp only [sliceView, Function.update_same]
            rw [heap_set_same _ _ _ b1, d1, hv, e1]
          · rfl
          · intro hf; cases hf
          · intro k hne
            rw [Function.update_noteq hne]
            cases hs : h.listeners k with
            | none => rfl
            | some s =>
              simp only [sliceView]
              have hne2 : s.arr ≠ sl.arr := fun he => hne (hw2 k key s sl hs hk he)
              rw [heap_set_other _ _ _ _ hne2]
          · intro k s hs
            by_cases hkk : k = key
            · subst hkk
              rw [Function.update_same] at hs
              injection hs with hs
              subst hs
              refine ⟨by simpa using b1, ?_, by dsimp only; omega⟩
              rw [heap_set_same _ _ _ b1, d2]
              exact b2
            · rw [Function.update_noteq hkk] at hs
              obtain ⟨g1, g2, g3⟩ := hw1 k s hs
              have hne2 : s.arr ≠ sl.arr := fun he => hkk (hw2 k key s sl hs hk he)
              refine ⟨by simpa using g1, ?_, g3⟩
              rw [heap_set_other _ _ _ _ hne2]; exact g2
          · intro k1 k2 s1 s2 h1 h2 he
            by_cases c1 : k1 = key <;> by_cases c2 : k2 = key
            · rw [c1, c2]
            · subst c1
              rw [Function.update_same] at h1
              rw [Function.update_noteq c2] at h2
              injection h1 with h1; subst h1
              exact (hw2 _ _ _ _ hk h2 he)
            · subst c2
              rw [Function.update_same] at h2
              rw [Function.update_noteq c1] at h1
              injection h2 with h2; subst h2
              exact (hw2 _ _ _ _ h1 hk he)
            · rw [Function.update_noteq c1] at h1
              rw [Function.update_noteq c2] at h2
              exact hw2 k1 k2 s1 s2 h1 h2 he

/-! ### The claims on the committee filter, the bids, the listener map, the round updates
and the mock loader -/

/-- C11: for every list of events and every (round, step), FilterAbsentees returns the
committee cached for (round, step) without the members whose key is the Sender of one of the
events: a key is in the result exactly when it is in the committee and no event was sent by
it, and the members kept are in the order of the committee. -/
theorem FilterAbsentees_exactly_absentees (r : Extractor) (evs : List WireEvent)
    (round step : Nat) :
    FilterAbsentees r evs round step
      = (r.UpsertCommitteeCache round step (size r)).filter
          (fun k => !(evs.any fun ev => bytesEqual k ev.Sender)) ∧
    (∀ k, k ∈ FilterAbsentees r evs round step ↔
      k ∈ r.UpsertCommitteeCache round step (size r) ∧
        ∀ ev ∈ evs, bytesEqual k ev.Sender = false) ∧
    (FilterAbsentees r evs round step).Sublist (r.UpsertCommitteeCache round step (size r)) := by
  have h := foldl_Remove evs (r.UpsertCommitteeCache round step (size r))
  unfold FilterAbsentees
  rw [h]
  refine ⟨rfl, ?_, List.filter_sublist _⟩
  intro k
  simp [List.mem_filter]

/-- C12: for every bid list getNumBids is min(len(bidList), 10), so never more than 10 and
never more than the bids available; getBidListSubset asks Subset for that many bids, and a
Subset that returns as many bids as it is asked for yields a subset of that size. -/
theorem getNumBids_is_min (g : generator) :
    getNumBids g = min g.bidList.length 10 ∧ getNumBids g ≤ 10 ∧
    getNumBids g ≤ g.bidList.length ∧
    (∀ Subset, getBidListSubset Subset g = Subset g.bidList (min g.bidList.length 10)) ∧
    (∀ Subset : List Bid → Nat → List Bid,
      (∀ l n, n ≤ l.length → (Subset l n).length = n) →
      (getBidListSubset Subset g).length = min g.bidList.length 10) := by
  have h : getNumBids g = min g.bidList.length 10 := by
    unfold getNumBids
    dsimp only
    split <;> omega
  refine ⟨h, by omega, by omega, ?_, ?_⟩
  · intro Subset
    unfold getBidListSubset
    rw [h]
  · intro Subset hS
    unfold getBidListSubset
    dsimp only
    rw [hS _ _ (by omega), h]

/-- C13, refuted as stated: Store accepts the nil Listener; with a nil Listener stored
under topic 7 with id 11, a listener with that id is stored under the key, yet Delete(7, 11)
does not return true: listener.Close() panics; so it does on a map that holds other
listeners after it. -/
theorem listenerMap_Delete_nil_listener_panics :
    (∃ l ∈ (newListenerMap.Store sampleGrow 7 0 11).1.view 7, l.id = 11) ∧
    (newListenerMap.Store sampleGrow 7 0 11).1.Delete 7 11 = none ∧
    (((newListenerMap.Store sampleGrow 7 0 11).1.Store sampleGrow 7 102 22).1.view 7
      = [⟨11, 0⟩, ⟨22, 102⟩]) ∧
    ((newListenerMap.Store sampleGrow 7 0 11).1.Store sampleGrow 7 102 22).1.Delete 7 11
      = none := by
  refine ⟨⟨⟨11, 0⟩, by decide, rfl⟩, by rfl, by decide, by rfl⟩

/-- C13, amended: on a map built by newListenerMap, Store and Delete (a well-formed map),
Delete(key, id) panics in listener.Close(), before the map is changed, exactly when the
first listener with that id under key is the nil interface. In every other case it returns:
true iff a listener with that id is stored under key; the list under key becomes the
previous list without its first entry of that id, the other entries keeping their order;
Close is called on exactly that listener; when the result is false the map is unchanged and
nothing is closed; the lists under the other keys are unchanged. -/
theorem listenerMap_Delete_removes_first (h : listenerMap) (key : Topic) (id : Nat)
    (hwf : h.WF) :
    (h.Delete key id = none ↔
      ∃ l, (h.view key).find? (fun l => l.id == id) = some l ∧ l.Listener = 0) ∧
    ((∀ l, (h.view key).find? (fun l => l.id == id) = some l → l.Listener ≠ 0) →
      ∃ r, h.Delete key id = some r ∧
        (r.1 = true ↔ ∃ l ∈ h.view key, l.id = id) ∧
        r.2.1.view key = (h.view key).eraseP (fun l => l.id == id) ∧
        r.2.2
          = (((h.view key).find? (fun l => l.id == id)).toList.map idListener.Listener) ∧
        (r.1 = false → r.2.1 = h ∧ r.2.2 = []) ∧
        (∀ k, k ≠ key → r.2.1.view k = h.view k)) := by
  obtain ⟨hp, hr⟩ := listenerMap_Delete_aux h key id hwf
  refine ⟨hp, ?_⟩
  intro hnn
  cases hd : h.Delete key id with
  | none =>
    obtain ⟨l, hl, hl0⟩ := hp.1 hd
    exact absurd hl0 (hnn l hl)
  | some r =>
    obtain ⟨h1, h2, h3, h4, h5, _⟩ := hr r hd
    exact ⟨r, rfl, h1, h2, h3, h4, h5⟩

/-- C13 amended, on a run: deleting id 22 from the three sample listeners, none of which
is nil. -/
theorem listenerMap_Delete_removes_first_witness :
    ∃ r, sampleListeners.Delete 7 22 = some r ∧
      (r.1 = true ↔ ∃ l ∈ sampleListeners.view 7, l.id = 22) ∧
      r.2.1.view 7 = (sampleListeners.view 7).eraseP (fun l => l.id == 22) ∧
      r.2.2 = (((sampleListeners.view 7).find? (fun l => l.id == 22)).toList.map
        idListener.Listener) ∧
      (r.1 = false → r.2.1 = sampleListeners ∧ r.2.2 = []) ∧
      (∀ k, k ≠ 7 → r.2.1.view k = sampleListeners.view k) :=
  (listenerMap_Delete_removes_first sampleListeners 7 22
    (listenerMap_Store_aux _ _ _ _ _ (listenerMap_Store_aux _ _ _ _ _
      (listenerMap_Store_aux _ _ _ _ _ newListenerMap_WF).2.2.2).2.2.2).2.2.2).2
    (by decide)

/-- The run of C13 in full: Delete(7, 22) returns true, leaves the listeners 11 and 33, and
closes the listener 102. -/
theorem listenerMap_Delete_sample :
    (sampleListeners.Delete 7 22).map (fun r => (r.1, r.2.1.view 7, r.2.2))
      = some (true, [⟨11, 101⟩, ⟨33, 103⟩], [102]) := by
  decide

/-- C14: a slice obtained from Load shares its backing array with the map. After Load has
returned the three sample listeners, Delete of the first one moves the others down inside
that array, and the loaded slice now shows 22, 33, 33; and after Delete of the last one, a
Store writes its entry into the freed slot, and the loaded slice shows 11, 22, 44. -/
theorem listenerMap_Load_shares_array :
    sliceView sampleListeners.heap (sampleListeners.Load 7)
      = [⟨11, 101⟩, ⟨22, 102⟩, ⟨33, 103⟩] ∧
    (sampleListeners.Delete 7 11).map
        (fun r => sliceView r.2.1.heap (sampleListeners.Load 7))
      = some [⟨22, 102⟩, ⟨33, 103⟩, ⟨33, 103⟩] ∧
    (sampleListeners.Delete 7 33).map
        (fun r => sliceView r.2.1.heap (sampleListeners.Load 7))
      = some [⟨11, 101⟩, ⟨22, 102⟩, ⟨33, 103⟩] ∧
    (sampleListeners.Delete 7 33).map
        (fun r => sliceView ((r.2.1).Store sampleGrow 7 104 44).1.heap (sampleListeners.Load 7))
      = some [⟨11, 101⟩, ⟨22, 102⟩, ⟨44, 104⟩] := by
  refine ⟨by decide, by decide, by decide, by decide⟩

/-- C15: on a well-formed map Store(key, v) returns the id it drew, Load(key) then shows
the previous list for key followed by the entry (id, v), and the lists of all other keys are
unchanged. -/
theorem listenerMap_Store_appends (grow : Nat → Nat) (h : listenerMap) (key : Topic)
    (value id : Nat) (hwf : h.WF) :
    (h.Store grow key value id).2 = id ∧
    sliceView (h.Store grow key value id).1.heap ((h.Store grow key value id).1.Load key)
      = sliceView h.heap (h.Load key) ++ [⟨id, value⟩] ∧
    (∀ k, k ≠ key →
      sliceView (h.Store grow key value id).1.heap ((h.Store grow key value id).1.Load k)
        = sliceView h.heap (h.Load k)) := by
  obtain ⟨h1, h2, h3, _⟩ := listenerMap_Store_aux grow h key value id hwf
  exact ⟨h1, h2, h3⟩

/-- C15, on a run: the third Store of the sample map appends the entry (33, 103). -/
theorem listenerMap_Store_appends_witness :
    sliceView sampleListeners.heap (sampleListeners.Load 7)
      = [⟨11, 101⟩, ⟨22, 102⟩] ++ [⟨33, 103⟩] :=
  (listenerMap_Store_appends sampleGrow
    ((newListenerMap.Store sampleGrow 7 101 11).1.Store sampleGrow 7 102 22).1 7 103 33
    (listenerMap_Store_aux _ _ _ _ _
      (listenerMap_Store_aux _ _ _ _ _ newListenerMap_WF).2.2.2).2.2.2).2.1.trans
    (by decide)

/-- C19: for every uint64 round r, UpdateRound publishes on RoundUpdateTopic the eight
little-endian bytes of r, and Collect applied to that buffer sends r on the round channel
and returns nil. -/
theorem UpdateRound_Collect_roundtrip (r : Nat) (hr : r < 2 ^ 64) :
    UpdateRound r = (BusTopic.RoundUpdateTopic, putUint64LE r) ∧
    (putUint64LE r).length = 8 ∧ (∀ b ∈ putUint64LE r, b < 256) ∧
    uint64LE (putUint64LE r) = some r ∧
    roundCollectorCollect (UpdateRound r).2 = some (r, none) := by
  have h := uint64LE_putUint64LE r hr
  refine ⟨rfl, rfl, ?_, h, ?_⟩
  · intro b hb
    simp only [putUint64LE, List.mem_cons, List.mem_singleton, List.not_mem_nil, or_false] at hb
    rcases hb with h | h | h | h | h | h | h | h <;> subst h <;> exact Nat.mod_lt _ (by norm_num)
  · simp [roundCollectorCollect, UpdateRound, h]

/-- C19, on a run: round 1000000 travels as 40 42 0f 00 00 00 00 00. -/
theorem UpdateRound_Collect_roundtrip_witness :
    roundCollectorCollect (UpdateRound 1000000).2 = some (1000000, none) :=
  (UpdateRound_Collect_roundtrip 1000000 (by norm_num)).2.2.2.2

/-- C20: LoadTip indexes the blockchain at len(m.blockchain), one past the last block, so
it panics with index out of range for every MockLoader, also after blocks were appended; it
never returns the most recently appended block, which sits at index len - 1. -/
theorem MockLoader_LoadTip_panics :
    (∀ m : MockLoader, m.LoadTip = none) ∧
    (NewMockLoader.Append ⟨1, [0xAB]⟩).1.LoadTip = none ∧
    (NewMockLoader.Append ⟨1, [0xAB]⟩).1.BlockAt 0 = some (⟨1, [0xAB]⟩, none) := by
  have h : ∀ m : MockLoader, m.LoadTip = none := by
    intro m
    unfold MockLoader.LoadTip
    have : m.blockchain.get? m.blockchain.length = none := by
      rw [List.get?_eq_none]
    rw [this]
  exact ⟨h, h _, by decide⟩

/-! ### Auxiliary facts for the wire messages and the transactions -/

/-- A `uint32` is written in four bytes. -/
theorem putUint32LE_length (v : Nat) : (putUint32LE v).length = 4 := rfl



/-- The sample byte of a known command is read back as the command. -/
theorem codeCmd_cmdCode (c : Cmd) (hc : Cmd.known c = true) : codeCmd (cmdCode c) = c := by
  cases c <;> first | rfl | cases hc

/-- The sample command bytes are bytes. -/
theorem cmdCode_lt (c : Cmd) : cmdCode c < 256 := by
  cases c <;> simp only [cmdCode] <;> omega

/-- The commands that `ReadMessage` handles are known ones. -/
theorem Cmd.known_of_handled (c : Cmd)
    (hc : Cmd.hasPayload c = true ∨ Cmd.payloadless c = true) : Cmd.known c = true := by
  cases c <;> first | rfl | (rcases hc with h | h <;> cases h)

/-- The command of a sample byte is written back as that byte. -/
theorem cmdCode_codeCmd (n : Nat) (hn : n < 256) : cmdCode (codeCmd n) = n := by
  unfold codeCmd
  split <;> first | rfl | (simp only [cmdCode]; omega)

/-- The sample environment reads back the headers it writes and accepts its checksums. -/
theorem sampleWireEnv_lawful : sampleWireEnv.Lawful where
  size := fun c => rfl
  bytes := by
    intro c b hb
    simp only [sampleWireEnv, List.mem_cons, List.mem_singleton, List.not_mem_nil,
      or_false] at hb
    have := cmdCode_lt c
    omega
  decode := by
    intro m c l s hc hm hl hs
    have e : ∀ v, v < 2 ^ 32 → v % 256 + 256 * (v / 256 % 256) + 256 ^ 2 * (v / 256 ^ 2 % 256)
        + 256 ^ 3 * (v / 256 ^ 3 % 256) = v := by
      intro v hv; omega
    simp only [sampleWireEnv, putUint32LE, List.cons_append, List.nil_append,
      sampleHeaderDecode, codeCmd_cmdCode c hc, if_true, e m hm, e l hl, e s hs]
  checksum := by
    intro b s h
    simp only [sampleWireEnv, Except.ok.injEq] at h
    subst h
    exact ⟨Nat.mod_lt _ (by norm_num), by simp [sampleWireEnv]⟩

/-- The sample environment writes back the headers and payloads it reads. -/
theorem sampleWireEnv_lawfulBack : sampleWireEnv.LawfulBack where
  header := by
    intro h hdr hlen hb hd
    simp only [sampleWireEnv] at hd
    unfold sampleHeaderDecode at hd
    split at hd
    · rename_i m0 m1 m2 m3 c p1 p2 p3 p4 p5 p6 p7 p8 p9 p10 p11 l0 l1 l2 l3 s0 s1 s2 s3
      split at hd
      case isFalse => cases hd
      rename_i hpad
      simp only [List.cons.injEq, and_true] at hpad
      obtain ⟨q1, q2, q3, q4, q5, q6, q7, q8, q9, q10, q11⟩ := hpad
      subst q1 q2 q3 q4 q5 q6 q7 q8 q9 q10 q11
      simp only [Except.ok.injEq] at hd
      subst hd
      simp only [List.mem_cons, List.mem_singleton, List.not_mem_nil, or_false,
        forall_eq_or_imp, forall_eq] at hb
      simp only [sampleWireEnv, putUint32LE, cmdCode_codeCmd c hb.2.2.2.2.1, List.cons_append,
        List.nil_append]
      have e0 : ∀ a b c d : Nat, a < 256 → b < 256 → c < 256 → d < 256 →
          [a, b, c, d] = [(a + 256 * b + 256 ^ 2 * c + 256 ^ 3 * d) % 256,
            (a + 256 * b + 256 ^ 2 * c + 256 ^ 3 * d) / 256 % 256,
            (a + 256 * b + 256 ^ 2 * c + 256 ^ 3 * d) / 256 ^ 2 % 256,
            (a + 256 * b + 256 ^ 2 * c + 256 ^ 3 * d) / 256 ^ 3 % 256] := by
        intro a b c d ha hb hc hd
        congr 1
        · omega
        · congr 1
          · omega
          · congr 1
            · omega
            · congr 1; omega
      obtain ⟨b0, b1, b2, b3, _, _, _, _, _, _, _, _, _, _, _, _, c0, c1, c2, c3, d0, d1, d2,
        d3⟩ := hb
      have em := e0 m0 m1 m2 m3 b0 b1 b2 b3
      have el := e0 l0 l1 l2 l3 c0 c1 c2 c3
      have es := e0 s0 s1 s2 s3 d0 d1 d2 d3
      simp only [List.cons.injEq, and_true] at em el es
      simp only [List.cons.injEq, and_true, true_and]
      exact ⟨em.1, em.2.1, em.2.2.1, em.2.2.2, el.1, el.2.1, el.2.2.1, el.2.2.2, es.1, es.2.1,
        es.2.2.1, es.2.2.2⟩
    · cases hd
  checksum := by
    intro b s h
    simp only [sampleWireEnv, decide_eq_true_eq] at h
    simp only [sampleWireEnv, h]
  empty := fun c _ => ⟨rfl, rfl⟩

/-- For a command without payload `ReadMessage` accepts any length field and any
payload with a matching checksum, and returns the new message of the command. -/
theorem ReadMessage_ignores_length {P : Type} (env : WireEnv P) (hlaw : env.Lawful)
    (magic : Nat) (hm : magic < 2 ^ 32) (c : Cmd) (hc : Cmd.payloadless c = true)
    (l sum : Nat) (hl : l < 2 ^ 32) (hs : sum < 2 ^ 32) (buf : List Nat)
    (hcmp : env.CompareChecksum buf sum = true) :
    ReadMessage env
        (putUint32LE magic ++ env.CmdToByteArray c ++ putUint32LE l ++ putUint32LE sum ++ buf)
        magic
      = (some (env.New c), none) := by
  have hsz := hlaw.size c
  have hdec := hlaw.decode magic c l sum (Cmd.known_of_handled c (Or.inr hc)) hm hl hs
  have hhl : (putUint32LE magic ++ env.CmdToByteArray c ++ putUint32LE l
      ++ putUint32LE sum).length = env.HeaderSize := by
    simp only [List.length_append, putUint32LE_length]
    omega
  unfold ReadMessage
  have hlt : ¬ (putUint32LE magic ++ env.CmdToByteArray c ++ putUint32LE l
      ++ putUint32LE sum ++ buf).length < env.HeaderSize := by
    rw [List.length_append, hhl]; omega
  have htake : (putUint32LE magic ++ env.CmdToByteArray c ++ putUint32LE l
      ++ putUint32LE sum ++ buf).take env.HeaderSize
      = putUint32LE magic ++ env.CmdToByteArray c ++ putUint32LE l ++ putUint32LE sum := by
    rw [← hhl, List.take_left']
    rfl
  have hdrop : (putUint32LE magic ++ env.CmdToByteArray c ++ putUint32LE l
      ++ putUint32LE sum ++ buf).drop env.HeaderSize = buf := by
    rw [← hhl, List.drop_left']
    rfl
  simp only [hlt, if_false, htake, hdec, hdrop, hcmp, ne_eq, not_true_eq_false,
    Bool.not_true, Bool.false_eq_true]
  cases c <;> simp [Cmd.payloadless] at hc <;> rfl

/-- An input is read back from the bytes it was marshalled to. -/
theorem MarshalTransactionInput_roundtrip (env : TxEnv) (hl : env.Lawful)
    (t : TransactionInput) (b rest : List Nat)
    (h : MarshalTransactionInput env t = .ok b) :
    UnmarshalTransactionInput env (b ++ rest) = .ok (t, rest) := by
  simp only [MarshalTransactionInput, bind, Except.bind, pure, Except.pure] at h
  cases h1 : env.Note.write t.Note with
  | error e => simp [h1] at h
  | ok b1 =>
  cases h2 : env.Uint64LE.write t.Pos with
  | error e => simp [h1, h2] at h
  | ok b2 =>
  cases h3 : env.SecretKey.write t.Sk with
  | error e => simp [h1, h2, h3] at h
  | ok b3 =>
  cases h4 : env.Nullifier.write t.Nullifier with
  | error e => simp [h1, h2, h3, h4] at h
  | ok b4 =>
  cases h5 : env.Scalar.write t.MerkleRoot with
  | error e => simp [h1, h2, h3, h4, h5] at h
  | ok b5 =>
  simp only [h1, h2, h3, h4, h5, Except.ok.injEq] at h
  subst h
  simp only [UnmarshalTransactionInput, bind, Except.bind, pure, Except.pure,
    List.append_assoc, hl.note _ _ _ h1, hl.uint64 _ _ _ h2, hl.secretKey _ _ _ h3,
    hl.nullifier _ _ _ h4, hl.scalar _ _ _ h5]

/-- An output is read back from the bytes it was marshalled to. -/
theorem MarshalTransactionOutput_roundtrip (env : TxEnv) (hl : env.Lawful)
    (t : TransactionOutput) (b rest : List Nat)
    (h : MarshalTransactionOutput env t = .ok b) :
    UnmarshalTransactionOutput env (b ++ rest) = .ok (t, rest) := by
  simp only [MarshalTransactionOutput, bind, Except.bind, pure, Except.pure] at h
  cases h1 : env.Note.write t.Note with
  | error e => simp [h1] at h
  | ok b1 =>
  cases h2 : env.PublicKey.write t.Pk with
  | error e => simp [h1, h2] at h
  | ok b2 =>
  cases h3 : env.Uint64LE.write t.Value with
  | error e => simp [h1, h2, h3] at h
  | ok b3 =>
  cases h4 : env.Scalar.write t.BlindingFactor with
  | error e => simp [h1, h2, h3, h4] at h
  | ok b4 =>
  simp only [h1, h2, h3, h4, Except.ok.injEq] at h
  subst h
  simp only [UnmarshalTransactionOutput, bind, Except.bind, pure, Except.pure,
    List.append_assoc, hl.note _ _ _ h1, hl.publicKey _ _ _ h2, hl.uint64 _ _ _ h3,
    hl.scalar _ _ _ h4]

/-- A list of elements is read back, element by element, from the bytes it was
marshalled to. -/
theorem marshalEach_roundtrip {α : Type} (w : α → Except GoError (List Nat))
    (rd : List Nat → Except GoError (α × List Nat))
    (hw : ∀ x bs rest, w x = .ok bs → rd (bs ++ rest) = .ok (x, rest))
    (xs : List α) :
    ∀ b rest, marshalEach w xs = .ok b →
      unmarshalEach rd xs.length (b ++ rest) = .ok (xs, rest) := by
  induction xs with
  | nil =>
    intro b rest h
    simp only [marshalEach, pure, Except.pure, Except.ok.injEq] at h
    subst h
    rfl
  | cons x xs ih =>
    intro b rest h
    simp only [marshalEach, bind, Except.bind, pure, Except.pure] at h
    cases h1 : w x with
    | error e => simp [h1] at h
    | ok b1 =>
    cases h2 : marshalEach w xs with
    | error e => simp [h1, h2] at h
    | ok b2 =>
    simp only [h1, h2, Except.ok.injEq] at h
    subst h
    simp only [List.length_cons, unmarshalEach, bind, Except.bind, pure, Except.pure,
      List.append_assoc, hw _ _ _ h1, ih _ _ h2]

/-- A transaction is read back from the bytes it was marshalled to. -/
theorem MarshalTransaction_roundtrip (env : TxEnv) (hl : env.Lawful) (t : Transaction)
    (b rest : List Nat) (hin : t.Inputs.length < 2 ^ 64) (hout : t.Outputs.length < 2 ^ 64)
    (h : MarshalTransaction env t = .ok b) :
    UnmarshalTransaction env (b ++ rest) = .ok (t, rest) := by
  simp only [MarshalTransaction, bind, Except.bind, pure, Except.pure] at h
  rw [Nat.mod_eq_of_lt hin, Nat.mod_eq_of_lt hout] at h
  cases h1 : env.VarInt.write t.Inputs.length with
  | error e => simp [h1] at h
  | ok b1 =>
  cases h2 : marshalEach (MarshalTransactionInput env) t.Inputs with
  | error e => simp [h1, h2] at h
  | ok b2 =>
  cases h3 : env.VarInt.write t.Outputs.length with
  | error e => simp [h1, h2, h3] at h
  | ok b3 =>
  cases h4 : marshalEach (MarshalTransactionOutput env) t.Outputs with
  | error e => simp [h1, h2, h3, h4] at h
  | ok b4 =>
  cases h5 : MarshalTransactionOutput env t.Fee with
  | error e => simp [h1, h2, h3, h4, h5] at h
  | ok b5 =>
  cases h6 : env.VarBytes.write t.Proof with
  | error e => simp [h1, h2, h3, h4, h5, h6] at h
  | ok b6 =>
  cases h7 : env.VarBytes.write t.hash with
  | error e => simp [h1, h2, h3, h4, h5, h6, h7] at h
  | ok b7 =>
  simp only [h1, h2, h3, h4, h5, h6, h7, Except.ok.injEq] at h
  subst h
  simp only [UnmarshalTransaction, bind, Except.bind, pure, Except.pure,
    List.append_assoc, hl.varInt _ _ _ h1, hl.varInt _ _ _ h3,
    marshalEach_roundtrip _ _ (MarshalTransactionInput_roundtrip env hl) _ _ _ h2,
    marshalEach_roundtrip _ _ (MarshalTransactionOutput_roundtrip env hl) _ _ _ h4,
    MarshalTransactionOutput_roundtrip env hl _ _ _ h5, hl.varBytes _ _ _ h6,
    hl.varBytes _ _ _ h7]



/-- The sample codec of fixed-size values is lawful. -/
theorem sampleBlob_lawful (n : Nat) : (sampleBlob n).Lawful := by
  intro x bs rest h
  simp only [sampleBlob] at h ⊢
  split at h
  · rename_i hx
    simp only [Except.ok.injEq] at h
    subst h
    have : n ≤ (x ++ rest).length := by simp [hx]
    simp only [this, if_true]
    rw [← hx, List.take_left', List.drop_left']
    · rfl
    · rfl
  · cases h

/-- The sample codecs of the transactions are lawful. -/
theorem sampleTxEnv_lawful : sampleTxEnv.Lawful where
  varInt := by
    intro x bs rest h
    simp only [sampleTxEnv, sampleVarInt] at h ⊢
    split at h
    · simp only [Except.ok.injEq] at h
      subst h
      rfl
    · cases h
  varBytes := by
    intro x bs rest h
    simp only [sampleTxEnv, sampleVarBytes] at h ⊢
    split at h
    · simp only [Except.ok.injEq] at h
      subst h
      simp only [List.cons_append]
      have : x.length ≤ (x ++ rest).length := by simp
      simp only [this, if_true]
      rw [List.take_left', List.drop_left']
      · rfl
      · rfl
    · cases h
  uint64 := by
    intro x bs rest h
    simp only [sampleTxEnv, sampleUint64LE] at h ⊢
    split at h
    · rename_i hx
      simp only [Except.ok.injEq] at h
      subst h
      have e : uint64LE (putUint64LE x ++ rest) = some x := by
        simp only [putUint64LE, List.cons_append, List.nil_append, uint64LE, Option.some.injEq]
        omega
      rw [e]
      rfl
    · cases h
  note := sampleBlob_lawful 4
  publicKey := sampleBlob_lawful 2
  secretKey := sampleBlob_lawful 2
  nullifier := sampleBlob_lawful 2
  scalar := sampleBlob_lawful 2

/-! ### The claims on the wire messages and the transactions -/

/-- What `ReadMessage` returns on the bytes that `WriteMessage` wrote for a payload of a
command that it handles: what the decoder of the command returns on the bytes that `Encode`
wrote, or the new message of a command without payload. -/
theorem ReadMessage_written {P : Type} (env : WireEnv P) (hlaw : env.Lawful)
    (magic : Nat) (hm : magic < 2 ^ 32) (p : P)
    (hc : Cmd.hasPayload (env.Command p) = true ∨ Cmd.payloadless (env.Command p) = true)
    (bytes : List Nat) (hw : WriteMessage env magic p = (bytes, none)) :
    ∃ buf, env.Encode p = .ok buf ∧
      (Cmd.hasPayload (env.Command p) = true →
        ReadMessage env bytes magic
          = (some (env.Decode (env.Command p) buf).1, (env.Decode (env.Command p) buf).2)) ∧
      (Cmd.payloadless (env.Command p) = true →
        ReadMessage env bytes magic = (some (env.New (env.Command p)), none)) := by
  unfold WriteMessage at hw
  cases he : env.Encode p with
  | error err => simp [he] at hw
  | ok buf =>
    simp only [he] at hw
    cases hs : env.Checksum buf with
    | error err => simp [hs] at hw
    | ok sum =>
      simp only [hs, Prod.mk.injEq, and_true] at hw
      obtain ⟨hsum, hcmp⟩ := hlaw.checksum buf sum hs
      have hsz := hlaw.size (env.Command p)
      have hdec := hlaw.decode magic (env.Command p) (buf.length % 2 ^ 32) sum
        (Cmd.known_of_handled _ hc) hm (Nat.mod_lt _ (by norm_num)) hsum
      have hhl : (putUint32LE magic ++ env.CmdToByteArray (env.Command p)
          ++ putUint32LE (buf.length % 2 ^ 32) ++ putUint32LE sum).length = env.HeaderSize := by
        simp only [List.length_append, putUint32LE_length]
        omega
      subst hw
      refine ⟨buf, rfl, ?_⟩
      unfold ReadMessage
      have hlt : ¬ (putUint32LE magic ++ env.CmdToByteArray (env.Command p)
          ++ putUint32LE (buf.length % 2 ^ 32) ++ putUint32LE sum ++ buf).length
            < env.HeaderSize := by
        rw [List.length_append, hhl]; omega
      have htake : (putUint32LE magic ++ env.CmdToByteArray (env.Command p)
          ++ putUint32LE (buf.length % 2 ^ 32) ++ putUint32LE sum ++ buf).take env.HeaderSize
          = putUint32LE magic ++ env.CmdToByteArray (env.Command p)
            ++ putUint32LE (buf.length % 2 ^ 32) ++ putUint32LE sum := by
        rw [← hhl, List.take_left']
        rfl
      have hdrop : (putUint32LE magic ++ env.CmdToByteArray (env.Command p)
          ++ putUint32LE (buf.length % 2 ^ 32) ++ putUint32LE sum ++ buf).drop env.HeaderSize
          = buf := by
        rw [← hhl, List.drop_left']
        rfl
      simp only [hlt, if_false, htake, hdec, hdrop, hcmp, ne_eq, not_true_eq_false,
        Bool.not_true, Bool.false_eq_true]
      refine ⟨?_, ?_⟩
      · intro hp
        cases hcmd : env.Command p <;> rw [hcmd] at hp <;>
          first | rfl | cases hp
      · intro hp
        cases hcmd : env.Command p <;> rw [hcmd] at hp <;>
          first | rfl | cases hp

/-- C16: for a lawful header and checksum, every magic m and every payload p of a command
that ReadMessage supports, if WriteMessage with m and p wrote the bytes without error then
ReadMessage on those bytes with m returns what the payload's own Decode returns on the bytes
its Encode wrote (for VerAck, Ping, Pong and GetAddr: the new message of the command): the
wire adds and loses nothing. So it returns p and no error exactly when the payload's codec
carries p, which is what the test of MsgInv checks of its Encode and Decode. -/
theorem ReadMessage_WriteMessage {P : Type} (env : WireEnv P) (hlaw : env.Lawful)
    (magic : Nat) (hm : magic < 2 ^ 32) (p : P)
    (hc : Cmd.hasPayload (env.Command p) = true ∨ Cmd.payloadless (env.Command p) = true)
    (bytes : List Nat) (hw : WriteMessage env magic p = (bytes, none)) :
    (∃ buf, env.Encode p = .ok buf ∧
      (Cmd.hasPayload (env.Command p) = true →
        ReadMessage env bytes magic
          = (some (env.Decode (env.Command p) buf).1, (env.Decode (env.Command p) buf).2)) ∧
      (Cmd.payloadless (env.Command p) = true →
        ReadMessage env bytes magic = (some (env.New (env.Command p)), none))) ∧
    (ReadMessage env bytes magic = (some p, none) ↔ env.RoundTrips p) := by
  obtain ⟨buf, he, h1, h2⟩ := ReadMessage_written env hlaw magic hm p hc bytes hw
  refine ⟨⟨buf, he, h1, h2⟩, ?_⟩
  have hex : ∀ c : Cmd, ¬ (Cmd.hasPayload c = true ∧ Cmd.payloadless c = true) := by
    intro c; cases c <;> simp [Cmd.hasPayload, Cmd.payloadless]
  constructor
  · intro hr
    rcases hc with hc | hc
    · left
      refine ⟨hc, ?_⟩
      intro b hb
      rw [he] at hb
      injection hb with hb
      subst hb
      rw [h1 hc] at hr
      simp only [Prod.mk.injEq, Option.some.injEq] at hr
      exact Prod.ext hr.1 hr.2
    · right
      refine ⟨hc, ?_⟩
      rw [h2 hc] at hr
      simp only [Prod.mk.injEq, Option.some.injEq, and_true] at hr
      exact hr
  · intro hrt
    rcases hrt with ⟨hp, hd⟩ | ⟨hp, hn⟩
    · rw [h1 hp, hd buf he]
    · rw [h2 hp, hn]

/-- C16, on a run: an Inv message with a body of three bytes is read back; the sample
environment writes bytes only. -/
theorem ReadMessage_WriteMessage_witness :
    (∀ c, ∀ b ∈ sampleWireEnv.CmdToByteArray c, b < 256) ∧
    ReadMessage sampleWireEnv
        ([13, 12, 11, 10, 10, 0, 0, 0, 0, 0, 0, 0, 0, 0, 0, 0, 3, 0, 0, 0, 6, 0, 0, 0, 1, 2, 3]) sampleMagic
      = (some ⟨.Inv, [1, 2, 3]⟩, none) :=
  ⟨sampleWireEnv_lawful.bytes,
   (ReadMessage_WriteMessage sampleWireEnv sampleWireEnv_lawful sampleMagic (by decide)
      ⟨.Inv, [1, 2, 3]⟩ (Or.inl rfl) _ rfl).2.2
      (Or.inl ⟨rfl, fun b hb => by cases hb; rfl⟩)⟩

/-- C17, refuted as stated: ReadMessage accepts a VerAck whose header announces seven
bytes of payload and carries none, and a Ping that carries the payload 1 2 3 with its
checksum; WriteMessage with the payloads returned writes a header with length 0 and no
payload, which are other bytes. -/
theorem WriteMessage_ReadMessage_counterexample :
    ReadMessage sampleWireEnv ([13, 12, 11, 10, 1, 0, 0, 0, 0, 0, 0, 0, 0, 0, 0, 0, 7, 0, 0, 0, 0, 0, 0, 0]) sampleMagic
      = (some ⟨.VerAck, []⟩, none) ∧
    WriteMessage sampleWireEnv sampleMagic ⟨.VerAck, []⟩
      = ([13, 12, 11, 10, 1, 0, 0, 0, 0, 0, 0, 0, 0, 0, 0, 0, 0, 0, 0, 0, 0, 0, 0, 0], none) ∧
    (WriteMessage sampleWireEnv sampleMagic ⟨.VerAck, []⟩).1
      ≠ [13, 12, 11, 10, 1, 0, 0, 0, 0, 0, 0, 0, 0, 0, 0, 0, 7, 0, 0, 0, 0, 0, 0, 0] ∧
    ReadMessage sampleWireEnv ([13, 12, 11, 10, 2, 0, 0, 0, 0, 0, 0, 0, 0, 0, 0, 0, 3, 0, 0, 0, 6, 0, 0, 0, 1, 2, 3]) sampleMagic
      = (some ⟨.Ping, []⟩, none) ∧
    WriteMessage sampleWireEnv sampleMagic ⟨.Ping, []⟩
      = ([13, 12, 11, 10, 2, 0, 0, 0, 0, 0, 0, 0, 0, 0, 0, 0, 0, 0, 0, 0, 0, 0, 0, 0], none) ∧
    (WriteMessage sampleWireEnv sampleMagic ⟨.Ping, []⟩).1
      ≠ [13, 12, 11, 10, 2, 0, 0, 0, 0, 0, 0, 0, 0, 0, 0, 0, 3, 0, 0, 0, 6, 0, 0, 0, 1, 2, 3] := by
  refine ⟨by decide, by decide, by decide, by decide, by decide, by decide⟩

/-- C17, amended: if ReadMessage(s, m) returns p without error, the length field of the
header of s is the length of the payload of s, for the commands without payload that
payload is empty, and for the commands with a payload p has the command of the header and
its Encode writes exactly the payload bytes of s, then WriteMessage with m and p writes
exactly s. -/
theorem WriteMessage_ReadMessage_exact {P : Type} (env : WireEnv P) (hlaw : env.LawfulBack)
    (s : List Nat) (magic : Nat) (p : P) (hdr : Header)
    (hbytes : ∀ b ∈ s, b < 256)
    (hread : ReadMessage env s magic = (some p, none))
    (hhdr : env.HeaderDecode (s.take env.HeaderSize) = .ok hdr)
    (hlen : hdr.Length = (s.drop env.HeaderSize).length % 2 ^ 32)
    (hempty : Cmd.payloadless hdr.Command = true → s.drop env.HeaderSize = [])
    (hcodec : Cmd.hasPayload hdr.Command = true →
      env.Command p = hdr.Command ∧ env.Encode p = .ok (s.drop env.HeaderSize)) :
    WriteMessage env magic p = (s, none) := by
  unfold ReadMessage at hread
  by_cases hshort : s.length < env.HeaderSize
  · simp [hshort] at hread
  · simp only [hshort, if_false, hhdr] at hread
    by_cases hmag : magic = hdr.Magic
    · simp only [hmag, ne_eq, not_true_eq_false, if_false] at hread
      cases hcmp : env.CompareChecksum (s.drop env.HeaderSize) hdr.Checksum with
      | false => simp [hcmp] at hread
      | true =>
        simp only [hcmp, Bool.not_true, Bool.false_eq_true, if_false] at hread
        have hsum := hlaw.checksum _ _ hcmp
        have hh := hlaw.header (s.take env.HeaderSize) hdr
          (by rw [List.length_take]; omega)
          (fun b hb => hbytes b (List.mem_of_mem_take hb)) hhdr
        have key : env.Command p = hdr.Command ∧ env.Encode p = .ok (s.drop env.HeaderSize) := by
          cases hc : hdr.Command <;> rw [hc] at hread hempty hcodec <;>
            simp only [Prod.mk.injEq, Option.some.injEq, reduceCtorEq, and_false, and_true,
              false_and] at hread
          case Version => exact hcodec rfl
          case Addr => exact hcodec rfl
          case GetData => exact hcodec rfl
          case Tx => exact hcodec rfl
          case Inv => exact hcodec rfl
          case NotFound => exact hcodec rfl
          case Reject => exact hcodec rfl
          case VerAck =>
            rw [← hread, hempty rfl]; exact hlaw.empty .VerAck rfl
          case Ping =>
            rw [← hread, hempty rfl]; exact hlaw.empty .Ping rfl
          case Pong =>
            rw [← hread, hempty rfl]; exact hlaw.empty .Pong rfl
          case GetAddr =>
            rw [← hread, hempty rfl]; exact hlaw.empty .GetAddr rfl
        obtain ⟨k1, k2⟩ := key
        unfold WriteMessage
        simp only [k2, hsum, k1, hmag, ← hlen, ← hh, List.take_append_drop]
    · simp [hmag] at hread

/-- C17 amended, on a run: the Inv message written above is written back as it was read. -/
theorem WriteMessage_ReadMessage_exact_witness :
    WriteMessage sampleWireEnv sampleMagic ⟨.Inv, [1, 2, 3]⟩
      = ([13, 12, 11, 10, 10, 0, 0, 0, 0, 0, 0, 0, 0, 0, 0, 0, 3, 0, 0, 0, 6, 0, 0, 0, 1, 2, 3], none) :=
  WriteMessage_ReadMessage_exact sampleWireEnv sampleWireEnv_lawfulBack
    ([13, 12, 11, 10, 10, 0, 0, 0, 0, 0, 0, 0, 0, 0, 0, 0, 3, 0, 0, 0, 6, 0, 0, 0, 1, 2, 3]) sampleMagic ⟨.Inv, [1, 2, 3]⟩
    ⟨sampleMagic, .Inv, 3, 6⟩ (by decide) (by decide) rfl (by decide)
    (fun h => absurd h (by decide)) (fun _ => ⟨rfl, rfl⟩)

/-- C18: for lawful codecs and every transaction t (pointers non-nil, fewer than 2^64
inputs and outputs), if MarshalTransaction wrote the bytes b without error then
UnmarshalTransaction on a buffer that starts with b succeeds, consumes exactly b and yields
t, stored hash included, so CalculateHash returns on the transaction read what it returns
on t. -/
theorem UnmarshalTransaction_MarshalTransaction (env : TxEnv) (hl : env.Lawful)
    (t : Transaction) (b rest : List Nat)
    (hin : t.Inputs.length < 2 ^ 64) (hout : t.Outputs.length < 2 ^ 64)
    (h : MarshalTransaction env t = .ok b) :
    UnmarshalTransaction env (b ++ rest) = .ok (t, rest) ∧
    ∀ t2 r2, UnmarshalTransaction env (b ++ rest) = .ok (t2, r2) →
      t2 = t ∧ r2 = rest ∧ t2.CalculateHash = t.CalculateHash := by
  have hrt := MarshalTransaction_roundtrip env hl t b rest hin hout h
  refine ⟨hrt, ?_⟩
  intro t2 r2 h2
  rw [hrt] at h2
  simp only [Except.ok.injEq, Prod.mk.injEq] at h2
  obtain ⟨e1, e2⟩ := h2
  subst e1; subst e2
  exact ⟨rfl, rfl, rfl⟩

/-- C18, on a run: the sample transaction, followed in the buffer by one more byte. -/
theorem UnmarshalTransaction_MarshalTransaction_witness :
    UnmarshalTransaction sampleTxEnv
        ([1, 1, 2, 3, 4, 2, 1, 0, 0, 0, 0, 0, 0, 5, 6, 7, 8, 9, 10, 1, 11, 12, 13, 14, 15, 16,
          200, 0, 0, 0, 0, 0, 0, 0, 17, 18, 21, 22, 23, 24, 25, 26, 3, 0, 0, 0, 0, 0, 0, 0, 27,
          28, 3, 31, 32, 33, 2, 41, 42] ++ [255])
      = .ok (sampleTx, [255]) :=
  (UnmarshalTransaction_MarshalTransaction sampleTxEnv sampleTxEnv_lawful sampleTx _ [255]
    (by decide) (by decide) rfl).1

/-! ### The data broker: auxiliary facts and C21 -/

/-- When the hashes of the first `k` transactions are computed, the loop adds them in order
and stops. -/
theorem addTxItems_ok {Tx : Type} (env : BrokerEnv Tx) (hash : Tx → List Nat) :
    ∀ (txs : List Tx) (msg : Inv) (k : Nat), 0 < k →
      (∀ tx ∈ txs.take k, env.CalculateHash tx = .ok (hash tx)) →
      addTxItems env txs msg k
        = .ok { InvList := msg.InvList ++
            (txs.take k).map (fun tx => { Typ := InvType.InvTypeMempoolTx, Hash := hash tx }) }
  | [], msg, k, _, _ => by simp [addTxItems]
  | tx :: rest, msg, k + 1, _, h => by
    have h0 : env.CalculateHash tx = .ok (hash tx) := h tx (by simp)
    unfold addTxItems
    simp only [h0, Nat.add_sub_cancel]
    by_cases hk : k = 0
    · subst hk
      simp [Inv.AddItem]
    · rw [if_neg hk]
      rw [addTxItems_ok env hash rest _ k (by omega)
        (fun t ht => h t (by simp only [List.take_succ_cons, List.mem_cons]; exact Or.inr ht))]
      simp [Inv.AddItem]

/-- When the loop ends without error, it has added the hashes of the first `k` transactions,
in order. -/
theorem addTxItems_inv {Tx : Type} (env : BrokerEnv Tx) :
    ∀ (txs : List Tx) (msg msg1 : Inv) (k : Nat), 0 < k →
      addTxItems env txs msg k = .ok msg1 →
      ∃ hashes : List (List Nat),
        List.Forall₂ (fun tx h => env.CalculateHash tx = .ok h) (txs.take k) hashes ∧
        msg1 = { InvList := msg.InvList ++
          hashes.map (fun h => { Typ := InvType.InvTypeMempoolTx, Hash := h }) }
  | [], msg, msg1, k, _, h => by
    simp only [addTxItems, Except.ok.injEq] at h
    subst h
    exact ⟨[], by simp, by simp⟩
  | tx :: rest, msg, msg1, k + 1, _, h => by
    unfold addTxItems at h
    cases h0 : env.CalculateHash tx with
    | error err => simp [h0] at h
    | ok txID =>
      simp only [h0, Nat.add_sub_cancel] at h
      by_cases hk : k = 0
      · subst hk
        simp only [if_true, Except.ok.injEq] at h
        subst h
        exact ⟨[txID], by simp [h0], by simp [Inv.AddItem]⟩
      · rw [if_neg hk] at h
        obtain ⟨hs, h1, h2⟩ := addTxItems_inv env rest _ msg1 k (by omega) h
        refine ⟨txID :: hs, ?_, ?_⟩
        · simp only [List.take_succ_cons]
          exact List.Forall₂.cons h0 h1
        · rw [h2]; simp [Inv.AddItem]

/-- C21: SendTxsItems respects the configured limit. With MaxInvItems 0 it sends nothing and
returns nil; with an empty mempool it sends nothing and returns nil; with a limit k above 0
and n > 0 transactions whose first min(n, k) hashes are computed and whose Inv message is
marshalled without error, it sends exactly one buffer, the Inv message whose items are the
hashes of the first min(n, k) transactions in mempool order, each of type InvTypeMempoolTx,
and returns nil. In no case is anything else sent: whatever SendTxsItems sends is one such
message. -/
theorem SendTxsItems_respects_limit {Tx : Type} (env : BrokerEnv Tx) :
    (env.MaxInvItems = 0 → SendTxsItems env = ([], none)) ∧
    (env.GetMempoolTxs = .ok [] → SendTxsItems env = ([], none)) ∧
    (∀ (txs : List Tx) (hash : Tx → List Nat) (buf : List Nat),
      0 < env.MaxInvItems → txs ≠ [] → env.GetMempoolTxs = .ok txs →
      (∀ tx ∈ txs.take env.MaxInvItems, env.CalculateHash tx = .ok (hash tx)) →
      env.marshalInv (Inv.mk ((txs.take env.MaxInvItems).map
        (fun tx => InvVect.mk InvType.InvTypeMempoolTx (hash tx)))) = .ok buf →
      SendTxsItems env = ([buf], none) ∧
      ((txs.take env.MaxInvItems).map
          (fun tx => InvVect.mk InvType.InvTypeMempoolTx (hash tx))).length
        = min txs.length env.MaxInvItems) ∧
    (∀ b, b ∈ (SendTxsItems env).1 →
      (SendTxsItems env) = ([b], none) ∧ 0 < env.MaxInvItems ∧
      ∃ (txs : List Tx) (hashes : List (List Nat)),
        env.GetMempoolTxs = .ok txs ∧ txs ≠ [] ∧
        List.Forall₂ (fun tx h => env.CalculateHash tx = .ok h)
          (txs.take env.MaxInvItems) hashes ∧
        env.marshalInv (Inv.mk (hashes.map
          (fun h => InvVect.mk InvType.InvTypeMempoolTx h))) = .ok b) := by
  refine ⟨?_, ?_, ?_, ?_⟩
  · intro h
    simp [SendTxsItems, h]
  · intro h
    unfold SendTxsItems
    by_cases hk : env.MaxInvItems = 0
    · simp [hk]
    · simp [hk, h]
  · intro txs hash buf hk hne hget hhash hmar
    have hk0 : env.MaxInvItems ≠ 0 := by omega
    have hlen : txs.length ≠ 0 := by
      intro h0; exact hne (List.length_eq_zero.mp h0)
    refine ⟨?_, ?_⟩
    · unfold SendTxsItems
      simp only [hk0, if_false, hget, hlen, ne_eq, not_false_eq_true, if_true]
      rw [addTxItems_ok env hash txs _ _ hk hhash]
      simp only [List.nil_append, hmar]
    · simp [List.length_take, Nat.min_comm]
  · intro b hb
    unfold SendTxsItems at hb ⊢
    by_cases hk : env.MaxInvItems = 0
    · simp [hk] at hb
    · simp only [hk, if_false] at hb ⊢
      cases hget : env.GetMempoolTxs with
      | error err => simp [hget] at hb
      | ok txs =>
        simp only [hget] at hb ⊢
        by_cases hlen : txs.length ≠ 0
        · rw [if_pos hlen] at hb ⊢
          cases hadd : addTxItems env txs { InvList := [] } env.MaxInvItems with
          | error err => simp [hadd] at hb
          | ok msg =>
            simp only [hadd] at hb ⊢
            cases hmar : env.marshalInv msg with
            | error err => simp [hmar] at hb
            | ok buf =>
              simp only [hmar, List.mem_singleton] at hb ⊢
              subst hb
              obtain ⟨hs, h1, h2⟩ := addTxItems_inv env txs _ msg _ (by omega) hadd
              refine ⟨rfl, by omega, txs, hs, rfl, ?_, h1, ?_⟩
              · intro h0; apply hlen; rw [h0]; rfl
              · rw [h2] at hmar; simpa using hmar
        · rw [if_neg hlen] at hb
          simp at hb

/-- C21, on a run: with a limit of two and a mempool of three transactions, SendTxsItems sends
one Inv message with the hashes of the first two. -/
theorem SendTxsItems_respects_limit_witness :
    SendTxsItems sampleBroker
        = ([2 :: (1 :: List.replicate 32 5 ++ (1 :: List.replicate 32 6))], none) ∧
      (([5, 6, 7].take sampleBroker.MaxInvItems).map
          (fun tx => InvVect.mk InvType.InvTypeMempoolTx (List.replicate 32 tx))).length
        = min [5, 6, 7].length sampleBroker.MaxInvItems :=
  (SendTxsItems_respects_limit sampleBroker).2.2.1 [5, 6, 7]
    (fun tx => List.replicate 32 tx) _ (by decide) (by decide) rfl (fun _ _ => rfl) rfl

/-! ### Base58: auxiliary facts and C22 -/

/-- With enough fuel the repeated division gives the digits of the number. -/
theorem toDigitsLE_eq_digits (b : Nat) (hb : 1 < b) :
    ∀ fuel n, n ≤ fuel → toDigitsLE b fuel n = Nat.digits b n
  | 0, n, h => by
    have : n = 0 := by omega
    subst this
    simp [toDigitsLE]
  | fuel + 1, n, h => by
    unfold toDigitsLE
    by_cases hn : n = 0
    · subst hn; simp
    · rw [if_neg hn, Nat.digits_def' hb (by omega)]
      have hlt : n / b < n := Nat.div_lt_self (by omega) hb
      rw [toDigitsLE_eq_digits b hb fuel (n / b) (by omega)]

/-- The number itself is enough fuel. -/
theorem toDigitsBE_eq_digits (b : Nat) (hb : 1 < b) (n : Nat) :
    toDigitsBE b n = (Nat.digits b n).reverse := by
  unfold toDigitsBE
  rw [toDigitsLE_eq_digits b hb n n (le_refl n)]

/-- The fold of `fromDigitsBE` from any start. -/
theorem fromDigitsBE_foldl (b : Nat) :
    ∀ (l : List Nat) (acc : Nat),
      l.foldl (fun acc d => acc * b + d) acc = acc * b ^ l.length + Nat.ofDigits b l.reverse
  | [], acc => by simp
  | x :: xs, acc => by
    rw [List.foldl_cons, fromDigitsBE_foldl b xs, List.reverse_cons, Nat.ofDigits_append,
      Nat.ofDigits_singleton, List.length_reverse, List.length_cons]
    ring

/-- The number of a list of digits, highest first, is that of the reversed list, lowest
first. -/
theorem fromDigitsBE_eq_ofDigits (b : Nat) (l : List Nat) :
    fromDigitsBE b l = Nat.ofDigits b l.reverse := by
  unfold fromDigitsBE
  rw [fromDigitsBE_foldl]
  simp

/-- Zeros above the highest digit do not change the number. -/
theorem ofDigits_append_zeros (b z : Nat) (l : List Nat) :
    Nat.ofDigits b (l ++ List.replicate z 0) = Nat.ofDigits b l := by
  rw [Nat.ofDigits_append]
  have : Nat.ofDigits b (List.replicate z 0) = 0 := by
    induction z with
    | zero => simp
    | succ n ih => rw [List.replicate_succ, Nat.ofDigits_cons, ih]; simp
  rw [this]; simp

/-- The zeros at the head of a list. -/
theorem takeWhile_zero_eq_replicate :
    ∀ l : List Nat, l.takeWhile (fun x => x == 0) = List.replicate (leadingZeros l) 0
  | [] => by simp [leadingZeros]
  | x :: xs => by
    by_cases hx : x = 0
    · subst hx
      have ih := takeWhile_zero_eq_replicate xs
      simp only [leadingZeros] at ih ⊢
      simp only [List.takeWhile_cons, beq_self_eq_true, if_true, List.length_cons,
        List.replicate_succ]
      rw [← ih]
    · have : (x == 0) = false := by simpa using hx
      simp [leadingZeros, List.takeWhile_cons, this]

/-- A list is its leading zeros, then the rest. -/
theorem leadingZeros_split (l : List Nat) :
    l = List.replicate (leadingZeros l) 0 ++ l.dropWhile (fun x => x == 0) := by
  rw [← takeWhile_zero_eq_replicate, List.takeWhile_append_dropWhile]

/-- The leading zeros of zeros put before a list that does not start with zero. -/
theorem leadingZeros_replicate_append (z : Nat) (r : List Nat)
    (hr : ∀ h : r ≠ [], r.head h ≠ 0) :
    leadingZeros (List.replicate z 0 ++ r) = z ∧
    (List.replicate z 0 ++ r).dropWhile (fun x => x == 0) = r := by
  induction z with
  | zero =>
    cases r with
    | nil => simp [leadingZeros]
    | cons x xs =>
      have hx : x ≠ 0 := hr (by simp)
      have : (x == 0) = false := by simpa using hx
      simp [leadingZeros, List.takeWhile_cons, List.dropWhile_cons, this]
  | succ n ih =>
    obtain ⟨ih1, ih2⟩ := ih
    simp only [leadingZeros] at ih1 ⊢
    simp only [List.replicate_succ, List.cons_append, List.takeWhile_cons, beq_self_eq_true,
      if_true, List.length_cons, ih1, List.dropWhile_cons, ih2, and_self]

/-- What is left after the leading zeros does not start with zero. -/
theorem dropWhile_zero_head (l : List Nat) :
    ∀ h : l.dropWhile (fun x => x == 0) ≠ [], (l.dropWhile (fun x => x == 0)).head h ≠ 0 := by
  intro h
  have := List.head_dropWhile_not (fun x => x == 0) l h
  simpa using this

/-- The digits of a number, highest first, do not start with zero. -/
theorem digits_reverse_head (b n : Nat) :
    ∀ h : (Nat.digits b n).reverse ≠ [], (Nat.digits b n).reverse.head h ≠ 0 := by
  intro h
  rw [List.head_reverse]
  have hn : n ≠ 0 := by
    rintro rfl
    simp at h
  exact Nat.getLast_digit_ne_zero b hn

/-- The shape of a converted list: the leading zeros, then the digits of the number. -/
theorem baseConvert_eq (src dst : Nat) (hd : 1 < dst) (l : List Nat) :
    baseConvert src dst l = List.replicate (leadingZeros l) 0 ++
      (Nat.digits dst (Nat.ofDigits src (l.dropWhile (fun x => x == 0)).reverse)).reverse := by
  unfold baseConvert
  rw [toDigitsBE_eq_digits dst hd, fromDigitsBE_eq_ofDigits]
  congr 3
  conv_lhs => rw [leadingZeros_split l]
  rw [List.reverse_append, List.reverse_replicate, ofDigits_append_zeros]

/-- The converted digits are below the base. -/
theorem baseConvert_lt (src dst : Nat) (hd : 1 < dst) (l : List Nat) :
    ∀ x ∈ baseConvert src dst l, x < dst := by
  intro x hx
  rw [baseConvert_eq src dst hd] at hx
  rcases List.mem_append.mp hx with h | h
  · rw [List.mem_replicate] at h; omega
  · exact Nat.digits_lt_base hd (List.mem_reverse.mp h)

/-- Converting to another base and back gives the digits one started from. -/
theorem baseConvert_roundtrip (src dst : Nat) (hs : 1 < src) (hd : 1 < dst) (l : List Nat)
    (hl : ∀ x ∈ l, x < src) :
    baseConvert dst src (baseConvert src dst l) = l := by
  rw [baseConvert_eq dst src hs, baseConvert_eq src dst hd]
  obtain ⟨h1, h2⟩ := leadingZeros_replicate_append (leadingZeros l)
    (Nat.digits dst (Nat.ofDigits src (l.dropWhile (fun x => x == 0)).reverse)).reverse
    (digits_reverse_head _ _)
  rw [h1, h2, List.reverse_reverse, Nat.ofDigits_digits, Nat.digits_ofDigits src hs,
    List.reverse_reverse]
  · exact (leadingZeros_split l).symm
  · intro x hx
    exact hl x ((List.dropWhile_sublist _).subset (List.mem_reverse.mp hx))
  · intro h
    rw [List.getLast_reverse]
    exact dropWhile_zero_head l _


/-- The character of a digit is in the alphabet, at the position of the digit. -/
theorem alphabet_index (alph : Alphabet) (hnd : alph.encode.Nodup) (d : Nat)
    (hd : d < alph.encode.length) :
    alph.encode.getD d 0 ∈ alph.encode ∧ alph.encode.indexOf (alph.encode.getD d 0) = d := by
  rw [List.getD_eq_getElem _ _ hd]
  exact ⟨List.getElem_mem _, List.indexOf_getElem hnd d hd⟩

/-- The position of a character of the alphabet holds that character. -/
theorem alphabet_char (alph : Alphabet) (c : Nat) (hc : c ∈ alph.encode) :
    alph.encode.indexOf c < alph.encode.length ∧
    alph.encode.getD (alph.encode.indexOf c) 0 = c := by
  have h : alph.encode.indexOf c < alph.encode.length := List.indexOf_lt_length.mpr hc
  refine ⟨h, ?_⟩
  rw [List.getD_eq_getElem _ _ h]
  exact List.getElem_indexOf h

/-- Decoding the encoding of a byte string gives the byte string. -/
theorem Base58_decode_encode (alph : Alphabet) (h58 : alph.encode.length = 58)
    (hnd : alph.encode.Nodup) (b : List Nat) (hb : ∀ x ∈ b, x < 256) :
    Base58DecodingAlphabet (Base58EncodingAlphabet b alph) alph = .ok b := by
  have hlt := baseConvert_lt 256 58 (by norm_num) b
  have hall : (Base58EncodingAlphabet b alph).all (fun c => alph.encode.contains c) = true := by
    rw [List.all_eq_true]
    intro c hc
    unfold Base58EncodingAlphabet at hc
    obtain ⟨d, hd, rfl⟩ := List.mem_map.mp hc
    simpa using (alphabet_index alph hnd d (by rw [h58]; exact hlt d hd)).1
  have hidx : (Base58EncodingAlphabet b alph).map (fun c => alph.encode.indexOf c)
      = baseConvert 256 58 b := by
    unfold Base58EncodingAlphabet
    rw [List.map_map]
    conv_rhs => rw [← List.map_id (baseConvert 256 58 b)]
    apply List.map_congr_left
    intro d hd
    exact (alphabet_index alph hnd d (by rw [h58]; exact hlt d hd)).2
  unfold Base58DecodingAlphabet
  rw [if_pos hall, hidx, baseConvert_roundtrip 256 58 (by norm_num) (by norm_num) b hb]

/-- A string over the alphabet decodes to bytes whose encoding is the string. -/
theorem Base58_encode_decode (alph : Alphabet) (h58 : alph.encode.length = 58)
    (s : List Nat) (hs : ∀ c ∈ s, c ∈ alph.encode) :
    ∃ b, Base58DecodingAlphabet s alph = .ok b ∧ (∀ x ∈ b, x < 256) ∧
      Base58EncodingAlphabet b alph = s := by
  have hall : s.all (fun c => alph.encode.contains c) = true := by
    rw [List.all_eq_true]
    intro c hc
    simpa using hs c hc
  refine ⟨baseConvert 58 256 (s.map (fun c => alph.encode.indexOf c)), ?_, ?_, ?_⟩
  · unfold Base58DecodingAlphabet
    rw [if_pos hall]
  · exact baseConvert_lt 58 256 (by norm_num) _
  · unfold Base58EncodingAlphabet
    rw [baseConvert_roundtrip 58 256 (by norm_num) (by norm_num), List.map_map]
    · conv_rhs => rw [← List.map_id s]
      apply List.map_congr_left
      intro c hc
      exact (alphabet_char alph c (hs c hc)).2
    · intro x hx
      obtain ⟨c, hc, rfl⟩ := List.mem_map.mp hx
      rw [← h58]
      exact (alphabet_char alph c (hs c hc)).1

/-- C22: for every alphabet of 58 distinct characters, decoding the encoding of a byte
string gives the byte string back with no error, whatever its length and its leading zero
bytes; and a string of characters of the alphabet decodes without error to bytes whose
encoding is the string, in particular with the Bitcoin alphabet of Base58Encoding and
Base58Decoding. -/
theorem Base58_round_trip (alph : Alphabet) (h58 : alph.encode.length = 58)
    (hnd : alph.encode.Nodup) :
    (∀ b : List Nat, (∀ x ∈ b, x < 256) →
      Base58DecodingAlphabet (Base58EncodingAlphabet b alph) alph = .ok b) ∧
    (∀ s : List Nat, (∀ c ∈ s, c ∈ alph.encode) →
      ∃ b, Base58DecodingAlphabet s alph = .ok b ∧ (∀ x ∈ b, x < 256) ∧
        Base58EncodingAlphabet b alph = s) ∧
    (∀ s : List Nat, (∀ c ∈ s, c ∈ BTCAlphabet.encode) →
      ∃ b, Base58Decoding s = .ok b ∧ Base58Encoding b = s) := by
  refine ⟨Base58_decode_encode alph h58 hnd, Base58_encode_decode alph h58, ?_⟩
  intro s hs
  obtain ⟨b, h1, _, h2⟩ := Base58_encode_decode BTCAlphabet (by decide) s hs
  exact ⟨b, h1, h2⟩

/-- C22, on a run: the Bitcoin alphabet has 58 distinct characters; five bytes with two
leading zeros, and the first address of the test, come back unchanged. -/
theorem Base58_round_trip_witness :
    BTCAlphabet.encode.length = 58 ∧ BTCAlphabet.encode.Nodup ∧
    Base58DecodingAlphabet (Base58EncodingAlphabet [0, 0, 1, 2, 255] BTCAlphabet) BTCAlphabet
      = .ok [0, 0, 1, 2, 255] ∧
    ∃ b, Base58Decoding ("1QCaxc8hutpdZ62iKZsn1TCG3nh7uPZojq".toList.map Char.toNat) = .ok b ∧
      Base58Encoding b = "1QCaxc8hutpdZ62iKZsn1TCG3nh7uPZojq".toList.map Char.toNat :=
  ⟨by decide, by decide,
    (Base58_round_trip BTCAlphabet (by decide) (by decide)).1 _ (by decide),
    (Base58_round_trip BTCAlphabet (by decide) (by decide)).2.2 _ (by decide)⟩

/-- The bytes 0 0 1 2 255 are written 11LiA, and read back from it. -/
theorem Base58_sample :
    Base58Encoding [0, 0, 1, 2, 255] = "11LiA".toList.map Char.toNat ∧
    Base58Decoding ("11LiA".toList.map Char.toNat) = .ok [0, 0, 1, 2, 255] := by
  refine ⟨by decide, by rfl⟩

/-! ### The duplicate filter: auxiliary facts and C23 -/

/-- The filter refuses a payload whose key it holds, and stays as it is. -/
theorem DupeMap_CanFwd_seen (hash : List Nat → Nat) (d : DupeMap) (payload : List Nat)
    (added : Nat) (h : (added, hash payload) ∈ d.seen) :
    d.CanFwd hash payload = (false, d) := by
  unfold DupeMap.CanFwd
  have : d.seen.any (fun e => e.2 == hash payload) = true := by
    rw [List.any_eq_true]
    exact ⟨_, h, by simp⟩
  rw [if_pos this]

/-- A call of CanFwd removes nothing. -/
theorem DupeMap_CanFwd_keeps (hash : List Nat → Nat) (d : DupeMap) (payload : List Nat)
    (e : Nat × Nat) (h : e ∈ d.seen) : e ∈ (d.CanFwd hash payload).2.seen := by
  unfold DupeMap.CanFwd
  split
  · exact h
  · exact List.mem_cons_of_mem _ h

/-- An entry stays in the filter over operations that do not clean it. -/
theorem DupeMap_run_keeps (hash : List Nat → Nat) (expired : Nat → Nat → Bool)
    (added key : Nat) :
    ∀ (ops : List DupeOp) (d : DupeMap), (added, key) ∈ d.seen →
      (∀ op ∈ ops, op.cleans expired added = false) →
      (added, key) ∈ (DupeMap.run hash expired d ops).1.seen
  | [], d, h, _ => h
  | .canFwd payload :: ops, d, h, hops => by
    simp only [DupeMap.run]
    exact DupeMap_run_keeps hash expired added key ops _
      (DupeMap_CanFwd_keeps hash d payload _ h)
      (fun op hop => hops op (List.mem_cons_of_mem _ hop))
  | .roundUpdate round :: ops, d, h, hops => by
    simp only [DupeMap.run]
    refine DupeMap_run_keeps hash expired added key ops _ ?_
      (fun op hop => hops op (List.mem_cons_of_mem _ hop))
    have hc : expired round added = false := hops (.roundUpdate round) (List.mem_cons_self _ _)
    simp only [DupeMap.CleanOnRound, List.mem_filter]
    exact ⟨h, by simp [hc]⟩

/-- C23: for every payload, the first CanFwd with it on a fresh filter returns true, and
after any later calls of CanFwd and any round updates that did not clean the filter of the
entries of the first round, CanFwd with the same payload returns false and leaves the
filter as it is; right after a round update that cleans the filter of them, CanFwd with the
payload returns true again. -/
theorem DupeMap_CanFwd_first_time_only (hash : List Nat → Nat) (expired : Nat → Nat → Bool)
    (payload : List Nat) :
    (NewDupeMap.CanFwd hash payload).1 = true ∧
    (∀ ops : List DupeOp, (∀ op ∈ ops, op.cleans expired 0 = false) →
      ((DupeMap.run hash expired (NewDupeMap.CanFwd hash payload).2 ops).1.CanFwd hash
          payload)
        = (false, (DupeMap.run hash expired (NewDupeMap.CanFwd hash payload).2 ops).1)) ∧
    (∀ round, expired round 0 = true →
      (((NewDupeMap.CanFwd hash payload).2.CleanOnRound expired round).CanFwd hash payload).1
        = true) := by
  have h1 : NewDupeMap.CanFwd hash payload
      = (true, { round := 0, seen := [(0, hash payload)] }) := rfl
  refine ⟨by rw [h1], ?_, ?_⟩
  · intro ops hops
    apply DupeMap_CanFwd_seen hash _ payload 0
    apply DupeMap_run_keeps hash expired 0 (hash payload) ops _ _ hops
    rw [h1]
    exact List.mem_singleton.mpr rfl
  · intro round hr
    rw [h1]
    simp [DupeMap.CleanOnRound, DupeMap.CanFwd, hr]

/-- C23, on a run of the first test: true at first, then false after another call and the
update to round 2; true again after the update to round 4. -/
theorem DupeMap_CanFwd_first_time_only_witness :
    (NewDupeMap.CanFwd samplePayloadKey samplePayloadBytes).1 = true ∧
    ((DupeMap.run samplePayloadKey sampleExpired
        (NewDupeMap.CanFwd samplePayloadKey samplePayloadBytes).2
        [.canFwd samplePayloadBytes, .roundUpdate 2]).1.CanFwd samplePayloadKey
          samplePayloadBytes)
      = (false, (DupeMap.run samplePayloadKey sampleExpired
        (NewDupeMap.CanFwd samplePayloadKey samplePayloadBytes).2
        [.canFwd samplePayloadBytes, .roundUpdate 2]).1) ∧
    (((NewDupeMap.CanFwd samplePayloadKey samplePayloadBytes).2.CleanOnRound sampleExpired
        4).CanFwd samplePayloadKey samplePayloadBytes).1 = true :=
  ⟨(DupeMap_CanFwd_first_time_only samplePayloadKey sampleExpired samplePayloadBytes).1,
   (DupeMap_CanFwd_first_time_only samplePayloadKey sampleExpired samplePayloadBytes).2.1
      [.canFwd samplePayloadBytes, .roundUpdate 2] (by decide),
   (DupeMap_CanFwd_first_time_only samplePayloadKey sampleExpired samplePayloadBytes).2.2
      4 (by decide)⟩

/-- The two tests of the filter, run on the sample cleaning rule. -/
theorem DupeMap_tests :
    (DupeMap.run samplePayloadKey sampleExpired NewDupeMap
      [.canFwd samplePayloadBytes, .canFwd samplePayloadBytes, .roundUpdate 2,
        .canFwd samplePayloadBytes]).2 = [true, false, false] ∧
    (DupeMap.run samplePayloadKey sampleExpired NewDupeMap
      [.canFwd samplePayloadBytes, .canFwd samplePayloadBytes, .roundUpdate 4,
        .canFwd samplePayloadBytes, .canFwd samplePayloadBytes, .roundUpdate 5,
        .canFwd samplePayloadBytes]).2 = [true, false, true, false, false] := by
  refine ⟨by decide, by decide⟩

/-! ### The signature set phase: auxiliary facts, C24 and C26 -/

/-- A candidate whose sender is not among the voters is handed to processMsg, and the
voters stay as they are. -/
theorem collectBody_processes (env : SigSetEnv) (s : CollectState) (m : SigSetMsg)
    (set : Bytes) (hp : m.Payload = .SigSetCandidate set)
    (hv : s.voters.any (fun voter => bytesEqual voter m.PubKey) = false) :
    ∃ s1, s1.processed = s.processed ++ [m] ∧ s1.voters = s.voters ∧
      ((env.processMsg s.ctx m).2.2 = none ∧ collectBody env s (.msg m) = .next s1 ∨
       ∃ err, collectBody env s (.msg m) = .ret s1 (some err)) := by
  unfold collectBody
  simp only [hp, hv, Bool.false_eq_true, if_false]
  cases he : (env.processMsg s.ctx m).2.2 with
  | some err =>
    exact ⟨{ s with processed := s.processed ++ [m] }, rfl, rfl, Or.inr ⟨err, rfl⟩⟩
  | none =>
    simp only
    by_cases hvalid : (env.processMsg s.ctx m).1 = true
    · simp only [hvalid, Bool.not_true, Bool.false_eq_true, if_false]
      by_cases hs : (env.processMsg s.ctx m).2.1 > s.highest
      · rw [if_pos hs]
        exact ⟨{ s with processed := s.processed ++ [m], highest := (env.processMsg s.ctx m).2.1,
                        ctx := { s.ctx with SignatureSet := set } },
          rfl, rfl, Or.inl ⟨trivial, rfl⟩⟩
      · rw [if_neg hs]
        exact ⟨{ s with processed := s.processed ++ [m] }, rfl, rfl, Or.inl ⟨trivial, rfl⟩⟩
    · have : (env.processMsg s.ctx m).1 = false := by simpa using hvalid
      simp only [this, Bool.not_false, if_true]
      exact ⟨{ s with processed := s.processed ++ [m] }, rfl, rfl, Or.inl ⟨trivial, rfl⟩⟩

/-- C24, a defect of the code: signatureSetCollection never adds a sender to voters, which
holds the key of the node alone from start to end. A second candidate of a sender whose
first candidate was valid is not skipped: it is handed to processMsg like the first. -/
theorem signatureSetCollection_processes_sender_again (env : SigSetEnv)
    (ctx : SigSetContext) (m1 m2 : SigSetMsg) (set1 set2 : Bytes)
    (h1 : m1.Payload = .SigSetCandidate set1) (h2 : m2.Payload = .SigSetCandidate set2)
    (hown : bytesEqual ctx.Keys.EdPubKey m1.PubKey = false)
    (hsame : m2.PubKey = m1.PubKey)
    (hvalid : (env.processMsg ctx m1).1 = true)
    (hok : (env.processMsg ctx m1).2.2 = none) :
    ∃ s err, signatureSetCollection env ctx [.msg m1, .msg m2, .timer] = .returned s err ∧
      s.processed = [m1, m2] ∧ s.voters = [ctx.Keys.EdPubKey] := by
  unfold signatureSetCollection
  obtain ⟨s1, hp1, hv1, hb1⟩ := collectBody_processes env
    { ctx := ctx, voters := [ctx.Keys.EdPubKey], highest := ctx.weight, processed := [] }
    m1 set1 h1 (by simp [hown])
  rcases hb1 with ⟨_, hb1⟩ | ⟨err, hb1⟩
  · obtain ⟨s2, hp2, hv2, hb2⟩ := collectBody_processes env s1 m2 set2 h2
      (by rw [hv1, hsame]; simp [hown])
    rcases hb2 with ⟨_, hb2⟩ | ⟨err, hb2⟩
    · refine ⟨s2, none, ?_, ?_, ?_⟩
      · simp only [collectLoop, hb1, hb2]
        rfl
      · rw [hp2, hp1]; rfl
      · rw [hv2, hv1]
    · refine ⟨s2, some err, ?_, ?_, ?_⟩
      · simp only [collectLoop, hb1, hb2]
      · rw [hp2, hp1]; rfl
      · rw [hv2, hv1]
  · exfalso
    unfold collectBody at hb1
    simp only [h1, List.any_cons, List.any_nil, hown, Bool.or_false, Bool.false_eq_true,
      if_false, hok, hvalid, Bool.not_true] at hb1
    split at hb1 <;> cases hb1

/-- C24, on a run: two candidates of A, then the timer. -/
theorem signatureSetCollection_processes_sender_again_witness :
    ∃ s err, signatureSetCollection sampleSigSetEnv sampleSigSetCtx
        [.msg (candidateMsg 4), .msg (candidateMsg 5), .timer] = .returned s err ∧
      s.processed = [candidateMsg 4, candidateMsg 5] ∧
      s.voters = [sampleSigSetCtx.Keys.EdPubKey] :=
  signatureSetCollection_processes_sender_again sampleSigSetEnv sampleSigSetCtx
    (candidateMsg 4) (candidateMsg 5) _ _ rfl rfl (by decide) rfl rfl rfl

/-- The run of C24 in full: both candidates of A were processed, and the signature set is
that of the first. -/
theorem signatureSetCollection_sample :
    signatureSetCollection sampleSigSetEnv sampleSigSetCtx
        [.msg (candidateMsg 4), .msg (candidateMsg 5), .timer]
      = .returned
          { ctx := { sampleSigSetCtx with SignatureSet := some (List.replicate 200 4) },
            voters := [keyLocal], highest := 20,
            processed := [candidateMsg 4, candidateMsg 5] } none := by
  rfl

/-- The sender key of a message is the key handed to NewMsgConsensus. -/
theorem NewMsgConsensus_key (env : SigSetEnv) (ctx : SigSetContext) (sigEd key : Bytes)
    (pl : SigSetPayload) (msg : SigSetMsg)
    (h : NewMsgConsensus env ctx sigEd key pl = .ok msg) : msg.PubKey = key := by
  unfold NewMsgConsensus at h
  split at h
  · cases h
  · cases h; rfl

/-- C26, a defect of the code: every message that committeeVoteSigSet hands to SendMessage
carries ctx.Keys.EdSecretKey in its sender-key field, whereas the message of
signatureSetGeneration carries ctx.Keys.EdPubKey; on the sample context the message
gossiped has the 64 bytes of the secret key as its sender key. -/
theorem committeeVoteSigSet_gossips_secret_key :
    (∀ (env : SigSetEnv) (ctx : SigSetContext) (msg : SigSetMsg),
      msg ∈ (committeeVoteSigSet env ctx).1 → msg.PubKey = ctx.Keys.EdSecretKey) ∧
    (∀ (env : SigSetEnv) (ctx : SigSetContext) (msg : SigSetMsg),
      msg ∈ (signatureSetGeneration env ctx).2.1 → msg.PubKey = ctx.Keys.EdPubKey) ∧
    (committeeVoteSigSet sampleSigSetEnv sampleSigSetCtx).1.map (fun msg => msg.PubKey)
      = [secretLocal] ∧
    (committeeVoteSigSet sampleSigSetEnv sampleSigSetCtx).2 = none ∧
    (signatureSetGeneration sampleSigSetEnv sampleSigSetCtx).2.1.map (fun msg => msg.PubKey)
      = [keyLocal] ∧
    bytesEqual secretLocal keyLocal = false := by
  refine ⟨?_, ?_, by rfl, by rfl, by rfl, by decide⟩
  · intro env ctx msg h
    unfold committeeVoteSigSet at h
    cases h1 : env.BLSSign ctx ctx.SignatureSet with
    | error e => simp [h1] at h
    | ok sigBLS =>
      cases h2 : env.Sha3256 ctx.SignatureSet with
      | error e => simp [h1, h2] at h
      | ok sigSetHash =>
        cases h3 : env.NewSigSetVoteCheck ctx sigSetHash sigBLS with
        | some e => simp [h1, h2, h3] at h
        | none =>
          simp only [h1, h2, h3] at h
          split at h
          · simp at h
          · next m hm =>
            simp only [List.mem_singleton] at h
            rw [h]
            exact NewMsgConsensus_key _ _ _ _ _ _ hm
  · intro env ctx msg h
    unfold signatureSetGeneration at h
    cases h1 : env.NewSigSetCandidateCheck { ctx with SignatureSet := env.RandEntropy } with
    | some e => simp [h1] at h
    | none =>
      simp only [h1] at h
      split at h
      · simp at h
      · split at h
        · simp at h
        · next m hm =>
          simp only [List.mem_singleton] at h
          rw [h]
          exact NewMsgConsensus_key _ _ _ _ _ _ hm

/-! ### ReadMessage: C25 -/

/-- C25: ReadMessage returns a payload only if the header was decoded, its magic is the
expected one, its checksum matches the payload bytes read and its command is one of the
handled ones; when the magic differs, the checksum does not match or the command is not
handled (GetBlocks and Block among them), and when the header cannot be read or decoded,
it returns a nil payload and a non-nil error. -/
theorem ReadMessage_payload_only_if_checked {P : Type} (env : WireEnv P) (r : List Nat)
    (magic : Nat) :
    (∀ p e, ReadMessage env r magic = (some p, e) →
      env.HeaderSize ≤ r.length ∧
      ∃ hdr, env.HeaderDecode (r.take env.HeaderSize) = .ok hdr ∧ magic = hdr.Magic ∧
        env.CompareChecksum (r.drop env.HeaderSize) hdr.Checksum = true ∧
        (hdr.Command.hasPayload = true ∨ hdr.Command.payloadless = true)) ∧
    (∀ hdr, env.HeaderSize ≤ r.length →
      env.HeaderDecode (r.take env.HeaderSize) = .ok hdr →
      (magic ≠ hdr.Magic ∨
        env.CompareChecksum (r.drop env.HeaderSize) hdr.Checksum = false ∨
        (hdr.Command.hasPayload = false ∧ hdr.Command.payloadless = false)) →
      ∃ err, ReadMessage env r magic = (none, some err)) ∧
    (∀ hdr, env.HeaderSize ≤ r.length →
      env.HeaderDecode (r.take env.HeaderSize) = .ok hdr →
      (hdr.Command = .GetBlocks ∨ hdr.Command = .Block) →
      ∃ err, ReadMessage env r magic = (none, some err)) ∧
    (r.length < env.HeaderSize → ReadMessage env r magic = (none, some errShortRead)) ∧
    (∀ err, env.HeaderSize ≤ r.length →
      env.HeaderDecode (r.take env.HeaderSize) = .error err →
      ReadMessage env r magic = (none, some err)) := by
  have main : ∀ hdr, env.HeaderSize ≤ r.length →
      env.HeaderDecode (r.take env.HeaderSize) = .ok hdr →
      (magic ≠ hdr.Magic ∨
        env.CompareChecksum (r.drop env.HeaderSize) hdr.Checksum = false ∨
        (hdr.Command.hasPayload = false ∧ hdr.Command.payloadless = false)) →
      ∃ err, ReadMessage env r magic = (none, some err) := by
    intro hdr hlen hdec hbad
    have hl : ¬ r.length < env.HeaderSize := by omega
    unfold ReadMessage
    simp only [hl, if_false, hdec]
    by_cases hm : magic ≠ hdr.Magic
    · exact ⟨errMagicMismatch, by rw [if_pos hm]⟩
    · rw [if_neg hm]
      cases hc : env.CompareChecksum (List.drop env.HeaderSize r) hdr.Checksum with
      | false => exact ⟨errChecksumMismatch, by simp⟩
      | true =>
        rcases hbad with h | h | ⟨h1, h2⟩
        · exact absurd h hm
        · rw [hc] at h; cases h
        · simp only [Bool.not_true, Bool.false_eq_true, if_false]
          cases hcmd : hdr.Command <;> rw [hcmd] at h1 h2 <;>
            first
              | (exact ⟨errUnknownCommand, rfl⟩)
              | (exact absurd h1 (by decide))
              | (exact absurd h2 (by decide))
  refine ⟨?_, main, ?_, ?_, ?_⟩
  · intro p e h
    by_cases hl : r.length < env.HeaderSize
    · unfold ReadMessage at h
      simp only [hl, if_true] at h
      cases h
    · refine ⟨by omega, ?_⟩
      cases hdec : env.HeaderDecode (r.take env.HeaderSize) with
      | error err =>
        unfold ReadMessage at h
        simp only [hl, if_false, hdec] at h
        cases h
      | ok hdr =>
        refine ⟨hdr, rfl, ?_⟩
        by_contra hcon
        have hbad : magic ≠ hdr.Magic ∨
            env.CompareChecksum (r.drop env.HeaderSize) hdr.Checksum = false ∨
            (hdr.Command.hasPayload = false ∧ hdr.Command.payloadless = false) := by
          by_contra hnb
          apply hcon
          simp only [not_or, not_and, ne_eq, not_not, Bool.not_eq_false] at hnb
          refine ⟨hnb.1, hnb.2.1, ?_⟩
          cases hp : hdr.Command.hasPayload with
          | true => exact Or.inl rfl
          | false =>
            right
            cases hq : hdr.Command.payloadless with
            | true => rfl
            | false => exact absurd hq (by simpa using hnb.2.2 hp)
        obtain ⟨err, herr⟩ := main hdr (by omega) hdec hbad
        rw [herr] at h
        cases h
  · intro hdr hlen hdec hc
    refine main hdr hlen hdec (Or.inr (Or.inr ?_))
    rcases hc with h | h <;> rw [h] <;> exact ⟨rfl, rfl⟩
  · intro hl
    unfold ReadMessage
    simp only [hl, if_true]
  · intro err hlen hdec
    have hl : ¬ r.length < env.HeaderSize := by omega
    unfold ReadMessage
    simp only [hl, if_false, hdec]

/-- C25, on runs: a Ping with the right magic and checksum, a GetBlocks message, and a Ping
with a wrong checksum. -/
theorem ReadMessage_payload_only_if_checked_witness :
    (24 ≤ [13, 12, 11, 10, 2, 0, 0, 0, 0, 0, 0, 0, 0, 0, 0, 0, 0, 0, 0, 0, 0, 0, 0, 0].length ∧
      ∃ hdr, sampleHeaderDecode
          ([13, 12, 11, 10, 2, 0, 0, 0, 0, 0, 0, 0, 0, 0, 0, 0, 0, 0, 0, 0, 0, 0, 0, 0].take 24)
            = .ok hdr ∧
        sampleMagic = hdr.Magic ∧
        sampleWireEnv.CompareChecksum
          ([13, 12, 11, 10, 2, 0, 0, 0, 0, 0, 0, 0, 0, 0, 0, 0, 0, 0, 0, 0, 0, 0, 0, 0].drop 24)
            hdr.Checksum = true ∧
        (hdr.Command.hasPayload = true ∨ hdr.Command.payloadless = true)) ∧
    (∃ err, ReadMessage sampleWireEnv
        [13, 12, 11, 10, 7, 0, 0, 0, 0, 0, 0, 0, 0, 0, 0, 0, 0, 0, 0, 0, 0, 0, 0, 0]
        sampleMagic = (none, some err)) ∧
    (∃ err, ReadMessage sampleWireEnv
        [13, 12, 11, 10, 2, 0, 0, 0, 0, 0, 0, 0, 0, 0, 0, 0, 0, 0, 0, 0, 9, 0, 0, 0]
        sampleMagic = (none, some err)) :=
  ⟨(ReadMessage_payload_only_if_checked sampleWireEnv
      [13, 12, 11, 10, 2, 0, 0, 0, 0, 0, 0, 0, 0, 0, 0, 0, 0, 0, 0, 0, 0, 0, 0, 0]
      sampleMagic).1 ⟨.Ping, []⟩ none (by decide),
   (ReadMessage_payload_only_if_checked sampleWireEnv
      [13, 12, 11, 10, 7, 0, 0, 0, 0, 0, 0, 0, 0, 0, 0, 0, 0, 0, 0, 0, 0, 0, 0, 0]
      sampleMagic).2.2.1 ⟨sampleMagic, .GetBlocks, 0, 0⟩ (by decide) rfl (Or.inl rfl),
   (ReadMessage_payload_only_if_checked sampleWireEnv
      [13, 12, 11, 10, 2, 0, 0, 0, 0, 0, 0, 0, 0, 0, 0, 0, 0, 0, 0, 0, 9, 0, 0, 0]
      sampleMagic).2.1 ⟨sampleMagic, .Ping, 0, 9⟩ (by decide) rfl
      (Or.inr (Or.inl (by decide)))⟩

/-! ### The handshake: C27 -/

/-- C27, a defect of the code: readRemoteMsgVersion and readVerack return the nil error of
the read when the message is of another type, and inboundHandShake never reads the error of
writing the verack. So both handshakes return nil when the remote sent two messages that
are neither a MsgVersion nor a MsgVerAck, with OnVersion never called and verackReceived
still false; and inboundHandShake returns nil when the write of the verack failed, where
outboundHandShake returns the error. -/
theorem handShake_nil_without_checks (onVersion : PeerMsg → Option GoError)
    (version c1 c2 v : Nat) (werr : GoError) :
    inboundHandShake (PeerEnv.mk version none (fun _ => none) onVersion)
        (Peer.mk [(some (.Other c1), none), (some (.Other c2), none)] false [] [])
      = (none, Peer.mk [] false [.MsgVersion version, .MsgVerAck] []) ∧
    outboundHandShake (PeerEnv.mk version none (fun _ => none) onVersion)
        (Peer.mk [(some (.Other c1), none), (some (.Other c2), none)] false [] [])
      = (none, Peer.mk [] false [.MsgVersion version, .MsgVerAck] []) ∧
    inboundHandShake
        (PeerEnv.mk version none (fun msg => if msg = .MsgVerAck then some werr else none)
          (fun _ => none))
        (Peer.mk [(some (.MsgVersion v), none), (some .MsgVerAck, none)] false [] [])
      = (none, Peer.mk [] true [.MsgVersion version, .MsgVerAck] [.MsgVersion v]) ∧
    outboundHandShake
        (PeerEnv.mk version none (fun msg => if msg = .MsgVerAck then some werr else none)
          (fun _ => none))
        (Peer.mk [(some (.MsgVersion v), none), (some .MsgVerAck, none)] false [] [])
      = (some werr, Peer.mk [] true [.MsgVersion version, .MsgVerAck] [.MsgVersion v]) := by
  refine ⟨rfl, rfl, ?_, ?_⟩
  · simp [inboundHandShake, writeLocalMsgVersion, readRemoteMsgVersion, readVerack,
      Peer.Write, Peer.ReadMessage]
  · simp [outboundHandShake, writeLocalMsgVersion, readRemoteMsgVersion, readVerack,
      Peer.Write, Peer.ReadMessage]

end Dusk
